import Mathlib

/-!
Verification of the associative containers of this repository: the recursive
trie hash table (infinite_hash_table.py) and the composite key table
(double_key_table.py), together with a model of the external single key
linear probe table that the composite table nests.

Strings are represented as lists of character codes.  Recursive Python
methods are embedded as fuel indexed functions: an outermost `none` means
the fuel ran out (the Python call would still be running), while raised
exceptions are explicit values of the result type.
-/

/-- A key: the list of character codes of a Python string. -/
abbrev IKey := List Nat

namespace IHT

/-- A slot of the recursive trie hash table (class InfiniteHashTable):
either a leaf key/value pair, or a nested table carrying its own `level`
and its 27 element slot array. -/
inductive Sl where
| leaf (k : IKey) (v : Nat) : Sl
| sub (lvl : Nat) (slots : List (Option Sl)) : Sl

/-- InfiniteHashTable.hash: `ord(key[level]) % (TABLE_SIZE - 1)` when the
level is inside the key, else the reserved last index `TABLE_SIZE - 1 = 26`. -/
def hashI (lvl : Nat) (k : IKey) : Nat :=
  if lvl < k.length then k.getD lvl 0 % 26 else 26

/-- The slot array of a freshly constructed InfiniteHashTable. -/
def emptySlots : List (Option Sl) := List.replicate 27 none

/-- InfiniteHashTable.__getitem__.  Result `some none` is a KeyError,
`some (some v)` is a returned value. -/
def getF : Nat → Nat → List (Option Sl) → IKey → Option (Option Nat)
| 0, _, _, _ => none
| f + 1, lvl, slots, key =>
  match slots.getD (hashI lvl key) none with
  | some (.sub l2 s2) => getF f l2 s2 key
  | some (.leaf k0 v0) => some (if k0 = key then some v0 else none)
  | none => some none

/-- InfiniteHashTable.__setitem__.  On a collision between two leaves a
nested table at `level + 1` is created, the existing leaf is inserted
first and then the new pair. -/
def setF : Nat → Nat → List (Option Sl) → IKey → Nat → Option (List (Option Sl))
| 0, _, _, _, _ => none
| f + 1, lvl, slots, key, value =>
  let i := hashI lvl key
  match slots.getD i none with
  | none => some (slots.set i (some (.leaf key value)))
  | some (.sub l2 s2) =>
    match setF f l2 s2 key value with
    | none => none
    | some s2x => some (slots.set i (some (.sub l2 s2x)))
  | some (.leaf k0 v0) =>
    if k0 = key then some (slots.set i (some (.leaf key value)))
    else
      match setF f (lvl + 1) emptySlots k0 v0 with
      | none => none
      | some s1 =>
        match setF f (lvl + 1) s1 key value with
        | none => none
        | some s2x => some (slots.set i (some (.sub (lvl + 1) s2x)))

/-- One pass of InfiniteHashTable.__len__ over a slot list, with the
recursive length of nested tables supplied by `rec`. -/
def lenGo (rec : List (Option Sl) → Option Nat) : List (Option Sl) → Option Nat
| [] => some 0
| none :: rest => lenGo rec rest
| some (.leaf _ _) :: rest => (lenGo rec rest).map (fun n => n + 1)
| some (.sub _ s2) :: rest =>
  match rec s2, lenGo rec rest with
  | some a, some b => some (a + b)
  | _, _ => none

/-- InfiniteHashTable.__len__ (recursive leaf count).  Fuel is consumed
once per nesting level. -/
def lenF : Nat → List (Option Sl) → Option Nat
| 0, _ => none
| f + 1, slots => lenGo (lenF f) slots

/-- One pass of InfiniteHashTable.items over a slot list, with the items
of nested tables supplied by `rec`. -/
def itemsGo (rec : List (Option Sl) → Option (List (IKey × Nat))) :
    List (Option Sl) → Option (List (IKey × Nat))
| [] => some []
| none :: rest => itemsGo rec rest
| some (.leaf k v) :: rest => (itemsGo rec rest).map (fun r => (k, v) :: r)
| some (.sub _ s2) :: rest =>
  match rec s2, itemsGo rec rest with
  | some a, some b => some (a ++ b)
  | _, _ => none

/-- InfiniteHashTable.items (recursive leaf collection in slot order).
Fuel is consumed once per nesting level. -/
def itemsF : Nat → List (Option Sl) → Option (List (IKey × Nat))
| 0, _ => none
| f + 1, slots => itemsGo (itemsF f) slots

/-- InfiniteHashTable.__delitem__.  Result `some none` is a KeyError,
`some (some slots)` the updated table.  After a delegated delete the
nested table is elevated to its single remaining pair when its length is
1 and cleared when its length is 0. -/
def delF : Nat → Nat → List (Option Sl) → IKey → Option (Option (List (Option Sl)))
| 0, _, _, _ => none
| f + 1, lvl, slots, key =>
  let i := hashI lvl key
  match slots.getD i none with
  | none => some none
  | some (.sub l2 s2) =>
    match delF f l2 s2 key with
    | none => none
    | some none => some none
    | some (some s2x) =>
      match lenF f s2x with
      | none => none
      | some n =>
        if n = 1 then
          match itemsF f s2x with
          | some ((k, v) :: _) => some (some (slots.set i (some (.leaf k v))))
          | _ => none
        else if n = 0 then some (some (slots.set i none))
        else some (some (slots.set i (some (.sub l2 s2x))))
  | some (.leaf k0 _) =>
    if k0 = key then some (some (slots.set i none))
    else some none

/-- InfiniteHashTable.get_location.  Result `some none` is a KeyError,
`some (some l)` the list of slot indices leading to the key. -/
def getLocF : Nat → Nat → List (Option Sl) → IKey → Option (Option (List Nat))
| 0, _, _, _ => none
| f + 1, lvl, slots, key =>
  let i := hashI lvl key
  match slots.getD i none with
  | none => some none
  | some (.sub l2 s2) =>
    match getLocF f l2 s2 key with
    | none => none
    | some none => some none
    | some (some l) => some (some (i :: l))
  | some (.leaf k0 _) => some (if k0 = key then some [i] else none)

/-- Structural well formedness of a table at level `lvl`: 27 slots, every
leaf sits at the slot its key hashes to, every nested table carries level
`lvl + 1`, is well formed, holds at least two pairs, and all its keys hash
to the slot the nested table occupies. -/
def invB : Nat → Nat → List (Option Sl) → Bool
| 0, _, _ => false
| f + 1, lvl, slots =>
  (slots.length == 27) &&
  (List.range 27).all (fun i =>
    match slots.getD i none with
    | none => true
    | some (.leaf k _) => hashI lvl k == i
    | some (.sub l2 s2) =>
      (l2 == lvl + 1) && invB f (lvl + 1) s2 &&
      (match itemsF f s2 with
       | none => false
       | some its => decide (2 ≤ its.length) &&
           its.all (fun kv => hashI lvl kv.1 == i)))

/-- The items contributed by a single slot. -/
def slotItems (rec : List (Option Sl) → Option (List (IKey × Nat))) :
    Option Sl → Option (List (IKey × Nat))
| none => some []
| some (.leaf k v) => some [(k, v)]
| some (.sub _ s2) => rec s2

/-- A lowercase letter character code. -/
def lowChar (c : Nat) : Bool := decide (97 ≤ c) && decide (c ≤ 122)

/-- A key made of lowercase letters only. -/
def lowKey (k : IKey) : Bool := k.all lowChar

/-- Lowercase/depth invariant: every leaf key consists of lowercase
letters and is at a nesting level at most its length. -/
def lowB : Nat → Nat → List (Option Sl) → Bool
| 0, _, _ => false
| f + 1, lvl, slots =>
  slots.all (fun o =>
    match o with
    | none => true
    | some (.leaf k _) => lowKey k && decide (lvl ≤ k.length)
    | some (.sub _ s2) => lowB f (lvl + 1) s2)

end IHT

/-- Setting an index to the element already there is the identity. -/
theorem listSetSelf {α : Type} (l : List α) (i : Nat) (h : i < l.length) :
    l.set i (l[i]) = l := by
  apply List.ext_getElem
  · simp
  · intro j h1 h2
    simp only [List.getElem_set]
    split
    · next heq => subst heq; rfl
    · rfl

/-- Decomposing a list around one of its positions. -/
theorem listSelfDecomp {α : Type} (l : List α) (i : Nat) (d : α) (h : i < l.length) :
    l = l.take i ++ l.getD i d :: l.drop (i + 1) := by
  have h1 : l.getD i d = l[i] := by simp [List.getD, List.getElem?_eq_getElem h]
  rw [h1]
  conv_lhs => rw [← listSetSelf l i h]
  exact List.set_eq_take_cons_drop _ h

namespace IHT

/-- One slot in front of a slot list contributes its own items first. -/
theorem itemsGo_cons_slot (rec : List (Option Sl) → Option (List (IKey × Nat)))
    (o : Option Sl) (rest : List (Option Sl)) :
    itemsGo rec (o :: rest) =
      match slotItems rec o, itemsGo rec rest with
      | some x, some y => some (x ++ y)
      | _, _ => none := by
  cases o with
  | none =>
    simp only [itemsGo, slotItems]
    cases itemsGo rec rest <;> simp
  | some sl =>
    cases sl with
    | leaf k v =>
      simp only [itemsGo, slotItems]
      cases itemsGo rec rest <;> simp
    | sub l2 s2 => simp only [itemsGo, slotItems]

/-- Items of an appended slot list combine by appending. -/
theorem itemsGo_append (rec : List (Option Sl) → Option (List (IKey × Nat))) :
    ∀ a b, itemsGo rec (a ++ b) =
      match itemsGo rec a, itemsGo rec b with
      | some x, some y => some (x ++ y)
      | _, _ => none := by
  intro a
  induction a with
  | nil =>
    intro b
    simp only [List.nil_append, itemsGo]
    cases itemsGo rec b <;> simp
  | cons o rest ih =>
    intro b
    rw [List.cons_append, itemsGo_cons_slot, itemsGo_cons_slot, ih]
    cases slotItems rec o <;> cases itemsGo rec rest <;> cases itemsGo rec b <;> simp

/-- Membership in the item list of a slot list, characterised by the slot
the item comes from. -/
theorem itemsGo_mem (rec : List (Option Sl) → Option (List (IKey × Nat))) :
    ∀ slots its, itemsGo rec slots = some its → ∀ p : IKey × Nat,
      (p ∈ its ↔ ∃ j, j < slots.length ∧
        (match slots.getD j none with
         | none => False
         | some (.leaf k v) => p = (k, v)
         | some (.sub _ s2) => ∃ its2, rec s2 = some its2 ∧ p ∈ its2)) := by
  intro slots
  induction slots with
  | nil =>
    intro its h p
    simp only [itemsGo] at h
    cases h
    simp
  | cons o rest ih =>
    intro its h p
    rw [itemsGo_cons_slot] at h
    cases hm : slotItems rec o with
    | none => rw [hm] at h; cases h
    | some x =>
      cases hr : itemsGo rec rest with
      | none => rw [hm, hr] at h; cases h
      | some y =>
        rw [hm, hr] at h
        cases h
        constructor
        · intro hp
          rcases List.mem_append.mp hp with hx | hy
          · refine ⟨0, by simp, ?_⟩
            cases o with
            | none => simp only [slotItems] at hm; cases hm; simp at hx
            | some sl =>
              cases sl with
              | leaf k v =>
                simp only [slotItems] at hm; cases hm
                simp at hx
                simpa using hx
              | sub l2 s2 =>
                simp only [slotItems] at hm
                exact ⟨x, hm, hx⟩
          · rcases (ih y hr p).mp hy with ⟨j, hj, hmm⟩
            exact ⟨j + 1, by simpa using hj, by simpa using hmm⟩
        · rintro ⟨j, hj, hmm⟩
          cases j with
          | zero =>
            apply List.mem_append.mpr
            left
            simp only [List.getD_cons_zero] at hmm
            cases o with
            | none => simp at hmm
            | some sl =>
              cases sl with
              | leaf k v =>
                simp only [slotItems] at hm; cases hm
                simp at hmm
                simp [hmm]
              | sub l2 s2 =>
                simp only [slotItems] at hm
                rcases hmm with ⟨its2, h2, hp2⟩
                rw [hm] at h2
                cases h2
                exact hp2
          | succ j2 =>
            apply List.mem_append.mpr
            right
            exact (ih y hr p).mpr ⟨j2, by simpa using hj, by simpa using hmm⟩

/-- Items of a slot list, decomposed around one slot position. -/
theorem itemsGo_split (rec : List (Option Sl) → Option (List (IKey × Nat)))
    (slots : List (Option Sl)) (i : Nat) (h : i < slots.length) :
    itemsGo rec slots =
      match itemsGo rec (slots.take i), slotItems rec (slots.getD i none),
            itemsGo rec (slots.drop (i + 1)) with
      | some x, some m, some y => some (x ++ m ++ y)
      | _, _, _ => none := by
  conv_lhs => rw [listSelfDecomp slots i none h]
  rw [itemsGo_append, itemsGo_cons_slot]
  cases itemsGo rec (slots.take i) <;> cases slotItems rec (slots.getD i none) <;>
    cases itemsGo rec (slots.drop (i + 1)) <;> simp

/-- Items of a slot list after updating one slot. -/
theorem itemsGo_set (rec : List (Option Sl) → Option (List (IKey × Nat)))
    (slots : List (Option Sl)) (i : Nat) (x : Option Sl) (h : i < slots.length) :
    itemsGo rec (slots.set i x) =
      match itemsGo rec (slots.take i), slotItems rec x,
            itemsGo rec (slots.drop (i + 1)) with
      | some a, some m, some y => some (a ++ m ++ y)
      | _, _, _ => none := by
  rw [List.set_eq_take_cons_drop x h, itemsGo_append, itemsGo_cons_slot]
  cases itemsGo rec (slots.take i) <;> cases slotItems rec x <;>
    cases itemsGo rec (slots.drop (i + 1)) <;> simp

/-- Items of a slot list whose slots are all empty. -/
theorem itemsGo_allNone (rec : List (Option Sl) → Option (List (IKey × Nat))) :
    ∀ l, (∀ o ∈ l, o = none) → itemsGo rec l = some [] := by
  intro l
  induction l with
  | nil => intro _; rfl
  | cons o rest ih =>
    intro h
    have ho : o = none := h o (List.mem_cons_self o rest)
    subst ho
    exact ih (fun o2 h2 => h o2 (List.mem_cons_of_mem none h2))

/-- The hash of the trie table always lands inside its 27 slots. -/
theorem hashI_lt (lvl : Nat) (k : IKey) : hashI lvl k < 27 := by
  unfold hashI
  split
  · exact Nat.lt_of_lt_of_le (Nat.mod_lt _ (by norm_num)) (by norm_num)
  · norm_num

/-- The per slot content of the structural invariant, as a proposition. -/
def SlotInv (f lvl : Nat) (slots : List (Option Sl)) (i : Nat) : Prop :=
  match slots.getD i none with
  | none => True
  | some (.leaf k _) => hashI lvl k = i
  | some (.sub l2 s2) => l2 = lvl + 1 ∧ invB f (lvl + 1) s2 = true ∧
      ∃ its, itemsF f s2 = some its ∧ 2 ≤ its.length ∧ ∀ p ∈ its, hashI lvl p.1 = i

/-- Unfolding of the structural invariant at positive fuel. -/
theorem invB_succ_iff (f lvl : Nat) (slots : List (Option Sl)) :
    invB (f + 1) lvl slots = true ↔
      (slots.length = 27 ∧ ∀ i, i < 27 → SlotInv f lvl slots i) := by
  simp only [invB, Bool.and_eq_true, beq_iff_eq, List.all_eq_true, List.mem_range]
  constructor
  · rintro ⟨hlen, hall⟩
    refine ⟨hlen, fun i hi => ?_⟩
    have h := hall i hi
    unfold SlotInv
    cases hg : slots.getD i none with
    | none => trivial
    | some sl =>
      rw [hg] at h
      cases sl with
      | leaf k v => simpa using h
      | sub l2 s2 =>
        simp only [Bool.and_eq_true, beq_iff_eq] at h
        cases hit : itemsF f s2 with
        | none => rw [hit] at h; simp at h
        | some its =>
          rw [hit] at h
          simp only [Bool.and_eq_true, decide_eq_true_eq, List.all_eq_true,
            beq_iff_eq] at h
          exact ⟨h.1.1, h.1.2, its, hit, h.2.1, fun p hp => h.2.2 p hp⟩
  · rintro ⟨hlen, hall⟩
    refine ⟨hlen, fun i hi => ?_⟩
    have h := hall i hi
    unfold SlotInv at h
    cases hg : slots.getD i none with
    | none => rfl
    | some sl =>
      rw [hg] at h
      cases sl with
      | leaf k v => simpa using h
      | sub l2 s2 =>
        rcases h with ⟨h1, h2, its, hits, hlen2, hhash⟩
        simp only [hits, Bool.and_eq_true, beq_iff_eq, decide_eq_true_eq,
          List.all_eq_true]
        exact ⟨⟨h1, h2⟩, hlen2, fun p hp => hhash p hp⟩

/-- The empty table has only empty slots. -/
theorem emptySlots_getD (i : Nat) : emptySlots.getD i none = none := by
  rw [List.getD_eq_getElem?_getD]
  cases h : emptySlots[i]? with
  | none => rfl
  | some x =>
    have hm : x ∈ emptySlots := List.getElem?_mem h
    have hx : x = none := by simpa [emptySlots] using hm
    rw [hx]
    rfl

/-- The empty 27 slot table satisfies the structural invariant. -/
theorem invB_empty (f lvl : Nat) : invB (f + 1) lvl emptySlots = true := by
  rw [invB_succ_iff]
  constructor
  · simp [emptySlots]
  · intro i hi
    unfold SlotInv
    rw [emptySlots_getD]
    trivial

end IHT

/-- Reading back an updated position. -/
theorem listGetDSetSelf {α : Type} (l : List α) (i : Nat) (x d : α)
    (h : i < l.length) : (l.set i x).getD i d = x := by
  simp [List.getD, List.getElem?_set, h]

/-- Reading a position other than the updated one. -/
theorem listGetDSetNe {α : Type} (l : List α) (i j : Nat) (x d : α)
    (h : i ≠ j) : (l.set i x).getD j d = l.getD j d := by
  simp [List.getD, List.getElem?_set, h]

namespace IHT

/-- The recursive length of a slot list is the length of its item list,
one pass. -/
theorem lenGo_eq_items (recI : List (Option Sl) → Option (List (IKey × Nat)))
    (recL : List (Option Sl) → Option Nat)
    (hrec : ∀ s2 its2, recI s2 = some its2 → recL s2 = some its2.length) :
    ∀ slots its, itemsGo recI slots = some its →
      lenGo recL slots = some its.length := by
  intro slots
  induction slots with
  | nil =>
    intro its h
    simp only [itemsGo] at h
    cases h
    rfl
  | cons o rest ih =>
    intro its h
    cases o with
    | none => exact ih its h
    | some sl =>
      cases sl with
      | leaf k v =>
        simp only [itemsGo] at h
        cases hr : itemsGo recI rest with
        | none => rw [hr] at h; cases h
        | some r =>
          rw [hr] at h
          have h2 : (k, v) :: r = its := by simpa using h
          cases h2
          simp [lenGo, ih r hr]
      | sub l2 s2 =>
        simp only [itemsGo] at h
        cases ha : recI s2 with
        | none => rw [ha] at h; cases h
        | some a =>
          cases hr : itemsGo recI rest with
          | none => rw [ha, hr] at h; cases h
          | some b =>
            rw [ha, hr] at h
            cases h
            simp only [lenGo, hrec s2 a ha, ih b hr, List.length_append]

/-- The recursive length of a table is the length of its item list. -/
theorem lenF_eq_items : ∀ f slots its, itemsF f slots = some its →
    lenF f slots = some its.length := by
  intro f
  induction f with
  | zero => intro slots its h; simp only [itemsF] at h; cases h
  | succ n ih =>
    intro slots its h
    simp only [itemsF] at h
    simp only [lenF]
    exact lenGo_eq_items (itemsF n) (lenF n) (fun s2 its2 h2 => ih s2 its2 h2)
      slots its h

/-- The one pass item collection succeeds when every nested slot has a
defined item list. -/
theorem itemsGo_total (rec : List (Option Sl) → Option (List (IKey × Nat))) :
    ∀ slots, (∀ o ∈ slots, ∀ l2 s2, o = some (.sub l2 s2) →
        ∃ its2, rec s2 = some its2) →
      ∃ its, itemsGo rec slots = some its := by
  intro slots
  induction slots with
  | nil => intro _; exact ⟨[], rfl⟩
  | cons o rest ih =>
    intro hmem
    obtain ⟨rits, hrits⟩ := ih (fun o2 ho2 l2 s2 he =>
      hmem o2 (List.mem_cons_of_mem o ho2) l2 s2 he)
    cases o with
    | none => exact ⟨rits, by simpa [itemsGo] using hrits⟩
    | some sl =>
      cases sl with
      | leaf k v => exact ⟨(k, v) :: rits, by simp [itemsGo, hrits]⟩
      | sub l2 s2 =>
        obtain ⟨a, ha⟩ := hmem (some (.sub l2 s2)) (List.mem_cons_self _ _)
          l2 s2 rfl
        exact ⟨a ++ rits, by simp [itemsGo, ha, hrits]⟩

/-- A structurally well formed table has a defined item list. -/
theorem invB_items : ∀ f lvl slots, invB f lvl slots = true →
    ∃ its, itemsF f slots = some its := by
  intro f lvl slots h
  cases f with
  | zero => simp [invB] at h
  | succ n =>
    rw [invB_succ_iff] at h
    obtain ⟨hlen, hslot⟩ := h
    simp only [itemsF]
    apply itemsGo_total
    intro o ho l2 s2 hosub
    obtain ⟨j, hj, hgj⟩ := List.getElem_of_mem ho
    have hj27 : j < 27 := by rw [hlen] at hj; exact hj
    have hgd : slots.getD j none = some (.sub l2 s2) := by
      rw [List.getD_eq_getElem?_getD, List.getElem?_eq_getElem hj, hgj, hosub]
      rfl
    have := hslot j hj27
    unfold SlotInv at this
    rw [hgd] at this
    exact ⟨this.2.2.choose, this.2.2.choose_spec.1⟩

/-- The empty table has 27 slots. -/
theorem emptySlots_length : emptySlots.length = 27 := by simp [emptySlots]

/-- Lookup in the empty table raises KeyError. -/
theorem getF_empty (f lvl : Nat) (key : IKey) :
    getF (f + 1) lvl emptySlots key = some none := by
  simp only [getF, emptySlots_getD]

/-- Lookup in a structurally well formed table always terminates. -/
theorem get_total : ∀ f lvl slots key, invB f lvl slots = true →
    ∃ r, getF f lvl slots key = some r := by
  intro f
  induction f with
  | zero => intro lvl slots key h; simp [invB] at h
  | succ n ih =>
    intro lvl slots key h
    rw [invB_succ_iff] at h
    obtain ⟨hlen, hslot⟩ := h
    simp only [getF]
    cases hg : slots.getD (hashI lvl key) none with
    | none => exact ⟨none, rfl⟩
    | some sl =>
      cases sl with
      | leaf k0 v0 => exact ⟨_, rfl⟩
      | sub l2 s2 =>
        have hs := hslot (hashI lvl key) (hashI_lt lvl key)
        unfold SlotInv at hs
        rw [hg] at hs
        obtain ⟨hl2, hinv, _⟩ := hs
        subst hl2
        exact ih (lvl + 1) s2 key hinv

/-- The empty table has no items. -/
theorem itemsF_empty (f : Nat) : itemsF (f + 1) emptySlots = some [] := by
  simp only [itemsF]
  apply itemsGo_allNone
  intro o ho
  simpa [emptySlots] using ho

/-- A table holding exactly one leaf at its hash position is well formed. -/
theorem invB_singleton (f lvl : Nat) (k : IKey) (v : Nat) :
    invB (f + 1) lvl (emptySlots.set (hashI lvl k) (some (.leaf k v))) = true := by
  rw [invB_succ_iff]
  constructor
  · simp [emptySlots]
  · intro i hi
    unfold SlotInv
    by_cases hie : hashI lvl k = i
    · subst hie
      rw [listGetDSetSelf _ _ _ _ (by rw [emptySlots_length]; exact hashI_lt lvl k)]
    · rw [listGetDSetNe _ _ _ _ _ hie, emptySlots_getD]
      trivial

/-- The items of a table holding exactly one leaf. -/
theorem itemsF_singleton (f lvl : Nat) (k : IKey) (v : Nat) :
    itemsF (f + 1) (emptySlots.set (hashI lvl k) (some (.leaf k v))) =
      some [(k, v)] := by
  simp only [itemsF]
  rw [itemsGo_set _ _ _ _ (by rw [emptySlots_length]; exact hashI_lt lvl k)]
  have h1 : itemsGo (itemsF f) (emptySlots.take (hashI lvl k)) = some [] :=
    itemsGo_allNone _ _ (fun o ho => by
      have hmem : o ∈ emptySlots := List.mem_of_mem_take ho
      simpa [emptySlots] using hmem)
  have h2 : itemsGo (itemsF f) (emptySlots.drop (hashI lvl k + 1)) = some [] :=
    itemsGo_allNone _ _ (fun o ho => by
      have hmem : o ∈ emptySlots := List.mem_of_mem_drop ho
      simpa [emptySlots] using hmem)
  rw [h1, h2]
  simp [slotItems]

/-- One step unfolding of lookup at an empty slot. -/
theorem getF_at_none {f lvl : Nat} {slots : List (Option Sl)} {key : IKey}
    (hg : slots.getD (hashI lvl key) none = none) :
    getF (f + 1) lvl slots key = some none := by
  simp only [getF, hg]

/-- One step unfolding of lookup at a leaf slot. -/
theorem getF_at_leaf {f lvl : Nat} {slots : List (Option Sl)} {key k0 : IKey}
    {v0 : Nat} (hg : slots.getD (hashI lvl key) none = some (.leaf k0 v0)) :
    getF (f + 1) lvl slots key = some (if k0 = key then some v0 else none) := by
  simp only [getF, hg]

/-- One step unfolding of lookup at a nested table slot. -/
theorem getF_at_sub {f lvl : Nat} {slots : List (Option Sl)} {key : IKey}
    {l2 : Nat} {s2 : List (Option Sl)}
    (hg : slots.getD (hashI lvl key) none = some (.sub l2 s2)) :
    getF (f + 1) lvl slots key = getF f l2 s2 key := by
  simp only [getF, hg]

/-- One step unfolding of insertion in the collision case. -/
theorem setF_at_collide {f lvl : Nat} {slots : List (Option Sl)}
    {key k0 : IKey} {v0 value : Nat} {s1 s2x : List (Option Sl)}
    (hg : slots.getD (hashI lvl key) none = some (.leaf k0 v0))
    (hk : ¬(k0 = key))
    (hc1 : setF f (lvl + 1) emptySlots k0 v0 = some s1)
    (hc2 : setF f (lvl + 1) s1 key value = some s2x) :
    setF (f + 1) lvl slots key value =
      some (slots.set (hashI lvl key) (some (.sub (lvl + 1) s2x))) := by
  simp only [setF, hg, if_neg hk, hc1, hc2]

/-- In a well formed table, every item lives at the slot its key hashes to. -/
theorem items_local (f lvl : Nat) (slots : List (Option Sl))
    (its : List (IKey × Nat)) (hinv : invB (f + 1) lvl slots = true)
    (hits : itemsF (f + 1) slots = some its) :
    ∀ k v, (k, v) ∈ its →
      (match slots.getD (hashI lvl k) none with
       | none => False
       | some (.leaf k0 v0) => k = k0 ∧ v = v0
       | some (.sub _ s2) => ∃ its2, itemsF f s2 = some its2 ∧ (k, v) ∈ its2) := by
  intro k v hp
  obtain ⟨hlen, hslot⟩ := (invB_succ_iff f lvl slots).mp hinv
  simp only [itemsF] at hits
  obtain ⟨j, hj, hcl⟩ := (itemsGo_mem (itemsF f) slots its hits (k, v)).mp hp
  have hji : j = hashI lvl k := by
    have hs := hslot j (by rw [hlen] at hj; exact hj)
    unfold SlotInv at hs
    cases hg : slots.getD j none with
    | none => rw [hg] at hcl; exact absurd hcl (by simp)
    | some sl =>
      cases sl with
      | leaf k0 v0 =>
        rw [hg] at hcl hs
        have hk : k = k0 := by
          have := congrArg Prod.fst hcl
          simpa using this
        rw [hk]
        exact hs.symm
      | sub l2 s2 =>
        rw [hg] at hcl hs
        obtain ⟨its2, h2, hp2⟩ := hcl
        obtain ⟨_, _, its3, hits3, _, hhash⟩ := hs
        have he : its3 = its2 := by
          rw [h2] at hits3
          exact (Option.some.inj hits3).symm
        subst he
        exact (hhash (k, v) hp2).symm
  subst hji
  cases hg : slots.getD (hashI lvl k) none with
  | none => rw [hg] at hcl; exact absurd hcl (by simp)
  | some sl =>
    cases sl with
    | leaf k0 v0 =>
      rw [hg] at hcl
      constructor
      · have := congrArg Prod.fst hcl
        simpa using this
      · have := congrArg Prod.snd hcl
        simpa using this
    | sub l2 s2 =>
      rw [hg] at hcl
      exact hcl

/-- Every slot contributes its contents to the item list. -/
theorem items_cover (f : Nat) (slots : List (Option Sl))
    (its : List (IKey × Nat)) (hits : itemsF (f + 1) slots = some its)
    (j : Nat) (hj : j < slots.length) :
    (∀ k v, slots.getD j none = some (.leaf k v) → (k, v) ∈ its) ∧
    (∀ l2 s2 its2, slots.getD j none = some (.sub l2 s2) →
      itemsF f s2 = some its2 → ∀ p ∈ its2, p ∈ its) := by
  simp only [itemsF] at hits
  constructor
  · intro k v hg
    apply (itemsGo_mem (itemsF f) slots its hits (k, v)).mpr
    refine ⟨j, hj, ?_⟩
    rw [hg]
  · intro l2 s2 its2 hg h2 p hp
    apply (itemsGo_mem (itemsF f) slots its hits p).mpr
    refine ⟨j, hj, ?_⟩
    rw [hg]
    exact ⟨its2, h2, hp⟩

/-- Transfer of the per slot invariant along an equality of slot contents. -/
theorem slotInv_congr (f lvl : Nat) (s1 s2 : List (Option Sl)) (j : Nat)
    (heq : s2.getD j none = s1.getD j none) (h : SlotInv f lvl s1 j) :
    SlotInv f lvl s2 j := by
  unfold SlotInv at h ⊢
  rw [heq]
  exact h

/-- Lookup only inspects the slot the key hashes to. -/
theorem getF_congr (f lvl : Nat) (s1 s2 : List (Option Sl)) (k : IKey)
    (heq : s2.getD (hashI lvl k) none = s1.getD (hashI lvl k) none) :
    getF (f + 1) lvl s2 k = getF (f + 1) lvl s1 k := by
  simp only [getF]
  rw [heq]

/-- Splitting the item list of a table around one slot, together with the
item list obtained after overwriting that slot. -/
theorem itemsF_split_set (f : Nat) (slots : List (Option Sl)) (i : Nat)
    (h : i < slots.length) (its : List (IKey × Nat))
    (hits : itemsF (f + 1) slots = some its) :
    ∃ A m B, itemsGo (itemsF f) (slots.take i) = some A ∧
      slotItems (itemsF f) (slots.getD i none) = some m ∧
      itemsGo (itemsF f) (slots.drop (i + 1)) = some B ∧
      its = A ++ m ++ B ∧
      (∀ x m2, slotItems (itemsF f) x = some m2 →
        itemsF (f + 1) (slots.set i x) = some (A ++ m2 ++ B)) := by
  simp only [itemsF] at hits ⊢
  rw [itemsGo_split _ slots i h] at hits
  cases hA : itemsGo (itemsF f) (slots.take i) with
  | none => rw [hA] at hits; cases hits
  | some A =>
    cases hm : slotItems (itemsF f) (slots.getD i none) with
    | none => rw [hA, hm] at hits; cases hits
    | some m =>
      cases hB : itemsGo (itemsF f) (slots.drop (i + 1)) with
      | none => rw [hA, hm, hB] at hits; cases hits
      | some B =>
        rw [hA, hm, hB] at hits
        refine ⟨A, m, B, rfl, rfl, rfl, (Option.some.inj hits).symm, ?_⟩
        intro x m2 hx
        rw [itemsGo_set _ slots i x h, hA, hx, hB]

/-- Lookup in a well formed table agrees with membership in its item list:
a value is returned exactly when it is the stored pair for the key, and a
KeyError is raised exactly when the key occurs in no pair. -/
theorem get_items : ∀ f lvl slots key its, invB f lvl slots = true →
    itemsF f slots = some its →
    ((∀ v, getF f lvl slots key = some (some v) ↔ (key, v) ∈ its) ∧
     (getF f lvl slots key = some none ↔ ∀ v, (key, v) ∉ its)) := by
  intro f
  induction f with
  | zero => intro lvl slots key its h _; simp [invB] at h
  | succ n ih =>
    intro lvl slots key its hinv hits
    have hloc := items_local n lvl slots its hinv hits
    obtain ⟨hlen, hslot⟩ := (invB_succ_iff n lvl slots).mp hinv
    have hcover := items_cover n slots its hits (hashI lvl key)
      (by rw [hlen]; exact hashI_lt lvl key)
    simp only [getF]
    cases hg : slots.getD (hashI lvl key) none with
    | none =>
      constructor
      · intro v
        constructor
        · intro h; exact absurd h (by simp)
        · intro hmem
          have := hloc key v hmem
          rw [hg] at this
          exact absurd this (by simp)
      · constructor
        · intro _ v hmem
          have := hloc key v hmem
          rw [hg] at this
          exact absurd this (by simp)
        · intro _; rfl
    | some sl =>
      cases sl with
      | leaf k0 v0 =>
        by_cases hk : k0 = key
        · subst hk
          constructor
          · intro v
            constructor
            · intro h
              simp only [if_pos rfl] at h
              have hv : v0 = v := Option.some.inj (Option.some.inj h)
              rw [← hv]
              exact hcover.1 k0 v0 hg
            · intro hmem
              have := hloc k0 v hmem
              rw [hg] at this
              rw [this.2]
              simp
          · constructor
            · intro h
              simp only [if_pos rfl] at h
              exact absurd h (by simp)
            · intro hnone
              exact absurd (hcover.1 k0 v0 hg) (hnone v0)
        · constructor
          · intro v
            constructor
            · intro h
              simp only [if_neg hk] at h
              exact absurd h (by simp)
            · intro hmem
              have := hloc key v hmem
              rw [hg] at this
              exact absurd this.1.symm hk
          · constructor
            · intro _ v hmem
              have := hloc key v hmem
              rw [hg] at this
              exact absurd this.1.symm hk
            · intro _
              simp only [if_neg hk]
      | sub l2 s2 =>
        have hs := hslot (hashI lvl key) (hashI_lt lvl key)
        unfold SlotInv at hs
        rw [hg] at hs
        obtain ⟨hl2, hinv2, its3, hits3, _, _⟩ := hs
        subst hl2
        have hih := ih (lvl + 1) s2 key its3 hinv2 hits3
        constructor
        · intro v
          constructor
          · intro h
            have hmem2 := (hih.1 v).mp h
            exact hcover.2 _ s2 its3 hg hits3 (key, v) hmem2
          · intro hmem
            have := hloc key v hmem
            rw [hg] at this
            obtain ⟨its2, h2, hp2⟩ := this
            have he : its3 = its2 := by
              rw [h2] at hits3
              exact (Option.some.inj hits3).symm
            subst he
            exact (hih.1 v).mpr hp2
        · constructor
          · intro h v hmem
            have := hloc key v hmem
            rw [hg] at this
            obtain ⟨its2, h2, hp2⟩ := this
            have he : its3 = its2 := by
              rw [h2] at hits3
              exact (Option.some.inj hits3).symm
            subst he
            exact (hih.2.mp h) v hp2
          · intro hnone
            apply hih.2.mpr
            intro v hmem2
            exact hnone v (hcover.2 _ s2 its3 hg hits3 (key, v) hmem2)

/-- Full specification of InfiniteHashTable.__setitem__ on well formed
tables: the invariant is preserved, the key afterwards maps to the new
value, every other key is unaffected, the item count grows by one exactly
when the key was absent, and no new key other than the inserted one
appears. -/
theorem set_spec : ∀ f lvl slots key value out,
    invB f lvl slots = true →
    setF f lvl slots key value = some out →
    invB f lvl out = true ∧
    getF f lvl out key = some (some value) ∧
    (∀ k2, k2 ≠ key → getF f lvl out k2 = getF f lvl slots k2) ∧
    (∀ its itsOut, itemsF f slots = some its → itemsF f out = some itsOut →
      itsOut.length =
        (if getF f lvl slots key = some none then its.length + 1 else its.length) ∧
      (∀ k2, k2 ∈ itsOut.map Prod.fst → k2 ∈ its.map Prod.fst ∨ k2 = key)) := by
  intro f
  induction f with
  | zero => intro lvl slots key value out h hset; simp [invB] at h
  | succ n ih =>
    intro lvl slots key value out hinv hset
    obtain ⟨hlen, hslot⟩ := (invB_succ_iff n lvl slots).mp hinv
    have hilen : hashI lvl key < slots.length := by
      rw [hlen]; exact hashI_lt lvl key
    simp only [setF] at hset
    cases hg : slots.getD (hashI lvl key) none with
    | none =>
      rw [hg] at hset
      simp only [Option.some.injEq] at hset
      subst hset
      have hgetold : getF (n + 1) lvl slots key = some none := by
        simp only [getF, hg]
      refine ⟨?_, ?_, ?_, ?_⟩
      · rw [invB_succ_iff]
        refine ⟨by simpa using hlen, fun j hj => ?_⟩
        by_cases hji : hashI lvl key = j
        · subst hji
          unfold SlotInv
          rw [listGetDSetSelf _ _ _ _ hilen]
        · exact slotInv_congr n lvl slots _ j
            (listGetDSetNe _ _ _ _ _ hji) (hslot j hj)
      · simp only [getF, listGetDSetSelf _ _ _ _ hilen]
        simp
      · intro k2 hk2
        by_cases hh : hashI lvl k2 = hashI lvl key
        · simp only [getF, hh, listGetDSetSelf _ _ _ _ hilen, hg]
          have : ¬(key = k2) := fun he => hk2 he.symm
          simp [this]
        · exact getF_congr n lvl slots _ k2
            (listGetDSetNe _ _ _ _ _ (fun he => hh he.symm))
      · intro its itsOut hits hitsOut
        obtain ⟨A, m, B, hA, hm, hB, hdecomp, hsetit⟩ :=
          itemsF_split_set n slots (hashI lvl key) hilen its hits
        rw [hg] at hm
        have hm0 : m = [] := by
          simp only [slotItems] at hm
          exact (Option.some.inj hm).symm
        subst hm0
        have h2 := hsetit (some (.leaf key value)) [(key, value)] rfl
        rw [hitsOut] at h2
        have hout : itsOut = A ++ [(key, value)] ++ B := Option.some.inj h2
        subst hout
        subst hdecomp
        constructor
        · rw [if_pos hgetold]
          simp only [List.length_append, List.length_cons, List.length_nil]
          omega
        · intro k2 hk2
          simp only [List.map_append, List.mem_append, List.map_cons,
            List.mem_cons] at hk2 ⊢
          rcases hk2 with (hk2 | hk2) | hk2
          · exact Or.inl (Or.inl (Or.inl hk2))
          · rcases hk2 with hk2 | hk2
            · exact Or.inr (by simpa using hk2)
            · simp at hk2
          · exact Or.inl (Or.inr hk2)
    | some sl =>
      cases sl with
      | leaf k0 v0 =>
        simp only [hg] at hset
        by_cases hk : k0 = key
        · subst hk
          rw [if_pos rfl] at hset
          simp only [Option.some.injEq] at hset
          subst hset
          have hgetold : getF (n + 1) lvl slots k0 = some (some v0) := by
            simp only [getF, hg]
            simp
          have hs0 := hslot (hashI lvl k0) (hashI_lt lvl k0)
          have hhash0 : hashI lvl k0 = hashI lvl k0 := rfl
          refine ⟨?_, ?_, ?_, ?_⟩
          · rw [invB_succ_iff]
            refine ⟨by simpa using hlen, fun j hj => ?_⟩
            by_cases hji : hashI lvl k0 = j
            · subst hji
              unfold SlotInv
              rw [listGetDSetSelf _ _ _ _ hilen]
            · exact slotInv_congr n lvl slots _ j
                (listGetDSetNe _ _ _ _ _ hji) (hslot j hj)
          · simp only [getF, listGetDSetSelf _ _ _ _ hilen]
            simp
          · intro k2 hk2
            by_cases hh : hashI lvl k2 = hashI lvl k0
            · simp only [getF, hh, listGetDSetSelf _ _ _ _ hilen, hg]
              have : ¬(k0 = k2) := fun he => hk2 he.symm
              simp [this]
            · exact getF_congr n lvl slots _ k2
                (listGetDSetNe _ _ _ _ _ (fun he => hh he.symm))
          · intro its itsOut hits hitsOut
            obtain ⟨A, m, B, hA, hm, hB, hdecomp, hsetit⟩ :=
              itemsF_split_set n slots (hashI lvl k0) hilen its hits
            rw [hg] at hm
            have hm0 : m = [(k0, v0)] := by
              simp only [slotItems] at hm
              exact (Option.some.inj hm).symm
            subst hm0
            have h2 := hsetit (some (.leaf k0 value)) [(k0, value)] rfl
            rw [hitsOut] at h2
            have hout : itsOut = A ++ [(k0, value)] ++ B := Option.some.inj h2
            subst hout
            subst hdecomp
            constructor
            · rw [if_neg (by rw [hgetold]; simp)]
              simp only [List.length_append, List.length_cons, List.length_nil]
            · intro k2 hk2
              simp only [List.map_append, List.mem_append, List.map_cons,
                List.mem_cons] at hk2 ⊢
              rcases hk2 with (hk2 | hk2) | hk2
              · exact Or.inl (Or.inl (Or.inl hk2))
              · rcases hk2 with hk2 | hk2
                · exact Or.inr (by simpa using hk2)
                · simp at hk2
              · exact Or.inl (Or.inr hk2)
        · -- collision: a nested table is created at level lvl + 1
          rw [if_neg hk] at hset
          cases hc1 : setF n (lvl + 1) emptySlots k0 v0 with
          | none => simp only [hc1] at hset; cases hset
          | some s1 =>
            simp only [hc1] at hset
            cases hc2 : setF n (lvl + 1) s1 key value with
            | none => simp only [hc2] at hset; cases hset
            | some s2done =>
              simp only [hc2, Option.some.injEq] at hset
              subst hset
              cases n with
              | zero => rw [setF] at hc1; cases hc1
              | succ m1 =>
                -- the first insertion lands in the empty table
                have hs1 : s1 = emptySlots.set (hashI (lvl + 1) k0)
                    (some (.leaf k0 v0)) := by
                  simp only [setF, emptySlots_getD] at hc1
                  exact (Option.some.inj hc1).symm
                subst hs1
                have hinv1 : invB (m1 + 1) (lvl + 1)
                    (emptySlots.set (hashI (lvl + 1) k0) (some (.leaf k0 v0))) =
                    true := invB_singleton m1 (lvl + 1) k0 v0
                have hits1 := itemsF_singleton m1 (lvl + 1) k0 v0
                have hgi1 := get_items (m1 + 1) (lvl + 1) _ key _ hinv1 hits1
                have hget1key : getF (m1 + 1) (lvl + 1)
                    (emptySlots.set (hashI (lvl + 1) k0) (some (.leaf k0 v0)))
                    key = some none := by
                  apply hgi1.2.mpr
                  intro v hv
                  simp at hv
                  exact hk hv.1.symm
                have hgi1b := get_items (m1 + 1) (lvl + 1) _ k0 _ hinv1 hits1
                have hget1k0 : getF (m1 + 1) (lvl + 1)
                    (emptySlots.set (hashI (lvl + 1) k0) (some (.leaf k0 v0)))
                    k0 = some (some v0) := by
                  apply (hgi1b.1 v0).mpr
                  simp
                obtain ⟨hinv2, hget2, hframe2, hitems2⟩ :=
                  ih (lvl + 1) _ key value s2done hinv1 hc2
                obtain ⟨its2, hits2⟩ := invB_items (m1 + 1) (lvl + 1) s2done hinv2
                obtain ⟨hlen2, hmem2⟩ := hitems2 _ its2 hits1 hits2
                rw [if_pos hget1key] at hlen2
                simp at hlen2
                have hgetold : getF (m1 + 1 + 1) lvl slots key = some none := by
                  simp only [getF, hg]
                  simp [hk]
                have hs0 : hashI lvl k0 = hashI lvl key := by
                  have := hslot (hashI lvl key) (hashI_lt lvl key)
                  unfold SlotInv at this
                  rw [hg] at this
                  exact this
                refine ⟨?_, ?_, ?_, ?_⟩
                · rw [invB_succ_iff]
                  refine ⟨by simpa using hlen, fun j hj => ?_⟩
                  by_cases hji : hashI lvl key = j
                  · subst hji
                    unfold SlotInv
                    rw [listGetDSetSelf _ _ _ _ hilen]
                    refine ⟨rfl, hinv2, its2, hits2, by omega, ?_⟩
                    intro p hp
                    have := hmem2 p.1 (List.mem_map_of_mem Prod.fst hp)
                    rcases this with hmm | hmm
                    · simp at hmm
                      rw [hmm]
                      exact hs0
                    · rw [hmm]
                  · exact slotInv_congr _ lvl slots _ j
                      (listGetDSetNe _ _ _ _ _ hji) (hslot j hj)
                · rw [getF_at_sub (listGetDSetSelf _ _ _ _ hilen)]
                  exact hget2
                · intro k2 hk2
                  by_cases hh : hashI lvl k2 = hashI lvl key
                  · have hgl : (slots.set (hashI lvl key)
                        (some (.sub (lvl + 1) s2done))).getD (hashI lvl k2)
                        none = some (.sub (lvl + 1) s2done) := by
                      rw [hh, listGetDSetSelf _ _ _ _ hilen]
                    have hgr : slots.getD (hashI lvl k2) none =
                        some (.leaf k0 v0) := by rw [hh, hg]
                    rw [getF_at_sub hgl, getF_at_leaf hgr]
                    rw [hframe2 k2 hk2]
                    by_cases hk20 : k2 = k0
                    · rw [hk20, hget1k0]
                      simp
                    · have := get_items (m1 + 1) (lvl + 1) _ k2 _ hinv1 hits1
                      have hnone2 : getF (m1 + 1) (lvl + 1)
                          (emptySlots.set (hashI (lvl + 1) k0)
                            (some (.leaf k0 v0))) k2 = some none := by
                        apply this.2.mpr
                        intro v hv
                        simp at hv
                        exact hk20 hv.1
                      rw [hnone2]
                      have : ¬(k0 = k2) := fun he => hk20 he.symm
                      simp [this]
                  · exact getF_congr _ lvl slots _ k2
                      (listGetDSetNe _ _ _ _ _ (fun he => hh he.symm))
                · intro its itsOut hits hitsOut
                  obtain ⟨A, m, B, hA, hm, hB, hdecomp, hsetit⟩ :=
                    itemsF_split_set _ slots (hashI lvl key) hilen its hits
                  rw [hg] at hm
                  have hm0 : m = [(k0, v0)] := by
                    simp only [slotItems] at hm
                    exact (Option.some.inj hm).symm
                  subst hm0
                  have h2 := hsetit (some (.sub (lvl + 1) s2done)) its2 hits2
                  rw [hitsOut] at h2
                  have hout : itsOut = A ++ its2 ++ B := Option.some.inj h2
                  subst hout
                  subst hdecomp
                  constructor
                  · rw [if_pos hgetold]
                    simp only [List.length_append, List.length_cons, List.length_nil]
                    omega
                  · intro k2 hk2
                    simp only [List.map_append, List.mem_append] at hk2 ⊢
                    rcases hk2 with (hk2 | hk2) | hk2
                    · exact Or.inl (Or.inl (Or.inl hk2))
                    · rcases hmem2 k2 hk2 with hmm | hmm
                      · simp at hmm
                        exact Or.inl (Or.inl (Or.inr (by simp [hmm])))
                      · exact Or.inr hmm
                    · exact Or.inl (Or.inr hk2)
      | sub l2 s2 =>
        simp only [hg] at hset
        have hs := hslot (hashI lvl key) (hashI_lt lvl key)
        unfold SlotInv at hs
        rw [hg] at hs
        obtain ⟨hl2, hinv2, its3, hits3, hlen3, hhash3⟩ := hs
        subst hl2
        cases hc : setF n (lvl + 1) s2 key value with
        | none => simp only [hc] at hset; cases hset
        | some s2x =>
          simp only [hc, Option.some.injEq] at hset
          subst hset
          obtain ⟨hinvx, hgetx, hframex, hitemsx⟩ :=
            ih (lvl + 1) s2 key value s2x hinv2 hc
          obtain ⟨its2x, hits2x⟩ := invB_items n (lvl + 1) s2x hinvx
          obtain ⟨hlenx, hmemx⟩ := hitemsx its3 its2x hits3 hits2x
          have hgetold : getF (n + 1) lvl slots key =
              getF n (lvl + 1) s2 key := by
            simp only [getF, hg]
          refine ⟨?_, ?_, ?_, ?_⟩
          · rw [invB_succ_iff]
            refine ⟨by simpa using hlen, fun j hj => ?_⟩
            by_cases hji : hashI lvl key = j
            · subst hji
              unfold SlotInv
              rw [listGetDSetSelf _ _ _ _ hilen]
              refine ⟨rfl, hinvx, its2x, hits2x, ?_, ?_⟩
              · split at hlenx <;> omega
              · intro p hp
                rcases hmemx p.1 (List.mem_map_of_mem Prod.fst hp) with hmm | hmm
                · obtain ⟨q, hq, hq1⟩ := List.mem_map.mp hmm
                  rw [← hq1]
                  exact hhash3 q hq
                · rw [hmm]
            · exact slotInv_congr n lvl slots _ j
                (listGetDSetNe _ _ _ _ _ hji) (hslot j hj)
          · simp only [getF, listGetDSetSelf _ _ _ _ hilen]
            exact hgetx
          · intro k2 hk2
            by_cases hh : hashI lvl k2 = hashI lvl key
            · simp only [getF, hh, listGetDSetSelf _ _ _ _ hilen, hg]
              exact hframex k2 hk2
            · exact getF_congr n lvl slots _ k2
                (listGetDSetNe _ _ _ _ _ (fun he => hh he.symm))
          · intro its itsOut hits hitsOut
            obtain ⟨A, m, B, hA, hm, hB, hdecomp, hsetit⟩ :=
              itemsF_split_set n slots (hashI lvl key) hilen its hits
            rw [hg] at hm
            have hm0 : m = its3 := by
              simp only [slotItems] at hm
              rw [hits3] at hm
              exact (Option.some.inj hm).symm
            subst hm0
            have h2 := hsetit (some (.sub (lvl + 1) s2x)) its2x hits2x
            rw [hitsOut] at h2
            have hout : itsOut = A ++ its2x ++ B := Option.some.inj h2
            subst hout
            subst hdecomp
            constructor
            · rw [hgetold]
              by_cases hcnd : getF n (lvl + 1) s2 key = some none
              · rw [if_pos hcnd] at hlenx ⊢
                simp only [List.length_append]
                omega
              · rw [if_neg hcnd] at hlenx ⊢
                simp only [List.length_append]
                omega
            · intro k2 hk2
              simp only [List.map_append, List.mem_append] at hk2 ⊢
              rcases hk2 with (hk2 | hk2) | hk2
              · exact Or.inl (Or.inl (Or.inl hk2))
              · rcases hmemx k2 hk2 with hmm | hmm
                · exact Or.inl (Or.inl (Or.inr hmm))
                · exact Or.inr hmm
              · exact Or.inl (Or.inr hk2)

/-- Full specification of InfiniteHashTable.__delitem__ on well formed
tables: deletion always terminates, raises KeyError exactly when the key
is absent, and on success preserves the invariant, removes exactly the
stored pair for the key, leaves every other key unaffected and shrinks
the item count by one. -/
theorem del_spec : ∀ f lvl slots key, invB f lvl slots = true →
    ∃ r, delF f lvl slots key = some r ∧
      ((r = none ∧ getF f lvl slots key = some none) ∨
       (∃ out, r = some out ∧
         invB f lvl out = true ∧
         getF f lvl out key = some none ∧
         (∀ k2, k2 ≠ key → getF f lvl out k2 = getF f lvl slots k2) ∧
         (∀ its itsOut, itemsF f slots = some its → itemsF f out = some itsOut →
            itsOut.length + 1 = its.length ∧
            (∀ k2, k2 ∈ itsOut.map Prod.fst → k2 ∈ its.map Prod.fst)) ∧
         getF f lvl slots key ≠ some none)) := by
  intro f
  induction f with
  | zero => intro lvl slots key h; simp [invB] at h
  | succ n ih =>
    intro lvl slots key hinv
    obtain ⟨hlen, hslot⟩ := (invB_succ_iff n lvl slots).mp hinv
    have hilen : hashI lvl key < slots.length := by
      rw [hlen]; exact hashI_lt lvl key
    cases hg : slots.getD (hashI lvl key) none with
    | none =>
      refine ⟨none, by simp only [delF, hg], Or.inl ⟨rfl, getF_at_none hg⟩⟩
    | some sl =>
      cases sl with
      | leaf k0 v0 =>
        by_cases hk : k0 = key
        · subst hk
          refine ⟨some (slots.set (hashI lvl k0) none),
            by simp only [delF, hg]; simp, Or.inr ?_⟩
          refine ⟨_, rfl, ?_, ?_, ?_, ?_, ?_⟩
          · rw [invB_succ_iff]
            refine ⟨by simpa using hlen, fun j hj => ?_⟩
            by_cases hji : hashI lvl k0 = j
            · subst hji
              unfold SlotInv
              rw [listGetDSetSelf _ _ _ _ hilen]
              trivial
            · exact slotInv_congr n lvl slots _ j
                (listGetDSetNe _ _ _ _ _ hji) (hslot j hj)
          · exact getF_at_none (listGetDSetSelf _ _ _ _ hilen)
          · intro k2 hk2
            by_cases hh : hashI lvl k2 = hashI lvl k0
            · have hgl : (slots.set (hashI lvl k0) none).getD
                  (hashI lvl k2) none = none := by
                rw [hh, listGetDSetSelf _ _ _ _ hilen]
              have hgr : slots.getD (hashI lvl k2) none =
                  some (.leaf k0 v0) := by rw [hh, hg]
              rw [getF_at_none hgl, getF_at_leaf hgr]
              have : ¬(k0 = k2) := fun he => hk2 he.symm
              simp [this]
            · exact getF_congr n lvl slots _ k2
                (listGetDSetNe _ _ _ _ _ (fun he => hh he.symm))
          · intro its itsOut hits hitsOut
            obtain ⟨A, m, B, hA, hm, hB, hdecomp, hsetit⟩ :=
              itemsF_split_set n slots (hashI lvl k0) hilen its hits
            rw [hg] at hm
            have hm0 : m = [(k0, v0)] := by
              simp only [slotItems] at hm
              exact (Option.some.inj hm).symm
            subst hm0
            have h2 := hsetit none [] rfl
            rw [hitsOut] at h2
            have hout : itsOut = A ++ [] ++ B := Option.some.inj h2
            subst hout
            subst hdecomp
            constructor
            · simp only [List.length_append, List.length_cons, List.length_nil]
              omega
            · intro k2 hk2
              simp only [List.map_append, List.mem_append] at hk2 ⊢
              rcases hk2 with (hk2 | hk2) | hk2
              · exact Or.inl (Or.inl hk2)
              · simp at hk2
              · exact Or.inr hk2
          · rw [getF_at_leaf hg]
            simp
        · refine ⟨none, by simp only [delF, hg, if_neg hk], Or.inl ⟨rfl, ?_⟩⟩
          rw [getF_at_leaf hg]
          simp [hk]
      | sub l2 s2 =>
        have hs := hslot (hashI lvl key) (hashI_lt lvl key)
        unfold SlotInv at hs
        rw [hg] at hs
        obtain ⟨hl2, hinv2, its3, hits3, hlen3, hhash3⟩ := hs
        subst hl2
        obtain ⟨r2, hr2, hcases⟩ := ih (lvl + 1) s2 key hinv2
        rcases hcases with ⟨hr2n, hget2n⟩ | ⟨s2x, hr2s, hinvx, hgetx, hframex,
            hitemsx, hpresx⟩
        · subst hr2n
          refine ⟨none, by simp only [delF, hg, hr2], Or.inl ⟨rfl, ?_⟩⟩
          rw [getF_at_sub hg]
          exact hget2n
        · subst hr2s
          obtain ⟨its2x, hits2x⟩ := invB_items n (lvl + 1) s2x hinvx
          obtain ⟨hlen21, hkeys⟩ := hitemsx its3 its2x hits3 hits2x
          have hlenFx : lenF n s2x = some its2x.length :=
            lenF_eq_items n s2x its2x hits2x
          have hgi2x := get_items n (lvl + 1) s2x key its2x hinvx hits2x
          have hkeyout : ∀ v, (key, v) ∉ its2x := hgi2x.2.mp hgetx
          by_cases h1 : its2x.length = 1
          · -- elevation of the single surviving pair
            cases hits2xcase : its2x with
            | nil => rw [hits2xcase] at h1; simp at h1
            | cons p tail =>
              obtain ⟨ks, vs⟩ := p
              cases tail with
              | cons q t2 => rw [hits2xcase] at h1; simp at h1
              | nil =>
                subst hits2xcase
                have hksne : ks ≠ key := by
                  intro he
                  exact hkeyout vs (by rw [he]; simp)
                have hksmem : ks ∈ its3.map Prod.fst := by
                  apply hkeys
                  simp
                have hkshash : hashI lvl ks = hashI lvl key := by
                  obtain ⟨q, hq, hq1⟩ := List.mem_map.mp hksmem
                  rw [← hq1]
                  exact hhash3 q hq
                refine ⟨some (slots.set (hashI lvl key)
                  (some (.leaf ks vs))), ?_, Or.inr ?_⟩
                · simp only [delF, hg, hr2, hlenFx, h1, hits2x]
                  simp
                refine ⟨_, rfl, ?_, ?_, ?_, ?_, ?_⟩
                · rw [invB_succ_iff]
                  refine ⟨by simpa using hlen, fun j hj => ?_⟩
                  by_cases hji : hashI lvl key = j
                  · subst hji
                    unfold SlotInv
                    rw [listGetDSetSelf _ _ _ _ hilen]
                    exact hkshash
                  · exact slotInv_congr n lvl slots _ j
                      (listGetDSetNe _ _ _ _ _ hji) (hslot j hj)
                · rw [getF_at_leaf (listGetDSetSelf _ _ _ _ hilen)]
                  simp [hksne]
                · intro k2 hk2
                  by_cases hh : hashI lvl k2 = hashI lvl key
                  · have hgl : (slots.set (hashI lvl key)
                        (some (.leaf ks vs))).getD (hashI lvl k2) none =
                        some (.leaf ks vs) := by
                      rw [hh, listGetDSetSelf _ _ _ _ hilen]
                    have hgr : slots.getD (hashI lvl k2) none =
                        some (.sub (lvl + 1) s2) := by rw [hh, hg]
                    rw [getF_at_leaf hgl, getF_at_sub hgr]
                    rw [← hframex k2 hk2]
                    have hgi2xk2 := get_items n (lvl + 1) s2x k2
                      [(ks, vs)] hinvx hits2x
                    by_cases hk2ks : ks = k2
                    · subst hk2ks
                      rw [(hgi2xk2.1 vs).mpr (by simp)]
                      simp
                    · rw [hgi2xk2.2.mpr (by
                        intro v hv
                        simp at hv
                        exact hk2ks hv.1.symm)]
                      simp [hk2ks]
                  · exact getF_congr n lvl slots _ k2
                      (listGetDSetNe _ _ _ _ _ (fun he => hh he.symm))
                · intro its itsOut hits hitsOut
                  obtain ⟨A, m, B, hA, hm, hB, hdecomp, hsetit⟩ :=
                    itemsF_split_set n slots (hashI lvl key) hilen its hits
                  rw [hg] at hm
                  have hm0 : m = its3 := by
                    simp only [slotItems] at hm
                    rw [hits3] at hm
                    exact (Option.some.inj hm).symm
                  subst hm0
                  have h2 := hsetit (some (.leaf ks vs)) [(ks, vs)] rfl
                  rw [hitsOut] at h2
                  have hout : itsOut = A ++ [(ks, vs)] ++ B := Option.some.inj h2
                  subst hout
                  subst hdecomp
                  constructor
                  · simp only [List.length_append, List.length_cons,
                      List.length_nil]
                    omega
                  · intro k2 hk2
                    simp only [List.map_append, List.mem_append] at hk2 ⊢
                    rcases hk2 with (hk2 | hk2) | hk2
                    · exact Or.inl (Or.inl hk2)
                    · simp at hk2
                      subst hk2
                      exact Or.inl (Or.inr hksmem)
                    · exact Or.inr hk2
                · rw [getF_at_sub hg]
                  exact hpresx
          · -- the nested table keeps at least two pairs
            have h0 : its2x.length ≠ 0 := by omega
            refine ⟨some (slots.set (hashI lvl key)
              (some (.sub (lvl + 1) s2x))), ?_, Or.inr ?_⟩
            · simp only [delF, hg, hr2, hlenFx, if_neg h1, if_neg h0]
            refine ⟨_, rfl, ?_, ?_, ?_, ?_, ?_⟩
            · rw [invB_succ_iff]
              refine ⟨by simpa using hlen, fun j hj => ?_⟩
              by_cases hji : hashI lvl key = j
              · subst hji
                unfold SlotInv
                rw [listGetDSetSelf _ _ _ _ hilen]
                refine ⟨rfl, hinvx, its2x, hits2x, by omega, ?_⟩
                intro p hp
                have hpk := hkeys p.1 (List.mem_map_of_mem Prod.fst hp)
                obtain ⟨q, hq, hq1⟩ := List.mem_map.mp hpk
                rw [← hq1]
                exact hhash3 q hq
              · exact slotInv_congr n lvl slots _ j
                  (listGetDSetNe _ _ _ _ _ hji) (hslot j hj)
            · rw [getF_at_sub (listGetDSetSelf _ _ _ _ hilen)]
              exact hgetx
            · intro k2 hk2
              by_cases hh : hashI lvl k2 = hashI lvl key
              · have hgl : (slots.set (hashI lvl key)
                    (some (.sub (lvl + 1) s2x))).getD (hashI lvl k2) none =
                    some (.sub (lvl + 1) s2x) := by
                  rw [hh, listGetDSetSelf _ _ _ _ hilen]
                have hgr : slots.getD (hashI lvl k2) none =
                    some (.sub (lvl + 1) s2) := by rw [hh, hg]
                rw [getF_at_sub hgl, getF_at_sub hgr]
                exact hframex k2 hk2
              · exact getF_congr n lvl slots _ k2
                  (listGetDSetNe _ _ _ _ _ (fun he => hh he.symm))
            · intro its itsOut hits hitsOut
              obtain ⟨A, m, B, hA, hm, hB, hdecomp, hsetit⟩ :=
                itemsF_split_set n slots (hashI lvl key) hilen its hits
              rw [hg] at hm
              have hm0 : m = its3 := by
                simp only [slotItems] at hm
                rw [hits3] at hm
                exact (Option.some.inj hm).symm
              subst hm0
              have h2 := hsetit (some (.sub (lvl + 1) s2x)) its2x hits2x
              rw [hitsOut] at h2
              have hout : itsOut = A ++ its2x ++ B := Option.some.inj h2
              subst hout
              subst hdecomp
              constructor
              · simp only [List.length_append]
                omega
              · intro k2 hk2
                simp only [List.map_append, List.mem_append] at hk2 ⊢
                rcases hk2 with (hk2 | hk2) | hk2
                · exact Or.inl (Or.inl hk2)
                · exact Or.inl (Or.inr (hkeys k2 hk2))
                · exact Or.inr hk2
            · rw [getF_at_sub hg]
              exact hpresx

/-- Reading inside bounds yields a member of the list. -/
theorem listGetDMem {α : Type} (l : List α) (j : Nat) (d : α)
    (h : j < l.length) : l.getD j d ∈ l := by
  have he : l.getD j d = l[j] := by
    simp [List.getD, List.getElem?_eq_getElem h]
  rw [he]
  exact List.getElem_mem h

/-- The character hash of the trie is injective on lowercase letters. -/
theorem lowChar_inj (a b : Nat) (ha : lowChar a = true) (hb : lowChar b = true)
    (h : a % 26 = b % 26) : a = b := by
  simp only [lowChar, Bool.and_eq_true, decide_eq_true_eq] at ha hb
  omega

/-- A key hashing to the reserved slot 26 is exhausted at this level. -/
theorem hashI_eq_26 (lvl : Nat) (k : IKey) (h : hashI lvl k = 26) :
    k.length ≤ lvl := by
  unfold hashI at h
  split at h
  · have hm : k.getD lvl 0 % 26 < 26 := Nat.mod_lt _ (by norm_num)
    omega
  · omega

/-- Two lowercase keys that are both exhausted at level `lvl` and agree on
all hashes below `lvl` are equal. -/
theorem exhausted_eq (lvl : Nat) (k1 k2 : IKey) (h1 : lowKey k1 = true)
    (h2 : lowKey k2 = true) (hag : ∀ m, m < lvl → hashI m k1 = hashI m k2)
    (hl1 : k1.length ≤ lvl) (hl2 : k2.length ≤ lvl) : k1 = k2 := by
  have hchar : ∀ (k : IKey), lowKey k = true → ∀ m, m < k.length →
      lowChar (k.getD m 0) = true := by
    intro k hk m hm
    have hmem : k.getD m 0 ∈ k := listGetDMem k m 0 hm
    simp only [lowKey, List.all_eq_true] at hk
    exact hk _ hmem
  have hlen : k1.length = k2.length := by
    by_contra hne
    rcases Nat.lt_or_ge k1.length k2.length with hlt | hge
    · have hh := hag k1.length (lt_of_lt_of_le hlt hl2)
      unfold hashI at hh
      rw [if_neg (by omega), if_pos hlt] at hh
      have hm : k2.getD k1.length 0 % 26 < 26 := Nat.mod_lt _ (by norm_num)
      omega
    · have hlt2 : k2.length < k1.length := by omega
      have hh := hag k2.length (lt_of_lt_of_le hlt2 hl1)
      unfold hashI at hh
      rw [if_pos hlt2, if_neg (by omega)] at hh
      have hm : k1.getD k2.length 0 % 26 < 26 := Nat.mod_lt _ (by norm_num)
      omega
  apply List.ext_getElem hlen
  intro m hm1 hm2
  have hagm := hag m (lt_of_lt_of_le hm1 hl1)
  unfold hashI at hagm
  rw [if_pos hm1, if_pos hm2] at hagm
  have e1 : k1.getD m 0 = k1[m] := by
    simp [List.getD, List.getElem?_eq_getElem hm1]
  have e2 : k2.getD m 0 = k2[m] := by
    simp [List.getD, List.getElem?_eq_getElem hm2]
  have := lowChar_inj (k1.getD m 0) (k2.getD m 0)
    (hchar k1 h1 m hm1) (hchar k2 h2 m hm2) hagm
  rw [e1, e2] at this
  exact this

/-- A well formed table whose keys are all exhausted at its level holds at
most one pair. -/
theorem exhausted_bound : ∀ f lvl slots its, invB f lvl slots = true →
    itemsF f slots = some its → (∀ p ∈ its, p.1.length ≤ lvl) →
    its.length ≤ 1 := by
  intro f
  induction f with
  | zero => intro lvl slots its h _ _; simp [invB] at h
  | succ n ih =>
    intro lvl slots its hinv hits hex
    obtain ⟨hlen, hslot⟩ := (invB_succ_iff n lvl slots).mp hinv
    have h26 : (26 : Nat) < slots.length := by rw [hlen]; norm_num
    -- every slot other than 26 is empty
    have hnone : ∀ j, j < 27 → j ≠ 26 → slots.getD j none = none := by
      intro j hj hne
      have hsj := hslot j hj
      unfold SlotInv at hsj
      cases hgj : slots.getD j none with
      | none => rfl
      | some sl =>
        rw [hgj] at hsj
        exfalso
        cases sl with
        | leaf k v =>
          have hsj2 : hashI lvl k = j := hsj
          have hmem := (items_cover n slots its hits j
            (by rw [hlen]; exact hj)).1 k v hgj
          have hx : k.length ≤ lvl := hex (k, v) hmem
          have h26k : hashI lvl k = 26 := by
            unfold hashI
            rw [if_neg (by omega)]
          rw [h26k] at hsj2
          exact hne hsj2.symm
        | sub l2 s2 =>
          obtain ⟨_, _, its2, hits2, hlen2, hhash2⟩ := hsj
          have hne2 : its2 ≠ [] := by
            intro he
            rw [he] at hlen2
            simp at hlen2
          obtain ⟨p, hp⟩ := List.exists_mem_of_ne_nil its2 hne2
          have hmem := (items_cover n slots its hits j
            (by rw [hlen]; exact hj)).2 l2 s2 its2 hgj hits2 p hp
          have hx : p.1.length ≤ lvl := hex p hmem
          have h26k : hashI lvl p.1 = 26 := by
            unfold hashI
            rw [if_neg (by omega)]
          have := hhash2 p hp
          rw [h26k] at this
          exact hne this.symm
    -- decompose the item list around slot 26
    obtain ⟨A, m, B, hA, hm, hB, hdecomp, _⟩ :=
      itemsF_split_set n slots 26 h26 its hits
    have hA0 : A = [] := by
      have := itemsGo_allNone (itemsF n) (slots.take 26) (fun o ho => by
        obtain ⟨j, hj, hgj⟩ := List.getElem_of_mem ho
        have hjlen : j < slots.length := by
          have := List.length_take_le 26 slots
          omega
        have hj26 : j < 26 := by
          have h1 : (slots.take 26).length = 26 := by
            rw [List.length_take]
            omega
          omega
        have he : (slots.take 26)[j] = getElem slots j hjlen :=
          List.getElem_take slots
        have hgd : slots.getD j none = o := by
          rw [List.getD_eq_getElem?_getD, List.getElem?_eq_getElem hjlen]
          rw [← he, hgj]
          rfl
        have := hnone j (by omega) (by omega)
        rw [hgd] at this
        exact this)
      rw [this] at hA
      exact (Option.some.inj hA).symm
    have hB0 : B = [] := by
      have hd : slots.drop 27 = [] := by
        apply List.drop_eq_nil_of_le
        omega
      rw [hd] at hB
      simp only [itemsGo] at hB
      exact (Option.some.inj hB).symm
    subst hA0
    subst hB0
    simp only [List.nil_append, List.append_nil] at hdecomp
    rw [hdecomp]
    -- the item list is exactly the contribution of slot 26
    cases hg26 : slots.getD 26 none with
    | none =>
      rw [hg26] at hm
      simp only [slotItems] at hm
      rw [← Option.some.inj hm]
      simp
    | some sl =>
      cases sl with
      | leaf k v =>
        rw [hg26] at hm
        simp only [slotItems] at hm
        rw [← Option.some.inj hm]
        simp
      | sub l2 s2 =>
        rw [hg26] at hm
        simp only [slotItems] at hm
        have hs26 := hslot 26 (by norm_num)
        unfold SlotInv at hs26
        rw [hg26] at hs26
        obtain ⟨hl2, hinv2, its2, hits2, _, _⟩ := hs26
        have hmm : its2 = m := by
          rw [hits2] at hm
          exact Option.some.inj hm
        rw [← hmm]
        refine ih (lvl + 1) s2 its2 hinv2 hits2 (fun p hp => ?_)
        have hpi : p ∈ its := by
          rw [hdecomp, ← hmm]
          exact hp
        exact le_trans (hex p hpi) (Nat.le_succ lvl)

/-- Under the structural invariant, slot 26 never holds a nested table. -/
theorem noSub26 (f lvl : Nat) (slots : List (Option Sl))
    (hinv : invB f lvl slots = true) (l2 : Nat) (s2 : List (Option Sl))
    (hg : slots.getD 26 none = some (.sub l2 s2)) : False := by
  cases f with
  | zero => simp [invB] at hinv
  | succ n =>
    obtain ⟨hlen, hslot⟩ := (invB_succ_iff n lvl slots).mp hinv
    have hs := hslot 26 (by norm_num)
    unfold SlotInv at hs
    rw [hg] at hs
    obtain ⟨_, hinv2, its2, hits2, hlen2, hhash2⟩ := hs
    have hex : ∀ p ∈ its2, p.1.length ≤ lvl + 1 := by
      intro p hp
      have := hashI_eq_26 lvl p.1 (hhash2 p hp)
      omega
    have := exhausted_bound n (lvl + 1) s2 its2 hinv2 hits2 hex
    omega

/-- The per slot content of the lowercase/depth invariant. -/
def LowSlot (f lvl : Nat) : Option Sl → Prop
| none => True
| some (.leaf k _) => lowKey k = true ∧ lvl ≤ k.length
| some (.sub _ s2) => lowB f (lvl + 1) s2 = true

/-- Unfolding of the lowercase/depth invariant at positive fuel. -/
theorem lowB_succ_iff (f lvl : Nat) (slots : List (Option Sl)) :
    lowB (f + 1) lvl slots = true ↔ ∀ o ∈ slots, LowSlot f lvl o := by
  simp only [lowB, List.all_eq_true]
  constructor
  · intro h o ho
    have h2 := h o ho
    cases o with
    | none => trivial
    | some sl =>
      cases sl with
      | leaf k v =>
        have h3 : (lowKey k && decide (lvl ≤ k.length)) = true := h2
        simp only [Bool.and_eq_true, decide_eq_true_eq] at h3
        exact h3
      | sub l2 s2 => exact h2
  · intro h o ho
    have h2 := h o ho
    cases o with
    | none => rfl
    | some sl =>
      cases sl with
      | leaf k v =>
        show (lowKey k && decide (lvl ≤ k.length)) = true
        simp only [Bool.and_eq_true, decide_eq_true_eq]
        exact h2
      | sub l2 s2 => exact h2

/-- The lowercase/depth invariant for the empty table. -/
theorem lowB_empty (f lvl : Nat) : lowB (f + 1) lvl emptySlots = true := by
  rw [lowB_succ_iff]
  intro o ho
  have : o = none := by simpa [emptySlots] using ho
  subst this
  trivial

/-- The lowercase/depth invariant for a one leaf table. -/
theorem lowB_singleton (f lvl : Nat) (k : IKey) (v : Nat)
    (hk : lowKey k = true) (hlk : lvl ≤ k.length) :
    lowB (f + 1) lvl (emptySlots.set (hashI lvl k) (some (.leaf k v))) =
    true := by
  rw [lowB_succ_iff]
  intro o ho
  rcases List.mem_or_eq_of_mem_set ho with hmem | he
  · have : o = none := by simpa [emptySlots] using hmem
    subst this
    trivial
  · subst he
    exact ⟨hk, hlk⟩

/-- On a well formed lowercase table, insertion of a lowercase key whose
hash path agrees with the table position terminates within fuel
proportional to the key length, and the result again satisfies the
lowercase/depth invariant: no key is ever stored deeper than its length. -/
theorem set_ok : ∀ f lvl slots key v,
    invB f lvl slots = true → lowB f lvl slots = true → lowKey key = true →
    (∀ its, itemsF f slots = some its → ∀ p ∈ its, ∀ m, m < lvl →
      hashI m p.1 = hashI m key) →
    lvl ≤ key.length → key.length + 2 ≤ f + lvl →
    ∃ out, setF f lvl slots key v = some out ∧ lowB f lvl out = true := by
  intro f
  induction f with
  | zero => intro lvl slots key v _ _ _ _ hlv hfu; omega
  | succ n ih =>
    intro lvl slots key v hinv hlow hkey hagree hlv hfu
    obtain ⟨hlen, hslot⟩ := (invB_succ_iff n lvl slots).mp hinv
    have hilen : hashI lvl key < slots.length := by
      rw [hlen]; exact hashI_lt lvl key
    obtain ⟨its, hitseq⟩ := invB_items (n + 1) lvl slots hinv
    have hag := hagree its hitseq
    cases hg : slots.getD (hashI lvl key) none with
    | none =>
      refine ⟨slots.set (hashI lvl key) (some (.leaf key v)),
        by simp only [setF, hg], ?_⟩
      rw [lowB_succ_iff]
      intro o ho
      rcases List.mem_or_eq_of_mem_set ho with hmem | he
      · exact (lowB_succ_iff n lvl slots).mp hlow o hmem
      · subst he
        exact ⟨hkey, hlv⟩
    | some sl =>
      cases sl with
      | leaf k0 v0 =>
        have hmemleaf : some (Sl.leaf k0 v0) ∈ slots := by
          rw [← hg]
          exact listGetDMem _ _ _ hilen
        have hlowleaf := (lowB_succ_iff n lvl slots).mp hlow _ hmemleaf
        obtain ⟨hlowk0, hlvk0⟩ := hlowleaf
        by_cases hk : k0 = key
        · subst hk
          refine ⟨slots.set (hashI lvl k0) (some (.leaf k0 v)),
            by simp only [setF, hg]; simp, ?_⟩
          rw [lowB_succ_iff]
          intro o ho
          rcases List.mem_or_eq_of_mem_set ho with hmem | he
          · exact (lowB_succ_iff n lvl slots).mp hlow o hmem
          · subst he
            exact ⟨hkey, hlv⟩
        · -- collision
          have hk0mem : (k0, v0) ∈ its :=
            (items_cover n slots its hitseq _ hilen).1 k0 v0 hg
          have hashk0 : hashI lvl k0 = hashI lvl key := by
            have hs := hslot (hashI lvl key) (hashI_lt lvl key)
            unfold SlotInv at hs
            rw [hg] at hs
            exact hs
          have hlt : lvl < key.length := by
            by_contra hcon
            have hle : key.length ≤ lvl := by omega
            have h26 : hashI lvl key = 26 := by
              unfold hashI
              rw [if_neg (by omega)]
            have hk0le : k0.length ≤ lvl := by
              apply hashI_eq_26 lvl k0
              rw [hashk0, h26]
            exact hk (exhausted_eq lvl k0 key hlowk0 hkey
              (fun m hm => hag (k0, v0) hk0mem m hm) hk0le hle)
          have hlt0 : lvl < k0.length := by
            by_contra hcon
            have hk0le : k0.length ≤ lvl := by omega
            have h26 : hashI lvl k0 = 26 := by
              unfold hashI
              rw [if_neg (by omega)]
            have hkey26 : hashI lvl key = 26 := by rw [← hashk0, h26]
            have := hashI_eq_26 lvl key hkey26
            omega
          have hn2 : 2 ≤ n := by omega
          cases n with
          | zero => omega
          | succ m =>
            have hc1 : setF (m + 1) (lvl + 1) emptySlots k0 v0 =
                some (emptySlots.set (hashI (lvl + 1) k0)
                  (some (.leaf k0 v0))) := by
              simp only [setF, emptySlots_getD]
            have hinv1 := invB_singleton m (lvl + 1) k0 v0
            have hlow1 := lowB_singleton m (lvl + 1) k0 v0 hlowk0 (by omega)
            have hits1 := itemsF_singleton m (lvl + 1) k0 v0
            have hagree1 : ∀ its1, itemsF (m + 1)
                (emptySlots.set (hashI (lvl + 1) k0) (some (.leaf k0 v0))) =
                some its1 → ∀ p ∈ its1, ∀ mm, mm < lvl + 1 →
                hashI mm p.1 = hashI mm key := by
              intro its1 h1 p hp mm hmm
              rw [hits1] at h1
              have h1e : its1 = [(k0, v0)] := (Option.some.inj h1).symm
              subst h1e
              simp at hp
              subst hp
              rcases Nat.lt_or_ge mm lvl with hml | hml
              · exact hag (k0, v0) hk0mem mm hml
              · have hmeq : mm = lvl := by omega
                subst hmeq
                exact hashk0
            obtain ⟨s2done, hc2, hlow2⟩ := ih (lvl + 1) _ key v hinv1 hlow1
              hkey hagree1 (by omega) (by omega)
            refine ⟨slots.set (hashI lvl key) (some (.sub (lvl + 1) s2done)),
              ?_, ?_⟩
            · exact setF_at_collide hg hk hc1 hc2
            · rw [lowB_succ_iff]
              intro o ho
              rcases List.mem_or_eq_of_mem_set ho with hmem | he
              · exact (lowB_succ_iff (m + 1) lvl slots).mp hlow o hmem
              · subst he
                exact hlow2
      | sub l2 s2 =>
        have hs := hslot (hashI lvl key) (hashI_lt lvl key)
        unfold SlotInv at hs
        rw [hg] at hs
        obtain ⟨hl2, hinv2, its3, hits3, hlen3, hhash3⟩ := hs
        subst hl2
        have hmemsub : some (Sl.sub (lvl + 1) s2) ∈ slots := by
          rw [← hg]
          exact listGetDMem _ _ _ hilen
        have hlowsub : lowB n (lvl + 1) s2 = true :=
          (lowB_succ_iff n lvl slots).mp hlow _ hmemsub
        have hlt : lvl < key.length := by
          by_contra hcon
          have h26 : hashI lvl key = 26 := by
            unfold hashI
            rw [if_neg (by omega)]
          refine noSub26 (n + 1) lvl slots hinv (lvl + 1) s2 ?_
          rw [h26] at hg
          exact hg
        have hagree2 : ∀ its2, itemsF n s2 = some its2 → ∀ p ∈ its2,
            ∀ mm, mm < lvl + 1 → hashI mm p.1 = hashI mm key := by
          intro its2 h2 p hp mm hmm
          have hsame : its2 = its3 := by
            rw [h2] at hits3
            exact Option.some.inj hits3
          subst hsame
          rcases Nat.lt_or_ge mm lvl with hml | hml
          · have hpmem : p ∈ its :=
              (items_cover n slots its hitseq _ hilen).2 _ s2 its2 hg h2 p hp
            exact hag p hpmem mm hml
          · have hmeq : mm = lvl := by omega
            subst hmeq
            exact hhash3 p hp
        obtain ⟨s2x, hcx, hlowx⟩ := ih (lvl + 1) s2 key v hinv2 hlowsub hkey
          hagree2 (by omega) (by omega)
        refine ⟨slots.set (hashI lvl key) (some (.sub (lvl + 1) s2x)), ?_, ?_⟩
        · simp only [setF, hg, hcx]
        · rw [lowB_succ_iff]
          intro o ho
          rcases List.mem_or_eq_of_mem_set ho with hmem | he
          · exact (lowB_succ_iff n lvl slots).mp hlow o hmem
          · subst he
            exact hlowx

/-- On a well formed lowercase table, the location list of a stored key of
length L, counted from level `lvl`, never exceeds L + 1 - lvl entries. -/
theorem loc_bound : ∀ f lvl slots key loc, invB f lvl slots = true →
    lowB f lvl slots = true → getLocF f lvl slots key = some (some loc) →
    lvl + loc.length ≤ key.length + 1 := by
  intro f
  induction f with
  | zero => intro lvl slots key loc h _ _; simp [invB] at h
  | succ n ih =>
    intro lvl slots key loc hinv hlow hloc
    obtain ⟨hlen, hslot⟩ := (invB_succ_iff n lvl slots).mp hinv
    have hilen : hashI lvl key < slots.length := by
      rw [hlen]; exact hashI_lt lvl key
    cases hg : slots.getD (hashI lvl key) none with
    | none =>
      simp only [getLocF, hg] at hloc
      cases hloc
    | some sl =>
      cases sl with
      | leaf k0 v0 =>
        simp only [getLocF, hg] at hloc
        by_cases hk : k0 = key
        · rw [if_pos hk] at hloc
          have hle : loc = [hashI lvl key] :=
            (Option.some.inj (Option.some.inj hloc)).symm
          subst hle
          have hmemleaf : some (Sl.leaf k0 v0) ∈ slots := by
            rw [← hg]
            exact listGetDMem _ _ _ hilen
          have hlowleaf := (lowB_succ_iff n lvl slots).mp hlow _ hmemleaf
          obtain ⟨_, hlvk0⟩ := hlowleaf
          have : k0.length = key.length := by rw [hk]
          simp only [List.length_cons, List.length_nil]
          omega
        · rw [if_neg hk] at hloc
          cases Option.some.inj hloc
      | sub l2 s2 =>
        have hs := hslot (hashI lvl key) (hashI_lt lvl key)
        unfold SlotInv at hs
        rw [hg] at hs
        obtain ⟨hl2, hinv2, _, _, _, _⟩ := hs
        subst hl2
        have hmemsub : some (Sl.sub (lvl + 1) s2) ∈ slots := by
          rw [← hg]
          exact listGetDMem _ _ _ hilen
        have hlowsub : lowB n (lvl + 1) s2 = true :=
          (lowB_succ_iff n lvl slots).mp hlow _ hmemsub
        simp only [getLocF, hg] at hloc
        cases hrec : getLocF n (lvl + 1) s2 key with
        | none => rw [hrec] at hloc; cases hloc
        | some r2 =>
          cases r2 with
          | none =>
            simp only [hrec] at hloc
            cases Option.some.inj hloc
          | some loc2 =>
            simp only [hrec] at hloc
            have hle : loc = hashI lvl key :: loc2 :=
              (Option.some.inj (Option.some.inj hloc)).symm
            subst hle
            have := ih (lvl + 1) s2 key loc2 hinv2 hlowsub hrec
            simp only [List.length_cons]
            omega

/-- One step unfolding of insertion when the collision rebuild fails at
the first inner insertion. -/
theorem setF_at_collide_fail1 {f lvl : Nat} {slots : List (Option Sl)}
    {key k0 : IKey} {v0 value : Nat}
    (hg : slots.getD (hashI lvl key) none = some (.leaf k0 v0))
    (hk : ¬(k0 = key))
    (hc1 : setF f (lvl + 1) emptySlots k0 v0 = none) :
    setF (f + 1) lvl slots key value = none := by
  simp only [setF, hg, if_neg hk, hc1]

/-- One step unfolding of insertion when the collision rebuild fails at
the second inner insertion. -/
theorem setF_at_collide_fail2 {f lvl : Nat} {slots : List (Option Sl)}
    {key k0 : IKey} {v0 value : Nat} {s1 : List (Option Sl)}
    (hg : slots.getD (hashI lvl key) none = some (.leaf k0 v0))
    (hk : ¬(k0 = key))
    (hc1 : setF f (lvl + 1) emptySlots k0 v0 = some s1)
    (hc2 : setF f (lvl + 1) s1 key value = none) :
    setF (f + 1) lvl slots key value = none := by
  simp only [setF, hg, if_neg hk, hc1, hc2]

/-- Inserting the key made of the single character code 123 into a table
that stores the single character key 97 at the reserved slot 26 never
terminates: the two keys collide at every level at or beyond 1. -/
theorem diverge_aux : ∀ n lvl, 1 ≤ lvl →
    setF n lvl (emptySlots.set 26 (some (.leaf [97] 7))) [123] 8 = none := by
  intro n
  induction n with
  | zero => intro lvl _; rfl
  | succ m ih =>
    intro lvl h
    have hhash : hashI lvl [123] = 26 := by
      unfold hashI
      rw [if_neg (by simp only [List.length_cons, List.length_nil]; omega)]
    have hgd : (emptySlots.set 26 (some (.leaf [97] 7))).getD
        (hashI lvl [123]) none = some (.leaf [97] 7) := by
      rw [hhash]
      exact listGetDSetSelf _ _ _ _ (by rw [emptySlots_length]; norm_num)
    have hne : ¬(([97] : IKey) = [123]) := by decide
    cases m with
    | zero => exact setF_at_collide_fail1 hgd hne rfl
    | succ m2 =>
      have h1 : hashI (lvl + 1) [97] = 26 := by
        unfold hashI
        rw [if_neg (by simp only [List.length_cons, List.length_nil]; omega)]
      have hc1 : setF (m2 + 1) (lvl + 1) emptySlots [97] 7 =
          some (emptySlots.set 26 (some (.leaf [97] 7))) := by
        have h0 : setF (m2 + 1) (lvl + 1) emptySlots [97] 7 =
            some (emptySlots.set (hashI (lvl + 1) [97])
              (some (.leaf [97] 7))) := by
          simp only [setF, emptySlots_getD]
        rw [h0, h1]
      exact setF_at_collide_fail2 hgd hne hc1 (ih (lvl + 1) (by omega))

/-- From the top level table holding only the key with character code 97,
inserting the distinct key with character code 123 never terminates, for
any amount of fuel. -/
theorem diverge_top : ∀ n,
    setF n 0 (emptySlots.set 19 (some (.leaf [97] 7))) [123] 8 = none := by
  intro n
  cases n with
  | zero => rfl
  | succ m =>
    have hgd : (emptySlots.set 19 (some (.leaf [97] 7))).getD
        (hashI 0 [123]) none = some (.leaf [97] 7) := by rfl
    have hne : ¬(([97] : IKey) = [123]) := by decide
    cases m with
    | zero => exact setF_at_collide_fail1 hgd hne rfl
    | succ m2 =>
      have hc1 : setF (m2 + 1) 1 emptySlots [97] 7 =
          some (emptySlots.set 26 (some (.leaf [97] 7))) := by
        have h0 : setF (m2 + 1) 1 emptySlots [97] 7 =
            some (emptySlots.set (hashI 1 [97]) (some (.leaf [97] 7))) := by
          simp only [setF, emptySlots_getD]
        rw [h0]
        rfl
      exact setF_at_collide_fail2 hgd hne hc1 (diverge_aux (m2 + 1) 1 (by omega))

end IHT

namespace DKT

/-- Exceptions: KeyError and FullError are the two contractual kinds of
double_key_table.py; `index` models a Python IndexError raised by indexing
the size class list out of range. -/
inductive Err where
| key : Err
| full : Err
| index : Err
deriving DecidableEq

/-- Decidable equality of fallible results. -/
instance exceptDecEq {e a : Type} [DecidableEq e] [DecidableEq a] :
    DecidableEq (Except e a) := fun x y =>
  match x, y with
  | .ok u, .ok w =>
    if h : u = w then isTrue (by rw [h])
    else isFalse (fun hc => h (Except.ok.inj hc))
  | .error u, .error w =>
    if h : u = w then isTrue (by rw [h])
    else isFalse (fun hc => h (Except.error.inj hc))
  | .ok _, .error _ => isFalse (fun hc => Except.noConfusion hc)
  | .error _, .ok _ => isFalse (fun hc => Except.noConfusion hc)


/-- The polynomial rolling hash of double_key_table.py (hash1 and hash2):
`value = (ord(c) + a * value) % size` with `a = a * 31 % (size - 1)`,
seeded with `a = 31415`, evaluated against the current size of the table
it indexes. -/
def polyHash (size : Nat) (k : List Nat) : Nat :=
  (k.foldl (fun (p : Nat × Nat) c =>
    ((c + p.2 * p.1) % size, p.2 * 31 % (size - 1))) (0, 31415)).1

/-- Modelled from the spec: the external single key LinearProbeTable that
the composite key table nests (data_structures/hash_table.py is not part
of the sources).  It exposes a size class list, a size index, an open
addressing array of key/value slots and a stored count; its pluggable
hash is `hash2`, bound to the table's own current size. -/
structure LPT where
  sizes : List Nat
  size_index : Nat
  array : List (Option (List Nat × Nat))
  count : Nat
deriving DecidableEq

/-- Modelled from the spec: a freshly constructed LinearProbeTable over
the given size class list starts at the first size class, empty. -/
def lptNew (sizes : List Nat) : LPT :=
  { sizes := sizes, size_index := 0,
    array := List.replicate (sizes.getD 0 0) none, count := 0 }

/-- The scan of `_linear_probe`: at most `steps` slots starting from
`pos`, stopping at an empty slot (`found = false`) or a slot holding the
key (`found = true`); `none` when the scan exhausts the table. -/
def scanKey {α : Type} (arr : List (Option (List Nat × α))) (key : List Nat) :
    Nat → Nat → Option (Nat × Bool)
| 0, _ => none
| steps + 1, pos =>
  match arr.getD pos none with
  | none => some (pos, false)
  | some (k, _) =>
    if k = key then some (pos, true)
    else scanKey arr key steps ((pos + 1) % arr.length)

/-- The scan of `_linear_probe_upper_table`: at most `steps` slots
starting from `pos`, stopping at the first empty slot; `none` when the
table is full. -/
def findNone {α : Type} (arr : List (Option α)) : Nat → Nat → Option Nat
| 0, _ => none
| steps + 1, pos =>
  match arr.getD pos none with
  | none => some pos
  | some _ => findNone arr steps ((pos + 1) % arr.length)

/-- Modelled from the spec: LinearProbeTable._linear_probe, scanning the
whole table from the hashed start position; raises KeyError on a failed
lookup and FullError on a failed insert. -/
def lptProbe (it : LPT) (key : List Nat) (isIns : Bool) : Except Err Nat :=
  match scanKey it.array key it.array.length
      (polyHash it.array.length key) with
  | some (pos, true) => .ok pos
  | some (pos, false) => if isIns then .ok pos else .error .key
  | none => if isIns then .error .full else .error .key

/-- Modelled from the spec: LinearProbeTable.__contains__. -/
def lptContains (it : LPT) (key : List Nat) : Bool :=
  match lptProbe it key false with
  | .ok _ => true
  | .error _ => false

/-- Modelled from the spec: LinearProbeTable.__getitem__. -/
def lptGet (it : LPT) (key : List Nat) : Except Err Nat :=
  match lptProbe it key false with
  | .error e => .error e
  | .ok pos =>
    match it.array.getD pos none with
    | some (_, v) => .ok v
    | none => .error .index

/-- Reinsertion of a list of entries into a fresh array by probing for the
first empty slot, as the rehash of either level does. -/
def rebuild {α : Type} : List (List Nat × α) → List (Option (List Nat × α)) →
    Except Err (List (Option (List Nat × α)))
| [], arr => .ok arr
| (k, v) :: rest, arr =>
  match findNone arr arr.length (polyHash arr.length k) with
  | none => .error .full
  | some np => rebuild rest (arr.set np (some (k, v)))

/-- The occupied entries of an open addressing array, in slot order. -/
def entriesOf {α : Type} (arr : List (Option α)) : List α := arr.filterMap id

/-- Modelled from the spec: LinearProbeTable._rehash.  The size index is
advanced before the at maximum check, exactly as in the copied code the
outer table quotes; reinsertion probes each stored pair into the fresh
array. -/
def lptRehash (it : LPT) : Except Err LPT :=
  let idx2 := it.size_index + 1
  if idx2 = it.sizes.length then
    .ok { it with size_index := idx2 }
  else
    match it.sizes.get? idx2 with
    | none => .error .index
    | some ns =>
      match rebuild (entriesOf it.array) (List.replicate ns none) with
      | .error e => .error e
      | .ok arr2 =>
        .ok { it with size_index := idx2, array := arr2 }

/-- Modelled from the spec: LinearProbeTable.__setitem__, counting only
insertions into empty slots and rehashing under the half full rule. -/
def lptSet (it : LPT) (key : List Nat) (v : Nat) : Except Err LPT :=
  match lptProbe it key true with
  | .error e => .error e
  | .ok pos =>
    let newCount :=
      if it.array.getD pos none = none then it.count + 1 else it.count
    let it2 : LPT := { it with array := it.array.set pos (some (key, v)),
                               count := newCount }
    if 2 * it2.count > it2.array.length then lptRehash it2 else .ok it2

/-- The cluster repair loop of a linear probe deletion: walk forward from
`pos` while slots are occupied, clearing each and reinserting it at its
probed position.  Fuel bounds the number of iterations. -/
def repairLoop {α : Type} : Nat → List (Option (List Nat × α)) → Nat →
    Option (Except Err (List (Option (List Nat × α))))
| fuel, arr, pos =>
  match arr.getD pos none with
  | none => some (.ok arr)
  | some (k, v) =>
    match fuel with
    | 0 => none
    | f + 1 =>
      let arr1 := arr.set pos none
      match findNone arr1 arr1.length (polyHash arr1.length k) with
      | none => some (.error .full)
      | some np =>
        repairLoop f (arr1.set np (some (k, v))) ((pos + 1) % arr.length)

/-- Modelled from the spec: LinearProbeTable.__delitem__ with the
standard cluster repair walk. -/
def lptDel (fuel : Nat) (it : LPT) (key : List Nat) :
    Option (Except Err LPT) :=
  match lptProbe it key false with
  | .error e => some (.error e)
  | .ok pos =>
    let arr1 := it.array.set pos none
    match repairLoop fuel arr1 ((pos + 1) % arr1.length) with
    | none => none
    | some (.error e) => some (.error e)
    | some (.ok arr2) =>
      some (.ok { it with array := arr2, count := it.count - 1 })

/-- Modelled from the spec: LinearProbeTable.keys. -/
def lptKeys (it : LPT) : List (List Nat) :=
  (entriesOf it.array).map Prod.fst

/-- Modelled from the spec: LinearProbeTable.values. -/
def lptValues (it : LPT) : List Nat :=
  (entriesOf it.array).map Prod.snd

/-- The default size class sequence of DoubleKeyTable.TABLE_SIZES. -/
def TABLE_SIZES : List Nat :=
  [5, 13, 29, 53, 97, 193, 389, 769, 1543, 3079, 6151, 12289, 24593,
   49157, 98317, 196613, 393241, 786433, 1572869]

/-- The state of a DoubleKeyTable (double_key_table.py): outer size class
list, inner size class list, current size index, outer open addressing
array of (key1, inner table) slots, and the occupied outer slot count. -/
structure Table where
  external_table_sizes : List Nat
  internal_table_sizes : List Nat
  size_index : Nat
  external_table_array : List (Option (List Nat × LPT))
  external_table_length : Nat
deriving DecidableEq

/-- DoubleKeyTable.table_size: the current outer capacity. -/
def Table.table_size (t : Table) : Nat := t.external_table_array.length

/-- DoubleKeyTable.__init__ with optional size class lists. -/
def mkTable (sizes internal_sizes : Option (List Nat)) : Table :=
  let es := sizes.getD TABLE_SIZES
  let is2 := internal_sizes.getD TABLE_SIZES
  { external_table_sizes := es, internal_table_sizes := is2,
    size_index := 0,
    external_table_array := List.replicate (es.getD 0 0) none,
    external_table_length := 0 }

/-- DoubleKeyTable.hash1 against the current outer size. -/
def hash1 (t : Table) (k : List Nat) : Nat := polyHash t.table_size k

/-- The loop of DoubleKeyTable._linear_probe: scan outer slots from `pos`
for at most `steps` steps.  An empty slot creates the inner table on
insert (incrementing the occupancy) or raises KeyError; a slot holding
key1 delegates to the inner probe for key2; any other slot advances.
Exhaustion raises FullError on insert, KeyError on lookup. -/
def probeAuxD (t : Table) (key1 key2 : List Nat) (isIns : Bool) :
    Nat → Nat → Except Err ((Nat × Nat) × Table)
| 0, _ => if isIns then .error .full else .error .key
| steps + 1, pos =>
  match t.external_table_array.getD pos none with
  | none =>
    if isIns then
      let nt := lptNew t.internal_table_sizes
      match lptProbe nt key2 true with
      | .error e => .error e
      | .ok bp =>
        .ok ((pos, bp),
          { t with
              external_table_array :=
                t.external_table_array.set pos (some (key1, nt)),
              external_table_length := t.external_table_length + 1 })
    else .error .key
  | some (k, it) =>
    if k = key1 then
      if lptContains it key2 then
        match lptProbe it key2 false with
        | .error e => .error e
        | .ok bp => .ok ((pos, bp), t)
      else if isIns then
        match lptProbe it key2 true with
        | .error e => .error e
        | .ok bp => .ok ((pos, bp), t)
      else .error .key
    else probeAuxD t key1 key2 isIns steps ((pos + 1) % t.table_size)

/-- DoubleKeyTable._linear_probe. -/
def dktProbe (t : Table) (key1 key2 : List Nat) (isIns : Bool) :
    Except Err ((Nat × Nat) × Table) :=
  probeAuxD t key1 key2 isIns t.table_size (hash1 t key1)

/-- DoubleKeyTable.__getitem__. -/
def dktGet (t : Table) (k1 k2 : List Nat) : Except Err Nat :=
  match dktProbe t k1 k2 false with
  | .error e => .error e
  | .ok ((p, _), t1) =>
    match t1.external_table_array.getD p none with
    | some (_, it) => lptGet it k2
    | none => .error .index

/-- DoubleKeyTable.__contains__. -/
def dktContains (t : Table) (k1 k2 : List Nat) : Bool :=
  match dktGet t k1 k2 with
  | .ok _ => true
  | .error _ => false

/-- DoubleKeyTable._rehash: advance the size index, return unchanged when
it reaches the end of the size class list (the index stays advanced), and
otherwise reinsert every (key1, inner table) pair into the fresh array by
probing for an empty slot; indexing past the size class list raises
IndexError. -/
def dktRehash (t : Table) : Except Err Table :=
  let idx2 := t.size_index + 1
  if idx2 = t.external_table_sizes.length then
    .ok { t with size_index := idx2 }
  else
    match t.external_table_sizes.get? idx2 with
    | none => .error .index
    | some ns =>
      match rebuild (entriesOf t.external_table_array)
          (List.replicate ns none) with
      | .error e => .error e
      | .ok arr2 =>
        .ok { t with size_index := idx2, external_table_array := arr2 }

/-- DoubleKeyTable.__setitem__: probe (creating structure as needed),
write through the inner table, and rehash the outer table when occupancy
exceeds half the capacity. -/
def dktSet (t : Table) (k1 k2 : List Nat) (v : Nat) : Except Err Table :=
  match dktProbe t k1 k2 true with
  | .error e => .error e
  | .ok ((p, _), t1) =>
    match t1.external_table_array.getD p none with
    | none => .error .index
    | some (k, it) =>
      match lptSet it k2 v with
      | .error e => .error e
      | .ok it2 =>
        let t2 : Table := { t1 with external_table_array :=
          t1.external_table_array.set p (some (k, it2)) }
        if 2 * t2.external_table_length > t2.table_size then dktRehash t2
        else .ok t2

/-- DoubleKeyTable.__delitem__: locate the pair, re-check membership,
delete from the inner table; when the inner table becomes empty, clear
the outer slot, decrement the occupancy and run cluster repair from the
vacated slot. -/
def dktDel (fuel : Nat) (t : Table) (k1 k2 : List Nat) :
    Option (Except Err Table) :=
  match dktProbe t k1 k2 false with
  | .error e => some (.error e)
  | .ok ((p, _), t1) =>
    if dktContains t1 k1 k2 = false then some (.error .key)
    else
      match t1.external_table_array.getD p none with
      | none => some (.error .index)
      | some (k, it) =>
        match lptDel fuel it k2 with
        | none => none
        | some (.error e) => some (.error e)
        | some (.ok it2) =>
          if it2.count = 0 then
            let arr2 := (t1.external_table_array.set p
              (some (k, it2))).set p none
            match repairLoop fuel arr2 ((p + 1) % t1.table_size) with
            | none => none
            | some (.error e) => some (.error e)
            | some (.ok arr3) =>
              some (.ok { t1 with
                external_table_array := arr3,
                external_table_length := t1.external_table_length - 1 })
          else
            some (.ok { t1 with external_table_array :=
              t1.external_table_array.set p (some (k, it2)) })

/-- DoubleKeyTable.keys with a first level key: scan forward from
hash1(key1) to the end of the array, without wrap around, and delegate to
the inner table; raise KeyError when the scan finds no slot holding
key1. -/
def findFwd (t : Table) (key : List Nat) : Option Nat :=
  (List.range t.table_size).find? (fun i =>
    decide (hash1 t key ≤ i) &&
    (match t.external_table_array.getD i none with
     | some (k, _) => k = key
     | none => false))

/-- DoubleKeyTable.keys key1 (the scoped form). -/
def dktKeys1 (t : Table) (key : List Nat) : Except Err (List (List Nat)) :=
  match findFwd t key with
  | none => .error .key
  | some i =>
    match t.external_table_array.getD i none with
    | some (_, it) => .ok (lptKeys it)
    | none => .error .index

/-- DoubleKeyTable.values key1 (the scoped form). -/
def dktValues1 (t : Table) (key : List Nat) : Except Err (List Nat) :=
  match findFwd t key with
  | none => .error .key
  | some i =>
    match t.external_table_array.getD i none with
    | some (_, it) => .ok (lptValues it)
    | none => .error .index

/-- DoubleKeyTable.keys None: all first level keys in slot order. -/
def dktKeysAll (t : Table) : List (List Nat) :=
  (entriesOf t.external_table_array).map Prod.fst

/-- DoubleKeyTable.values None: all values, inner tables in outer slot
order. -/
def dktValuesAll (t : Table) : List Nat :=
  ((entriesOf t.external_table_array).map (fun e => lptValues e.2)).flatten

/-- DoubleKeyTable.__len__: the sum of the lengths of the inner tables
over all occupied outer slots. -/
def dktLen (t : Table) : Nat :=
  ((entriesOf t.external_table_array).map (fun e => e.2.count)).sum

/-- Every stored key of an open addressing array is found by the probe
scan started at its own hash position. -/
def ReachArr {α : Type} (arr : List (Option (List Nat × α))) : Prop :=
  ∀ j, j < arr.length → ∀ k p, arr.getD j none = some (k, p) →
    scanKey arr k arr.length (polyHash arr.length k) = some (j, true)

/-- One step unfolding of the probe scan at an empty slot. -/
theorem scanKey_succ_none {α : Type} {arr : List (Option (List Nat × α))}
    {key : List Nat} {s pos : Nat} (hg : arr.getD pos none = none) :
    scanKey arr key (s + 1) pos = some (pos, false) := by
  simp only [scanKey, hg]

/-- One step unfolding of the probe scan at a slot holding the key. -/
theorem scanKey_succ_match {α : Type} {arr : List (Option (List Nat × α))}
    {key k : List Nat} {x : α} {s pos : Nat}
    (hg : arr.getD pos none = some (k, x)) (hk : k = key) :
    scanKey arr key (s + 1) pos = some (pos, true) := by
  simp only [scanKey, hg, if_pos hk]

/-- One step unfolding of the probe scan at a mismatched slot. -/
theorem scanKey_succ_step {α : Type} {arr : List (Option (List Nat × α))}
    {key k : List Nat} {x : α} {s pos : Nat}
    (hg : arr.getD pos none = some (k, x)) (hk : ¬(k = key)) :
    scanKey arr key (s + 1) pos =
      scanKey arr key s ((pos + 1) % arr.length) := by
  simp only [scanKey, hg, if_neg hk]

/-- One step unfolding of the empty slot scan at an empty slot. -/
theorem findNone_succ_none {α : Type} {arr : List (Option α)}
    {s pos : Nat} (hg : arr.getD pos none = none) :
    findNone arr (s + 1) pos = some pos := by
  simp only [findNone, hg]

/-- One step unfolding of the empty slot scan at an occupied slot. -/
theorem findNone_succ_step {α : Type} {arr : List (Option α)} {e : α}
    {s pos : Nat} (hg : arr.getD pos none = some e) :
    findNone arr (s + 1) pos = findNone arr s ((pos + 1) % arr.length) := by
  simp only [findNone, hg]

/-- The probe scan stays inside the array. -/
theorem scanKey_lt {α : Type} (arr : List (Option (List Nat × α)))
    (key : List Nat) : ∀ s pos j b, pos < arr.length →
    scanKey arr key s pos = some (j, b) → j < arr.length := by
  intro s
  induction s with
  | zero => intro pos j b _ h; cases h
  | succ n ih =>
    intro pos j b hpos h
    cases hg : arr.getD pos none with
    | none =>
      rw [scanKey_succ_none hg] at h
      cases h
      exact hpos
    | some e =>
      obtain ⟨k, x⟩ := e
      by_cases hk : k = key
      · rw [scanKey_succ_match hg hk] at h
        cases h
        exact hpos
      · rw [scanKey_succ_step hg hk] at h
        exact ih _ j b (Nat.mod_lt _ (by omega)) h

/-- A successful match of the probe scan really holds the key. -/
theorem scanKey_true_occupied {α : Type} (arr : List (Option (List Nat × α)))
    (key : List Nat) : ∀ s pos j,
    scanKey arr key s pos = some (j, true) →
    ∃ p, arr.getD j none = some (key, p) := by
  intro s
  induction s with
  | zero => intro pos j h; cases h
  | succ n ih =>
    intro pos j h
    cases hg : arr.getD pos none with
    | none =>
      rw [scanKey_succ_none hg] at h
      cases h
    | some e =>
      obtain ⟨k, x⟩ := e
      by_cases hk : k = key
      · rw [scanKey_succ_match hg hk] at h
        have hj : pos = j := congrArg Prod.fst (Option.some.inj h)
        subst hj
        subst hk
        exact ⟨x, hg⟩
      · rw [scanKey_succ_step hg hk] at h
        exact ih _ j h

/-- A scan ending in `false` stopped at an empty slot. -/
theorem scanKey_false_none {α : Type} (arr : List (Option (List Nat × α)))
    (key : List Nat) : ∀ s pos j,
    scanKey arr key s pos = some (j, false) →
    arr.getD j none = none := by
  intro s
  induction s with
  | zero => intro pos j h; cases h
  | succ n ih =>
    intro pos j h
    cases hg : arr.getD pos none with
    | none =>
      rw [scanKey_succ_none hg] at h
      have hj : pos = j := congrArg Prod.fst (Option.some.inj h)
      subst hj
      exact hg
    | some e =>
      obtain ⟨k, x⟩ := e
      by_cases hk : k = key
      · rw [scanKey_succ_match hg hk] at h
        exact absurd (congrArg Prod.snd (Option.some.inj h)) (by simp)
      · rw [scanKey_succ_step hg hk] at h
        exact ih _ j h

/-- A successful probe scan is unaffected by filling some empty slot with
a different key. -/
theorem scanKey_set_other {α : Type} (arr : List (Option (List Nat × α)))
    (key k2 : List Nat) (x : α) (q : Nat)
    (hq : arr.getD q none = none) (hne : k2 ≠ key) :
    ∀ s pos j, scanKey arr key s pos = some (j, true) →
    scanKey (arr.set q (some (k2, x))) key s pos = some (j, true) := by
  intro s
  induction s with
  | zero => intro pos j h; cases h
  | succ n ih =>
    intro pos j h
    cases hg : arr.getD pos none with
    | none =>
      rw [scanKey_succ_none hg] at h
      exact absurd (congrArg Prod.snd (Option.some.inj h)) (by simp)
    | some e =>
      obtain ⟨k, y⟩ := e
      have hpq : pos ≠ q := by
        intro he
        rw [he, hq] at hg
        cases hg
      have hg2 : (arr.set q (some (k2, x))).getD pos none = some (k, y) := by
        rw [listGetDSetNe _ _ _ _ _ (fun he => hpq he.symm), hg]
      by_cases hk : k = key
      · rw [scanKey_succ_match hg hk] at h
        rw [scanKey_succ_match hg2 hk]
        exact h
      · rw [scanKey_succ_step hg hk] at h
        rw [scanKey_succ_step hg2 hk]
        have := ih ((pos + 1) % arr.length) j h
        simpa using this

/-- Inserting the key at the empty slot its probe scan found makes the
scan succeed there. -/
theorem scanKey_set_self {α : Type} (arr : List (Option (List Nat × α)))
    (key : List Nat) (x : α) :
    ∀ s pos p, p < arr.length → scanKey arr key s pos = some (p, false) →
    scanKey (arr.set p (some (key, x))) key s pos = some (p, true) := by
  intro s
  induction s with
  | zero => intro pos p _ h; cases h
  | succ n ih =>
    intro pos p hp h
    cases hg : arr.getD pos none with
    | none =>
      rw [scanKey_succ_none hg] at h
      have hj : pos = p := congrArg Prod.fst (Option.some.inj h)
      subst hj
      exact scanKey_succ_match (listGetDSetSelf _ _ _ _ hp) rfl
    | some e =>
      obtain ⟨k, y⟩ := e
      by_cases hk : k = key
      · rw [scanKey_succ_match hg hk] at h
        exact absurd (congrArg Prod.snd (Option.some.inj h)) (by simp)
      · rw [scanKey_succ_step hg hk] at h
        have hpn : arr.getD p none = none := scanKey_false_none arr key n _ p h
        have hpq : pos ≠ p := by
          intro he
          rw [he, hpn] at hg
          cases hg
        have hg2 : (arr.set p (some (key, x))).getD pos none = some (k, y) := by
          rw [listGetDSetNe _ _ _ _ _ (fun he => hpq he.symm), hg]
        rw [scanKey_succ_step hg2 hk]
        have := ih ((pos + 1) % arr.length) p hp h
        simpa using this

/-- The empty slot scan returns an empty slot inside the array. -/
theorem findNone_spec {α : Type} (arr : List (Option α)) :
    ∀ s pos p, pos < arr.length → findNone arr s pos = some p →
    arr.getD p none = none ∧ p < arr.length := by
  intro s
  induction s with
  | zero => intro pos p _ h; cases h
  | succ n ih =>
    intro pos p hpos h
    simp only [findNone] at h
    cases hg : arr.getD pos none with
    | none =>
      rw [hg] at h
      cases h
      exact ⟨hg, hpos⟩
    | some e =>
      rw [hg] at h
      exact ih _ p (Nat.mod_lt _ (by omega)) h

/-- For a key absent from the array, the probe scan coincides with the
empty slot scan. -/
theorem scanKey_absent {α : Type} (arr : List (Option (List Nat × α)))
    (key : List Nat)
    (habs : ∀ j, j < arr.length → ∀ k2 x, arr.getD j none = some (k2, x) →
      k2 ≠ key) :
    ∀ s pos, pos < arr.length →
    scanKey arr key s pos = (findNone arr s pos).map (fun p => (p, false)) := by
  intro s
  induction s with
  | zero => intro pos _; rfl
  | succ n ih =>
    intro pos hpos
    cases hg : arr.getD pos none with
    | none => rw [scanKey_succ_none hg, findNone_succ_none hg]; rfl
    | some e =>
      obtain ⟨k, x⟩ := e
      rw [scanKey_succ_step hg (habs pos hpos k x hg), findNone_succ_step hg]
      exact ih _ (Nat.mod_lt _ (by omega))

/-- The occupied entries of an array, decomposed around one position. -/
theorem entriesOf_self_split {α : Type} (arr : List (Option α)) (p : Nat)
    (hp : p < arr.length) :
    entriesOf arr = entriesOf (arr.take p) ++
      (arr.getD p none).toList ++ entriesOf (arr.drop (p + 1)) := by
  conv_lhs => rw [listSelfDecomp arr p none hp]
  unfold entriesOf
  rw [List.filterMap_append]
  simp only [List.filterMap_cons]
  cases arr.getD p none <;> simp

/-- The occupied entries of an array after updating one position. -/
theorem entriesOf_set_split {α : Type} (arr : List (Option α)) (p : Nat)
    (x : Option α) (hp : p < arr.length) :
    entriesOf (arr.set p x) = entriesOf (arr.take p) ++
      x.toList ++ entriesOf (arr.drop (p + 1)) := by
  rw [List.set_eq_take_cons_drop x hp]
  unfold entriesOf
  rw [List.filterMap_append]
  simp only [List.filterMap_cons]
  cases x <;> simp

/-- Membership in the occupied entries. -/
theorem entriesOf_mem {α : Type} (arr : List (Option α)) (e : α) :
    e ∈ entriesOf arr ↔ ∃ j, j < arr.length ∧ arr.getD j none = some e := by
  unfold entriesOf
  rw [List.mem_filterMap]
  constructor
  · rintro ⟨o, ho, hid⟩
    obtain ⟨j, hj, hgj⟩ := List.getElem_of_mem ho
    refine ⟨j, hj, ?_⟩
    rw [List.getD_eq_getElem?_getD, List.getElem?_eq_getElem hj, hgj]
    exact hid
  · rintro ⟨j, hj, hgj⟩
    refine ⟨some e, ?_, rfl⟩
    rw [← hgj]
    exact IHT.listGetDMem arr j none hj

/-- Well formedness of an inner table: non degenerate capacity, an exact
count, and every stored key reachable by probing from its hash. -/
def lptWF (it : LPT) : Bool :=
  decide (0 < it.array.length) &&
  (it.count == (entriesOf it.array).length) &&
  (List.range it.array.length).all (fun j =>
    match it.array.getD j none with
    | none => true
    | some (k, _) =>
      scanKey it.array k it.array.length (polyHash it.array.length k) ==
        some (j, true))

/-- Unfolding of inner table well formedness. -/
theorem lptWF_iff (it : LPT) : lptWF it = true ↔
    (0 < it.array.length ∧ it.count = (entriesOf it.array).length ∧
      ReachArr it.array) := by
  simp only [lptWF, Bool.and_eq_true, decide_eq_true_eq, beq_iff_eq,
    List.all_eq_true, List.mem_range]
  constructor
  · rintro ⟨⟨h1, h2⟩, h3⟩
    refine ⟨h1, h2, fun j hj k p hg => ?_⟩
    have := h3 j hj
    rw [hg] at this
    exact beq_iff_eq.mp this
  · rintro ⟨h1, h2, h3⟩
    refine ⟨⟨h1, h2⟩, fun j hj => ?_⟩
    cases hg : it.array.getD j none with
    | none => rfl
    | some e =>
      obtain ⟨k, p⟩ := e
      exact beq_iff_eq.mpr (h3 j hj k p hg)

/-- The per slot content of outer table well formedness. -/
def SlotWFD (t : Table) (j : Nat) : Prop :=
  match t.external_table_array.getD j none with
  | none => True
  | some (k1, it) =>
    scanKey t.external_table_array k1 t.table_size
      (polyHash t.table_size k1) = some (j, true) ∧
    lptWF it = true ∧ 0 < it.count

/-- Well formedness of the composite table: non degenerate outer
capacity, an exact occupancy count, every stored first level key
reachable by probing from its hash, and every inner table well formed and
non empty. -/
def dktWF (t : Table) : Bool :=
  decide (0 < t.table_size) &&
  (t.external_table_length == (entriesOf t.external_table_array).length) &&
  (List.range t.table_size).all (fun j =>
    match t.external_table_array.getD j none with
    | none => true
    | some (k1, it) =>
      (scanKey t.external_table_array k1 t.table_size
        (polyHash t.table_size k1) == some (j, true)) &&
      lptWF it && decide (0 < it.count))

/-- Unfolding of composite table well formedness. -/
theorem dktWF_iff (t : Table) : dktWF t = true ↔
    (0 < t.table_size ∧
      t.external_table_length = (entriesOf t.external_table_array).length ∧
      ∀ j, j < t.table_size → SlotWFD t j) := by
  simp only [dktWF, Bool.and_eq_true, decide_eq_true_eq, beq_iff_eq,
    List.all_eq_true, List.mem_range]
  constructor
  · rintro ⟨⟨h1, h2⟩, h3⟩
    refine ⟨h1, h2, fun j hj => ?_⟩
    have := h3 j hj
    unfold SlotWFD
    cases hg : t.external_table_array.getD j none with
    | none => trivial
    | some e =>
      obtain ⟨k1, it⟩ := e
      rw [hg] at this
      simp only [Bool.and_eq_true, beq_iff_eq, decide_eq_true_eq] at this
      exact ⟨this.1.1, this.1.2, this.2⟩
  · rintro ⟨h1, h2, h3⟩
    refine ⟨⟨h1, h2⟩, fun j hj => ?_⟩
    have := h3 j hj
    unfold SlotWFD at this
    cases hg : t.external_table_array.getD j none with
    | none => rfl
    | some e =>
      obtain ⟨k1, it⟩ := e
      rw [hg] at this
      simp only [Bool.and_eq_true, beq_iff_eq, decide_eq_true_eq]
      exact ⟨⟨this.1, this.2.1⟩, this.2.2⟩

/-- Each key occupies at most one slot. -/
def KeyUniqueArr {α : Type} (arr : List (Option (List Nat × α))) : Prop :=
  ∀ j1 j2 k p1 p2, j1 < arr.length → j2 < arr.length →
    arr.getD j1 none = some (k, p1) → arr.getD j2 none = some (k, p2) →
    j1 = j2

/-- Reachability of every stored key implies key uniqueness. -/
theorem keyUnique_of_reach {α : Type} (arr : List (Option (List Nat × α)))
    (h : ReachArr arr) : KeyUniqueArr arr := by
  intro j1 j2 k p1 p2 hj1 hj2 hg1 hg2
  have h1 := h j1 hj1 k p1 hg1
  have h2 := h j2 hj2 k p2 hg2
  rw [h1] at h2
  have h3 : j1 = j2 := congrArg Prod.fst (Option.some.inj h2)
  exact h3

/-- Forward cyclic distance from `pos` to `w` in a table of `n` slots. -/
def cdistN (n w pos : Nat) : Nat := if pos ≤ w then w - pos else w + n - pos

/-- Advancing one slot decreases the cyclic distance by one. -/
theorem cdist_step (n w pos : Nat) (hn : pos < n) (hw : w < n)
    (hne : pos ≠ w) : cdistN n w ((pos + 1) % n) + 1 = cdistN n w pos := by
  rcases Nat.lt_or_ge (pos + 1) n with hlt | hge
  · rw [Nat.mod_eq_of_lt hlt]
    unfold cdistN
    split <;> split <;> omega
  · have he : pos + 1 = n := by omega
    rw [he, Nat.mod_self]
    unfold cdistN
    split <;> split <;> omega

/-- The cyclic distance is positive away from the target. -/
theorem cdist_pos (n w pos : Nat) (hn : pos < n) (hne : pos ≠ w) :
    1 ≤ cdistN n w pos := by
  unfold cdistN
  split <;> omega

/-- A contiguous occupied run from `w` to `j`, within `s` steps. -/
def inRun {α : Type} (arr : List (Option α)) : Nat → Nat → Nat → Prop
| 0, _, _ => False
| s + 1, w, j => arr.getD w none ≠ none ∧
    (w = j ∨ inRun arr s ((w + 1) % arr.length) j)

/-- A run within fewer steps is a run within more. -/
theorem inRun_mono {α : Type} (arr : List (Option α)) :
    ∀ s s2 pos j, s ≤ s2 → inRun arr s pos j → inRun arr s2 pos j := by
  intro s
  induction s with
  | zero => intro s2 pos j _ h; exact absurd h (by simp [inRun])
  | succ m ih =>
    intro s2 pos j hle h
    obtain ⟨occ, rest⟩ := h
    obtain ⟨m2, rfl⟩ : ∃ m2, s2 = m2 + 1 := ⟨s2 - 1, by omega⟩
    refine ⟨occ, ?_⟩
    rcases rest with he | hrun
    · exact Or.inl he
    · exact Or.inr (ih m2 _ j (by omega) hrun)

/-- Transfer of an occupied run to an array that keeps every slot other
than `w` occupied, as long as the run cannot wrap back to `w`. -/
theorem inRun_transfer {α : Type} (arrA arrB : List (Option α)) (w : Nat)
    (hlen : arrB.length = arrA.length)
    (hOcc : ∀ x, x < arrA.length → x ≠ w → arrA.getD x none ≠ none →
      arrB.getD x none ≠ none) :
    ∀ s pos j, pos < arrA.length → w < arrA.length →
    inRun arrA s pos j → s ≤ cdistN arrA.length w pos →
    inRun arrB s pos j := by
  intro s
  induction s with
  | zero => intro pos j _ _ h _; exact absurd h (by simp [inRun])
  | succ m ih =>
    intro pos j hpos hw h hs
    obtain ⟨occ, rest⟩ := h
    have hne : pos ≠ w := by
      intro he
      unfold cdistN at hs
      rw [he] at hs
      simp at hs
    refine ⟨hOcc pos hpos hne occ, ?_⟩
    rcases rest with he | hrun
    · exact Or.inl he
    · refine Or.inr ?_
      rw [hlen]
      have hstep := cdist_step arrA.length w pos hpos hw hne
      have hpos2 : (pos + 1) % arrA.length < arrA.length :=
        Nat.mod_lt _ (by omega)
      exact ih _ j hpos2 hw hrun (by omega)

/-- The polynomial hash lands inside a non empty table. -/
theorem polyHash_lt (size : Nat) (k : List Nat) (hs : 0 < size) :
    polyHash size k < size := by
  unfold polyHash
  have aux : ∀ (l : List Nat) (acc : Nat × Nat), acc.1 < size →
      (l.foldl (fun (p : Nat × Nat) c =>
        ((c + p.2 * p.1) % size, p.2 * 31 % (size - 1))) acc).1 < size := by
    intro l
    induction l with
    | nil => intro acc h; exact h
    | cons c rest ih =>
      intro acc h
      simp only [List.foldl_cons]
      exact ih _ (Nat.mod_lt _ hs)
  exact aux k (0, 31415) hs

/-- One step past the target the cyclic distance is maximal. -/
theorem cdist_after (n w : Nat) (hn : 0 < n) (hw : w < n) :
    cdistN n w ((w + 1) % n) = n - 1 := by
  rcases Nat.lt_or_ge (w + 1) n with hlt | hge
  · rw [Nat.mod_eq_of_lt hlt]
    unfold cdistN
    split <;> omega
  · have he : w + 1 = n := by omega
    rw [he, Nat.mod_self]
    unfold cdistN
    split <;> omega

/-- A probe scan that avoids wrapping back past `w` traces an occupied
run in any array that keeps the scanned slots occupied. -/
theorem tail_run {α : Type} (arr arr2 : List (Option (List Nat × α)))
    (w : Nat) (k : List Nat)
    (hlen2 : arr2.length = arr.length) (hw : w < arr.length)
    (hOcc : ∀ x, x < arr.length → x ≠ w → arr.getD x none ≠ none →
      arr2.getD x none ≠ none) :
    ∀ s pos j, pos < arr.length →
    scanKey arr k s pos = some (j, true) →
    s ≤ cdistN arr.length w pos →
    inRun arr2 s pos j := by
  intro s
  induction s with
  | zero => intro pos j _ h _; cases h
  | succ m ih =>
    intro pos j hpos h hs
    have hne : pos ≠ w := by
      intro he
      rw [he] at hs
      unfold cdistN at hs
      simp at hs
    cases hg : arr.getD pos none with
    | none =>
      rw [scanKey_succ_none hg] at h
      cases h
    | some e =>
      obtain ⟨kk, y⟩ := e
      have hocc2 : arr2.getD pos none ≠ none :=
        hOcc pos hpos hne (by intro hc; rw [hg] at hc; cases hc)
      by_cases hk : kk = k
      · rw [scanKey_succ_match hg hk] at h
        have hj : pos = j := congrArg Prod.fst (Option.some.inj h)
        exact ⟨hocc2, Or.inl hj⟩
      · rw [scanKey_succ_step hg hk] at h
        refine ⟨hocc2, Or.inr ?_⟩
        rw [hlen2]
        have hstep := cdist_step arr.length w pos hpos hw hne
        exact ih ((pos + 1) % arr.length) j (Nat.mod_lt _ (by omega)) h
          (by omega)

/-- Transfer of a successful probe scan to an array that may differ at
`w` and may hold the key `k0` in previously empty slots: either the scan
still succeeds, or the target sits in the occupied run past `w`. -/
theorem scan_transfer {α : Type} (arr arr2 : List (Option (List Nat × α)))
    (w : Nat) (k k0 : List Nat)
    (hlen2 : arr2.length = arr.length)
    (hn : 0 < arr.length) (hw : w < arr.length)
    (hA : ∀ x, x < arr.length → x ≠ w →
      arr2.getD x none = arr.getD x none ∨
      (arr.getD x none = none ∧ ∃ y, arr2.getD x none = some (k0, y)))
    (hk0 : k0 ≠ k) :
    ∀ s pos j, pos < arr.length → s ≤ arr.length →
    scanKey arr k s pos = some (j, true) → j ≠ w →
    scanKey arr2 k s pos = some (j, true) ∨
      inRun arr2 arr.length ((w + 1) % arr.length) j := by
  have hOcc : ∀ x, x < arr.length → x ≠ w → arr.getD x none ≠ none →
      arr2.getD x none ≠ none := by
    intro x hx hxw hocc
    rcases hA x hx hxw with hsame | ⟨hnone, _⟩
    · rw [hsame]; exact hocc
    · exact absurd hnone hocc
  intro s
  induction s with
  | zero => intro pos j _ _ h _; cases h
  | succ m ih =>
    intro pos j hpos hs h hjw
    cases hg : arr.getD pos none with
    | none =>
      rw [scanKey_succ_none hg] at h
      cases h
    | some e =>
      obtain ⟨kk, y⟩ := e
      by_cases hk : kk = k
      · rw [scanKey_succ_match hg hk] at h
        have hj : pos = j := congrArg Prod.fst (Option.some.inj h)
        subst hj
        rcases hA pos hpos hjw with hsame | ⟨hnone, _⟩
        · left
          have hg2 : arr2.getD pos none = some (kk, y) := by rw [hsame, hg]
          exact scanKey_succ_match hg2 hk
        · rw [hg] at hnone; cases hnone
      · rw [scanKey_succ_step hg hk] at h
        by_cases hpw : pos = w
        · subst hpw
          right
          have hca := cdist_after arr.length pos hn hw
          have hrun := tail_run arr arr2 pos k hlen2 hw hOcc m
            ((pos + 1) % arr.length) j (Nat.mod_lt _ hn) h (by omega)
          exact inRun_mono arr2 m arr.length _ j (by omega) hrun
        · rcases hA pos hpos hpw with hsame | ⟨hnone, _⟩
          · have hg2 : arr2.getD pos none = some (kk, y) := by rw [hsame, hg]
            rcases ih ((pos + 1) % arr.length) j (Nat.mod_lt _ hn)
                (by omega) h hjw with hl | hr
            · left
              rw [scanKey_succ_step hg2 hk, hlen2]
              exact hl
            · exact Or.inr hr
          · rw [hg] at hnone; cases hnone

/-- After clearing slot `w`, an empty slot scan ending at `w` itself
means the original occupant is reachable by its own probe scan. -/
theorem scan_of_findNone_self {α : Type}
    (arr : List (Option (List Nat × α))) (w : Nat) (k0 : List Nat) (p0 : α)
    (hw : w < arr.length)
    (hg0 : arr.getD w none = some (k0, p0))
    (huniq : KeyUniqueArr arr) :
    ∀ s pos, pos < arr.length →
    findNone (arr.set w none) s pos = some w →
    scanKey arr k0 s pos = some (w, true) := by
  intro s
  induction s with
  | zero => intro pos _ h; cases h
  | succ m ih =>
    intro pos hpos h
    cases hg : (arr.set w none).getD pos none with
    | none =>
      rw [findNone_succ_none hg] at h
      have hpw : pos = w := Option.some.inj h
      subst hpw
      exact scanKey_succ_match hg0 rfl
    | some e =>
      obtain ⟨ke, ye⟩ := e
      rw [findNone_succ_step hg] at h
      have hpw : pos ≠ w := by
        intro he
        subst he
        rw [listGetDSetSelf arr pos none none hpos] at hg
        cases hg
      have harr : arr.getD pos none = some (ke, ye) := by
        rw [← listGetDSetNe arr w pos none none (fun hc => hpw hc.symm)]
        exact hg
      have hke : ¬ (ke = k0) := by
        intro he
        subst he
        exact hpw (huniq pos w ke ye p0 hpos hw harr hg0)
      rw [scanKey_succ_step harr hke]
      rw [List.length_set] at h
      exact ih ((pos + 1) % arr.length) (Nat.mod_lt _ (by omega)) h

/-- Writing back the value already stored leaves the list unchanged. -/
theorem listSetSelfD {α : Type} (l : List α) (i : Nat) (x d : α)
    (hi : i < l.length) (h : l.getD i d = x) : l.set i x = l := by
  have hx : l[i] = x := by
    rw [← h]
    simp [List.getD, List.getElem?_eq_getElem hi]
  rw [← hx]
  exact listSetSelf l i hi

/-- Inserting an entry into an empty slot prepends it to the occupied
entries up to permutation. -/
theorem entriesOf_insert_perm {α : Type} (arr : List (Option α)) (p : Nat)
    (e : α) (hp : p < arr.length) (hnone : arr.getD p none = none) :
    List.Perm (entriesOf (arr.set p (some e))) (e :: entriesOf arr) := by
  have h1 := entriesOf_set_split arr p (some e) hp
  have h2 := entriesOf_self_split arr p hp
  rw [hnone] at h2
  simp only [Option.toList] at h1 h2
  rw [h1, h2]
  simp only [List.append_nil]
  rw [List.append_assoc, List.singleton_append]
  exact List.perm_middle

/-- Clearing an occupied slot removes exactly its entry up to
permutation. -/
theorem entriesOf_remove_perm {α : Type} (arr : List (Option α)) (p : Nat)
    (e : α) (hp : p < arr.length) (hsome : arr.getD p none = some e) :
    List.Perm (e :: entriesOf (arr.set p none)) (entriesOf arr) := by
  have h1 := entriesOf_set_split arr p none hp
  have h2 := entriesOf_self_split arr p hp
  rw [hsome] at h2
  simp only [Option.toList] at h1 h2
  rw [h1, h2]
  simp only [List.append_nil]
  rw [List.append_assoc, List.singleton_append]
  exact List.perm_middle.symm

/-- Positional key uniqueness follows from distinctness of the stored
keys. -/
theorem unique_of_entries_nodup {α : Type} :
    ∀ (arr : List (Option (List Nat × α))),
    ((entriesOf arr).map Prod.fst).Nodup → KeyUniqueArr arr := by
  intro arr
  induction arr with
  | nil =>
    intro _ j1 j2 k p1 p2 hj1 _ _ _
    simp at hj1
  | cons o rest ih =>
    intro hnd j1 j2 k p1 p2 hj1 hj2 hg1 hg2
    cases o with
    | none =>
      have hnd2 : ((entriesOf rest).map Prod.fst).Nodup := by
        simpa [entriesOf, List.filterMap_cons] using hnd
      cases j1 with
      | zero => rw [List.getD_cons_zero] at hg1; cases hg1
      | succ m1 =>
        cases j2 with
        | zero => rw [List.getD_cons_zero] at hg2; cases hg2
        | succ m2 =>
          rw [List.getD_cons_succ] at hg1 hg2
          have hm1 : m1 < rest.length := by
            simp only [List.length_cons] at hj1; omega
          have hm2 : m2 < rest.length := by
            simp only [List.length_cons] at hj2; omega
          have := ih hnd2 m1 m2 k p1 p2 hm1 hm2 hg1 hg2
          omega
    | some e =>
      obtain ⟨ke, ye⟩ := e
      have hsplit : entriesOf ((some (ke, ye)) :: rest) =
          (ke, ye) :: entriesOf rest := by
        simp [entriesOf, List.filterMap_cons]
      rw [hsplit] at hnd
      simp only [List.map_cons, List.nodup_cons] at hnd
      obtain ⟨hknotin, hnd2⟩ := hnd
      cases j1 with
      | zero =>
        rw [List.getD_cons_zero] at hg1
        have hk : ke = k := congrArg Prod.fst (Option.some.inj hg1)
        cases j2 with
        | zero => rfl
        | succ m2 =>
          rw [List.getD_cons_succ] at hg2
          exfalso
          apply hknotin
          rw [hk]
          have hm2 : m2 < rest.length := by
            simp only [List.length_cons] at hj2; omega
          exact List.mem_map_of_mem Prod.fst
            ((entriesOf_mem rest (k, p2)).mpr ⟨m2, hm2, hg2⟩)
      | succ m1 =>
        cases j2 with
        | zero =>
          rw [List.getD_cons_zero] at hg2
          have hk : ke = k := congrArg Prod.fst (Option.some.inj hg2)
          rw [List.getD_cons_succ] at hg1
          exfalso
          apply hknotin
          rw [hk]
          have hm1 : m1 < rest.length := by
            simp only [List.length_cons] at hj1; omega
          exact List.mem_map_of_mem Prod.fst
            ((entriesOf_mem rest (k, p1)).mpr ⟨m1, hm1, hg1⟩)
        | succ m2 =>
          rw [List.getD_cons_succ] at hg1 hg2
          have hm1 : m1 < rest.length := by
            simp only [List.length_cons] at hj1; omega
          have hm2 : m2 < rest.length := by
            simp only [List.length_cons] at hj2; omega
          have := ih hnd2 m1 m2 k p1 p2 hm1 hm2 hg1 hg2
          omega

/-- Distinctness of the stored keys follows from positional key
uniqueness. -/
theorem entries_nodup_of_unique {α : Type} :
    ∀ (arr : List (Option (List Nat × α))),
    KeyUniqueArr arr → ((entriesOf arr).map Prod.fst).Nodup := by
  intro arr
  induction arr with
  | nil => intro _; simp [entriesOf]
  | cons o rest ih =>
    intro hu
    have hu2 : KeyUniqueArr rest := by
      intro j1 j2 k p1 p2 hj1 hj2 hg1 hg2
      have := hu (j1 + 1) (j2 + 1) k p1 p2
        (by simp only [List.length_cons]; omega)
        (by simp only [List.length_cons]; omega)
        (by rw [List.getD_cons_succ]; exact hg1)
        (by rw [List.getD_cons_succ]; exact hg2)
      omega
    cases o with
    | none => simpa [entriesOf, List.filterMap_cons] using ih hu2
    | some e =>
      obtain ⟨ke, ye⟩ := e
      have hsplit : entriesOf ((some (ke, ye)) :: rest) =
          (ke, ye) :: entriesOf rest := by
        simp [entriesOf, List.filterMap_cons]
      rw [hsplit]
      simp only [List.map_cons, List.nodup_cons]
      refine ⟨?_, ih hu2⟩
      intro hmem
      obtain ⟨a, hmem2, hfst⟩ := List.mem_map.mp hmem
      obtain ⟨k2, p2⟩ := a
      obtain ⟨j, hj, hgj⟩ := (entriesOf_mem rest (k2, p2)).mp hmem2
      have h0 : ((some (ke, ye)) :: rest).getD 0 none = some (ke, ye) := by
        rw [List.getD_cons_zero]
      have hsj : ((some (ke, ye)) :: rest).getD (j + 1) none =
          some (k2, p2) := by
        rw [List.getD_cons_succ]; exact hgj
      have hke : k2 = ke := hfst
      rw [hke] at hsj
      have := hu 0 (j + 1) ke ye p2
        (by simp only [List.length_cons]; omega)
        (by simp only [List.length_cons]; omega) h0 hsj
      omega

/-- A key outside the stored key list occupies no slot. -/
theorem absent_of_not_mem_keys {α : Type}
    (arr : List (Option (List Nat × α))) (k : List Nat)
    (h : ¬ k ∈ (entriesOf arr).map Prod.fst) :
    ∀ j, j < arr.length → ∀ k2 x, arr.getD j none = some (k2, x) →
    k2 ≠ k := by
  intro j hj k2 x hg he
  subst he
  exact h (List.mem_map_of_mem Prod.fst
    ((entriesOf_mem arr (k2, x)).mpr ⟨j, hj, hg⟩))

/-- The cluster repair loop invariant: every stored key is reachable by
its probe scan, except possibly keys in the contiguous occupied run that
starts at the walk position `w`. -/
def RepairInv {α : Type} (arr : List (Option (List Nat × α))) (w : Nat) :
    Prop :=
  ∀ j, j < arr.length → ∀ k p, arr.getD j none = some (k, p) →
    scanKey arr k arr.length (polyHash arr.length k) = some (j, true) ∨
    inRun arr arr.length w j

/-- One step unfolding of the repair loop at an empty slot. -/
theorem repairLoop_at_none {α : Type} {fuel w : Nat}
    {arr : List (Option (List Nat × α))}
    (hg : arr.getD w none = none) :
    repairLoop fuel arr w = some (.ok arr) := by
  rw [repairLoop]
  simp only [hg]

/-- The repair loop at an occupied slot with no fuel left. -/
theorem repairLoop_zero_some {α : Type} {w : Nat}
    {arr : List (Option (List Nat × α))} {k : List Nat} {v : α}
    (hg : arr.getD w none = some (k, v)) :
    repairLoop 0 arr w = none := by
  rw [repairLoop]
  simp only [hg]

/-- One step unfolding of the repair loop at an occupied slot. -/
theorem repairLoop_at_some {α : Type} {f w : Nat}
    {arr : List (Option (List Nat × α))} {k : List Nat} {v : α}
    (hg : arr.getD w none = some (k, v)) :
    repairLoop (f + 1) arr w =
      match findNone (arr.set w none) (arr.set w none).length
          (polyHash (arr.set w none).length k) with
      | none => some (.error .full)
      | some np =>
        repairLoop f ((arr.set w none).set np (some (k, v)))
          ((w + 1) % arr.length) := by
  conv_lhs => rw [repairLoop]
  simp only [hg]

/-- One iteration of the cluster repair walk preserves the loop
invariant and permutes the stored entries. -/
theorem repair_step {α : Type} (arr : List (Option (List Nat × α)))
    (w np : Nat) (k0 : List Nat) (p0 : α)
    (hn : 0 < arr.length) (hw : w < arr.length)
    (hg0 : arr.getD w none = some (k0, p0))
    (hinv : RepairInv arr w)
    (hnd : ((entriesOf arr).map Prod.fst).Nodup)
    (hfind : findNone (arr.set w none) (arr.set w none).length
      (polyHash (arr.set w none).length k0) = some np) :
    ((arr.set w none).set np (some (k0, p0))).length = arr.length ∧
    RepairInv ((arr.set w none).set np (some (k0, p0)))
      ((w + 1) % arr.length) ∧
    List.Perm (entriesOf ((arr.set w none).set np (some (k0, p0))))
      (entriesOf arr) := by
  have huniq : KeyUniqueArr arr := unique_of_entries_nodup arr hnd
  have hlen1 : (arr.set w none).length = arr.length := List.length_set arr w none
  have hstart : polyHash (arr.set w none).length k0 < (arr.set w none).length := by
    rw [hlen1]
    exact polyHash_lt arr.length k0 hn
  obtain ⟨hnpnone, hnplt1⟩ :=
    findNone_spec (arr.set w none) (arr.set w none).length
      (polyHash (arr.set w none).length k0) np hstart hfind
  have hnplt : np < arr.length := by rw [← hlen1]; exact hnplt1
  by_cases hnpw : np = w
  · subst hnpw
    have harr2 : (arr.set np none).set np (some (k0, p0)) = arr := by
      rw [List.set_set]
      exact listSetSelfD arr np (some (k0, p0)) none hnplt hg0
    rw [harr2]
    refine ⟨rfl, ?_, List.Perm.refl _⟩
    intro j hj k p hgj
    rcases hinv j hj k p hgj with hr | hrun
    · exact Or.inl hr
    · by_cases hjw : j = np
      · subst hjw
        left
        have hk : k0 = k := by
          rw [hg0] at hgj
          exact congrArg Prod.fst (Option.some.inj hgj)
        subst hk
        have hstart2 : polyHash (arr.set j none).length k0 < arr.length := by
          rw [hlen1]
          exact polyHash_lt arr.length k0 hn
        have hres := scan_of_findNone_self arr j k0 p0 hj hg0 huniq
          (arr.set j none).length (polyHash (arr.set j none).length k0)
          hstart2 hfind
        rw [hlen1] at hres
        exact hres
      · right
        obtain ⟨m, hm⟩ : ∃ m, arr.length = m + 1 := ⟨arr.length - 1, by omega⟩
        rw [hm] at hrun
        obtain ⟨_, hrest⟩ := hrun
        rcases hrest with he | hrun2
        · exact absurd he.symm hjw
        · exact inRun_mono arr m arr.length _ j (by omega) hrun2
  · have harrnp : arr.getD np none = none := by
      rw [← listGetDSetNe arr w np none none (fun hc => hnpw hc.symm)]
      exact hnpnone
    have hnplt2 : np < (arr.set w none).length := by
      rw [hlen1]; exact hnplt
    have hg2np : ((arr.set w none).set np (some (k0, p0))).getD np none =
        some (k0, p0) :=
      listGetDSetSelf (arr.set w none) np (some (k0, p0)) none hnplt2
    have hg2w : ((arr.set w none).set np (some (k0, p0))).getD w none =
        none := by
      rw [listGetDSetNe (arr.set w none) np w (some (k0, p0)) none
        (fun hc => hnpw hc)]
      exact listGetDSetSelf arr w none none hw
    have hg2other : ∀ x, x ≠ w → x ≠ np →
        ((arr.set w none).set np (some (k0, p0))).getD x none =
          arr.getD x none := by
      intro x hxw hxnp
      rw [listGetDSetNe (arr.set w none) np x (some (k0, p0)) none
        (fun hc => hxnp hc.symm)]
      exact listGetDSetNe arr w x none none (fun hc => hxw hc.symm)
    have hlen2 : ((arr.set w none).set np (some (k0, p0))).length =
        arr.length := by
      rw [List.length_set, hlen1]
    have hperm : List.Perm
        (entriesOf ((arr.set w none).set np (some (k0, p0))))
        (entriesOf arr) :=
      (entriesOf_insert_perm (arr.set w none) np (k0, p0) hnplt2
        hnpnone).trans (entriesOf_remove_perm arr w (k0, p0) hw hg0)
    refine ⟨hlen2, ?_, hperm⟩
    intro j hj2 k p hgj2
    rw [hlen2] at hj2 ⊢
    have hj : j < arr.length := hj2
    by_cases hjnp : j = np
    · subst hjnp
      left
      have hk : k0 = k := by
        rw [hg2np] at hgj2
        exact congrArg Prod.fst (Option.some.inj hgj2)
      subst hk
      have habs : ∀ x, x < (arr.set w none).length → ∀ k2 y,
          (arr.set w none).getD x none = some (k2, y) → k2 ≠ k0 := by
        intro x hx k2 y hgx he
        have hxw : x ≠ w := by
          intro hc
          rw [hc, listGetDSetSelf arr w none none hw] at hgx
          cases hgx
        have hgx2 : arr.getD x none = some (k2, y) := by
          rw [← listGetDSetNe arr w x none none (fun hc => hxw hc.symm)]
          exact hgx
        apply hxw
        exact huniq x w k2 y p0 (by rw [← hlen1]; exact hx) hw hgx2
          (by rw [he]; exact hg0)
      have hscan1 : scanKey (arr.set w none) k0 (arr.set w none).length
          (polyHash (arr.set w none).length k0) = some (j, false) := by
        rw [scanKey_absent (arr.set w none) k0 habs
          ((arr.set w none).length)
          (polyHash (arr.set w none).length k0) hstart, hfind]
        rfl
      have hscan2 := scanKey_set_self (arr.set w none) k0 p0
        ((arr.set w none).length) (polyHash (arr.set w none).length k0) j
        (by rw [hlen1]; exact hj) hscan1
      rw [hlen1] at hscan2
      exact hscan2
    · have hjw : j ≠ w := by
        intro hc
        rw [hc, hg2w] at hgj2
        cases hgj2
      have hgj : arr.getD j none = some (k, p) := by
        rw [← hg2other j hjw hjnp]
        exact hgj2
      rcases hinv j hj k p hgj with hr | hrun
      · have hkk0 : k0 ≠ k := by
          intro hc
          subst hc
          exact hjw (huniq j w k0 p p0 hj hw hgj hg0)
        have hA : ∀ x, x < arr.length → x ≠ w →
            ((arr.set w none).set np (some (k0, p0))).getD x none =
              arr.getD x none ∨
            (arr.getD x none = none ∧ ∃ y,
              ((arr.set w none).set np (some (k0, p0))).getD x none =
                some (k0, y)) := by
          intro x _ hxw
          by_cases hxnp : x = np
          · refine Or.inr ⟨?_, p0, ?_⟩
            · rw [hxnp]; exact harrnp
            · rw [hxnp]; exact hg2np
          · exact Or.inl (hg2other x hxw hxnp)
        have htrans := scan_transfer arr
          ((arr.set w none).set np (some (k0, p0))) w k k0 hlen2 hn hw hA
          hkk0 arr.length (polyHash arr.length k) j
          (polyHash_lt arr.length k hn) (Nat.le_refl _) hr hjw
        rcases htrans with hl | hrr
        · exact Or.inl hl
        · exact Or.inr hrr
      · obtain ⟨m, hm⟩ : ∃ m, arr.length = m + 1 := ⟨arr.length - 1, by omega⟩
        rw [hm] at hrun
        obtain ⟨_, hrest⟩ := hrun
        rcases hrest with he | hrun2
        · exact absurd he.symm hjw
        · right
          have hOcc : ∀ x, x < arr.length → x ≠ w →
              arr.getD x none ≠ none →
              ((arr.set w none).set np (some (k0, p0))).getD x none ≠
                none := by
            intro x _ hxw hocc
            by_cases hxnp : x = np
            · rw [hxnp, hg2np]; intro hc; cases hc
            · rw [hg2other x hxw hxnp]; exact hocc
          have hca := cdist_after arr.length w hn hw
          have h2 := inRun_transfer arr
            ((arr.set w none).set np (some (k0, p0))) w hlen2 hOcc m
            ((w + 1) % arr.length) j (Nat.mod_lt _ hn) hw hrun2 (by omega)
          exact inRun_mono _ m arr.length _ j (by omega) h2

/-- The cluster repair loop restores full reachability and permutes the
stored entries. -/
theorem repairLoop_spec {α : Type} :
    ∀ (fuel : Nat) (arr : List (Option (List Nat × α))) (w : Nat)
    (out : List (Option (List Nat × α))),
    0 < arr.length → w < arr.length →
    RepairInv arr w →
    ((entriesOf arr).map Prod.fst).Nodup →
    repairLoop fuel arr w = some (.ok out) →
    out.length = arr.length ∧ ReachArr out ∧
    List.Perm (entriesOf out) (entriesOf arr) := by
  have base : ∀ (arr : List (Option (List Nat × α))) (w : Nat),
      0 < arr.length → RepairInv arr w → arr.getD w none = none →
      ReachArr arr := by
    intro arr w hn hinv hg j hj k p hgj
    rcases hinv j hj k p hgj with hr | hrun
    · exact hr
    · exfalso
      obtain ⟨m, hm⟩ : ∃ m, arr.length = m + 1 := ⟨arr.length - 1, by omega⟩
      rw [hm] at hrun
      exact hrun.1 hg
  intro fuel
  induction fuel with
  | zero =>
    intro arr w out hn hw hinv hnd h
    cases hg : arr.getD w none with
    | none =>
      rw [repairLoop_at_none hg] at h
      have hout : arr = out := Except.ok.inj (Option.some.inj h)
      subst hout
      exact ⟨rfl, base arr w hn hinv hg, List.Perm.refl _⟩
    | some e =>
      obtain ⟨k, v⟩ := e
      rw [repairLoop_zero_some hg] at h
      cases h
  | succ f ihf =>
    intro arr w out hn hw hinv hnd h
    cases hg : arr.getD w none with
    | none =>
      rw [repairLoop_at_none hg] at h
      have hout : arr = out := Except.ok.inj (Option.some.inj h)
      subst hout
      exact ⟨rfl, base arr w hn hinv hg, List.Perm.refl _⟩
    | some e =>
      obtain ⟨k, v⟩ := e
      rw [repairLoop_at_some hg] at h
      cases hfind : findNone (arr.set w none) (arr.set w none).length
          (polyHash (arr.set w none).length k) with
      | none =>
        rw [hfind] at h
        simp at h
      | some np =>
        rw [hfind] at h
        obtain ⟨hlen2, hinv2, hperm2⟩ :=
          repair_step arr w np k v hn hw hg hinv hnd hfind
        have hn2 : 0 < ((arr.set w none).set np (some (k, v))).length := by
          rw [hlen2]; exact hn
        have hw2 : (w + 1) % arr.length <
            ((arr.set w none).set np (some (k, v))).length := by
          rw [hlen2]; exact Nat.mod_lt _ hn
        have hnd2 : ((entriesOf
            ((arr.set w none).set np (some (k, v)))).map Prod.fst).Nodup :=
          ((hperm2.map Prod.fst).nodup_iff).mpr hnd
        obtain ⟨hlo, hro, hpo⟩ := ihf _ ((w + 1) % arr.length) out hn2 hw2
          hinv2 hnd2 h
        exact ⟨by rw [hlo, hlen2], hro, hpo.trans hperm2⟩

/-- Clearing an occupied slot establishes the repair loop invariant at
the following position. -/
theorem repair_init {α : Type} (arr : List (Option (List Nat × α)))
    (p : Nat) (k0 : List Nat) (p0 : α)
    (hn : 0 < arr.length) (hp : p < arr.length)
    (hg0 : arr.getD p none = some (k0, p0))
    (hreach : ReachArr arr) :
    RepairInv (arr.set p none) ((p + 1) % arr.length) := by
  have huniq : KeyUniqueArr arr := keyUnique_of_reach arr hreach
  have hlen1 : (arr.set p none).length = arr.length := List.length_set arr p none
  intro j hj1 k q hgj1
  rw [hlen1] at hj1 ⊢
  have hjp : j ≠ p := by
    intro hc
    rw [hc, listGetDSetSelf arr p none none hp] at hgj1
    cases hgj1
  have hgj : arr.getD j none = some (k, q) := by
    rw [← listGetDSetNe arr p j none none (fun hc => hjp hc.symm)]
    exact hgj1
  have hkk0 : k0 ≠ k := by
    intro hc
    subst hc
    exact hjp (huniq j p k0 q p0 hj1 hp hgj hg0)
  have hA : ∀ x, x < arr.length → x ≠ p →
      (arr.set p none).getD x none = arr.getD x none ∨
      (arr.getD x none = none ∧ ∃ y,
        (arr.set p none).getD x none = some (k0, y)) := by
    intro x _ hxp
    exact Or.inl (listGetDSetNe arr p x none none (fun hc => hxp hc.symm))
  have htrans := scan_transfer arr (arr.set p none) p k k0 hlen1 hn hp hA
    hkk0 arr.length (polyHash arr.length k) j
    (polyHash_lt arr.length k hn) (Nat.le_refl _)
    (hreach j hj1 k q hgj) hjp
  rcases htrans with hl | hrr
  · exact Or.inl hl
  · exact Or.inr hrr

/-- Reinsertion of distinct keyed entries into a reachable array keeps
every key reachable, preserves capacity and appends the entries up to
permutation. -/
theorem rebuild_spec {α : Type} :
    ∀ (es : List (List Nat × α)) (arr out : List (Option (List Nat × α))),
    0 < arr.length →
    ReachArr arr →
    ((es.map Prod.fst) ++ (entriesOf arr).map Prod.fst).Nodup →
    rebuild es arr = .ok out →
    out.length = arr.length ∧ ReachArr out ∧
    List.Perm (entriesOf out) (es ++ entriesOf arr) := by
  intro es
  induction es with
  | nil =>
    intro arr out hn hr _ h
    have hout : arr = out := Except.ok.inj h
    subst hout
    exact ⟨rfl, hr, by simp⟩
  | cons e rest ih =>
    obtain ⟨k, v⟩ := e
    intro arr out hn hr hnd h
    cases hfind : findNone arr arr.length (polyHash arr.length k) with
    | none =>
      simp only [rebuild, hfind] at h
      cases h
    | some np =>
      simp only [rebuild, hfind] at h
      obtain ⟨hnpnone, hnplt⟩ := findNone_spec arr arr.length
        (polyHash arr.length k) np (polyHash_lt arr.length k hn) hfind
      have hndparts : ¬ k ∈ (rest.map Prod.fst ++
          (entriesOf arr).map Prod.fst) ∧
          (rest.map Prod.fst ++ (entriesOf arr).map Prod.fst).Nodup := by
        rw [List.map_cons, List.cons_append, List.nodup_cons] at hnd
        exact hnd
      have hkarr : ¬ k ∈ (entriesOf arr).map Prod.fst := by
        intro hc
        exact hndparts.1 (List.mem_append_right _ hc)
      have habs := absent_of_not_mem_keys arr k hkarr
      have hlen1 : (arr.set np (some (k, v))).length = arr.length :=
        List.length_set arr np (some (k, v))
      have hperm1 : List.Perm (entriesOf (arr.set np (some (k, v))))
          ((k, v) :: entriesOf arr) :=
        entriesOf_insert_perm arr np (k, v) hnplt hnpnone
      have hr1 : ReachArr (arr.set np (some (k, v))) := by
        intro j hj1 k2 p2 hgj1
        rw [hlen1] at hj1 ⊢
        by_cases hjnp : j = np
        · subst hjnp
          have hk2 : k = k2 := by
            rw [listGetDSetSelf arr j (some (k, v)) none hnplt] at hgj1
            exact congrArg Prod.fst (Option.some.inj hgj1)
          subst hk2
          have hscan1 : scanKey arr k arr.length (polyHash arr.length k) =
              some (j, false) := by
            rw [scanKey_absent arr k habs arr.length
              (polyHash arr.length k) (polyHash_lt arr.length k hn), hfind]
            rfl
          exact scanKey_set_self arr k v arr.length
            (polyHash arr.length k) j hnplt hscan1
        · have hgj : arr.getD j none = some (k2, p2) := by
            rw [← listGetDSetNe arr np j (some (k, v)) none
              (fun hc => hjnp hc.symm)]
            exact hgj1
          have hkne : k ≠ k2 := by
            intro hc
            subst hc
            exact habs j hj1 k p2 hgj rfl
          exact scanKey_set_other arr k2 k v np hnpnone hkne arr.length
            (polyHash arr.length k2) j (hr j hj1 k2 p2 hgj)
      have hnd1 : ((rest.map Prod.fst) ++
          (entriesOf (arr.set np (some (k, v)))).map Prod.fst).Nodup := by
        have hkeysperm : List.Perm
            ((rest.map Prod.fst) ++
              (entriesOf (arr.set np (some (k, v)))).map Prod.fst)
            (k :: (rest.map Prod.fst ++ (entriesOf arr).map Prod.fst)) := by
          have h1 : List.Perm
              ((entriesOf (arr.set np (some (k, v)))).map Prod.fst)
              (k :: (entriesOf arr).map Prod.fst) := hperm1.map Prod.fst
          exact ((List.Perm.append_left (rest.map Prod.fst) h1).trans
            List.perm_middle)
        rw [hkeysperm.nodup_iff]
        rw [List.map_cons, List.cons_append] at hnd
        exact hnd
      obtain ⟨hlo, hro, hpo⟩ := ih (arr.set np (some (k, v))) out
        (by rw [hlen1]; exact hn) hr1 hnd1 h
      refine ⟨by rw [hlo, hlen1], hro, ?_⟩
      have hstep : List.Perm (rest ++ entriesOf (arr.set np (some (k, v))))
          ((k, v) :: rest ++ entriesOf arr) :=
        (List.Perm.append_left rest hperm1).trans List.perm_middle
      exact hpo.trans hstep

/-- A key is among the stored keys exactly when some pair carries it. -/
theorem keys_mem_iff {α : Type} (l : List (List Nat × α)) (k : List Nat) :
    k ∈ l.map Prod.fst ↔ ∃ x, (k, x) ∈ l := by
  rw [List.mem_map]
  constructor
  · rintro ⟨⟨a, b⟩, ha, rfl⟩
    exact ⟨b, ha⟩
  · rintro ⟨x, hx⟩
    exact ⟨(k, x), hx, rfl⟩

/-- Reading any position of an all empty array gives an empty slot. -/
theorem replicateGetDNone {α : Type} (n j : Nat) :
    (List.replicate n (none : Option α)).getD j none = none := by
  rw [List.getD_eq_getElem?_getD, List.getElem?_replicate]
  split <;> rfl

/-- An all empty array stores nothing. -/
theorem entriesOf_replicate_none {α : Type} (n : Nat) :
    entriesOf (List.replicate n (none : Option α)) = [] := by
  induction n with
  | zero => rfl
  | succ m ih =>
    rw [List.replicate_succ]
    simp only [entriesOf, List.filterMap_cons, id]
    exact ih

/-- An all empty array trivially satisfies reachability. -/
theorem reach_replicate {α : Type} (n : Nat) :
    ReachArr (List.replicate n (none : Option (List Nat × α))) := by
  intro j _ k p hg
  rw [replicateGetDNone] at hg
  cases hg

/-- Replacing the payload of a slot while keeping its key does not
change any probe scan. -/
theorem scanKey_set_samekey {α : Type} (arr : List (Option (List Nat × α)))
    (q : Nat) (kq : List Nat) (x y : α)
    (hg : arr.getD q none = some (kq, x)) (hq : q < arr.length) :
    ∀ (key : List Nat) (s pos : Nat),
    scanKey (arr.set q (some (kq, y))) key s pos = scanKey arr key s pos := by
  intro key s
  induction s with
  | zero => intro pos; rfl
  | succ m ih =>
    intro pos
    by_cases hpq : pos = q
    · subst hpq
      have hg2 : (arr.set pos (some (kq, y))).getD pos none =
          some (kq, y) :=
        listGetDSetSelf arr pos (some (kq, y)) none hq
      by_cases hk : kq = key
      · rw [scanKey_succ_match hg2 hk, scanKey_succ_match hg hk]
      · rw [scanKey_succ_step hg2 hk, scanKey_succ_step hg hk,
          List.length_set]
        exact ih _
    · cases hgp : arr.getD pos none with
      | none =>
        have hgp2 : (arr.set q (some (kq, y))).getD pos none = none := by
          rw [listGetDSetNe arr q pos (some (kq, y)) none
            (fun hc => hpq hc.symm)]
          exact hgp
        rw [scanKey_succ_none hgp2, scanKey_succ_none hgp]
      | some e =>
        obtain ⟨ke, ye⟩ := e
        have hgp2 : (arr.set q (some (kq, y))).getD pos none =
            some (ke, ye) := by
          rw [listGetDSetNe arr q pos (some (kq, y)) none
            (fun hc => hpq hc.symm)]
          exact hgp
        by_cases hk : ke = key
        · rw [scanKey_succ_match hgp2 hk, scanKey_succ_match hgp hk]
        · rw [scanKey_succ_step hgp2 hk, scanKey_succ_step hgp hk,
            List.length_set]
          exact ih _

/-- A probe scan ending at an empty slot means the key is stored
nowhere, given reachability. -/
theorem absent_of_scan_false {α : Type}
    (arr : List (Option (List Nat × α))) (k : List Nat) (p : Nat)
    (hreach : ReachArr arr)
    (hscan : scanKey arr k arr.length (polyHash arr.length k) =
      some (p, false)) :
    ∀ x, ¬ (k, x) ∈ entriesOf arr := by
  intro x hmem
  obtain ⟨j, hj, hg⟩ := (entriesOf_mem arr (k, x)).mp hmem
  have hre := hreach j hj k x hg
  rw [hre] at hscan
  have := congrArg Prod.snd (Option.some.inj hscan)
  cases this

/-- The probe of a stored key finds its slot, in either mode. -/
theorem lptProbe_found (it : LPT) (hwf : lptWF it = true) (j : Nat)
    (k : List Nat) (p : Nat) (hj : j < it.array.length)
    (hg : it.array.getD j none = some (k, p)) (isIns : Bool) :
    lptProbe it k isIns = .ok j := by
  obtain ⟨_, _, hr⟩ := (lptWF_iff it).mp hwf
  unfold lptProbe
  rw [hr j hj k p hg]

/-- A failed lookup probe raises KeyError. -/
theorem lptProbe_absent (it : LPT) (hn : 0 < it.array.length)
    (k : List Nat) (habs : ¬ k ∈ lptKeys it) :
    lptProbe it k false = .error .key := by
  have habs2 := absent_of_not_mem_keys it.array k habs
  unfold lptProbe
  rw [scanKey_absent it.array k habs2 it.array.length
    (polyHash it.array.length k) (polyHash_lt _ _ hn)]
  cases hfind : findNone it.array it.array.length
      (polyHash it.array.length k) with
  | none => rfl
  | some q => rfl

/-- Membership reports true for a stored key. -/
theorem lptContains_true (it : LPT) (hwf : lptWF it = true) (k : List Nat)
    (v : Nat) (hmem : (k, v) ∈ entriesOf it.array) :
    lptContains it k = true := by
  obtain ⟨j, hj, hg⟩ := (entriesOf_mem it.array (k, v)).mp hmem
  have hprobe := lptProbe_found it hwf j k v hj hg false
  simp only [lptContains, hprobe]

/-- Membership reports false for an absent key. -/
theorem lptContains_false (it : LPT) (hn : 0 < it.array.length)
    (k : List Nat) (habs : ¬ k ∈ lptKeys it) :
    lptContains it k = false := by
  have hprobe := lptProbe_absent it hn k habs
  simp only [lptContains, hprobe]

/-- Lookup of a stored pair returns its value. -/
theorem lptGet_found (it : LPT) (hwf : lptWF it = true) (k : List Nat)
    (v : Nat) (hmem : (k, v) ∈ entriesOf it.array) :
    lptGet it k = .ok v := by
  obtain ⟨j, hj, hg⟩ := (entriesOf_mem it.array (k, v)).mp hmem
  have hprobe := lptProbe_found it hwf j k v hj hg false
  simp only [lptGet, hprobe, hg]

/-- Lookup of an absent key raises KeyError. -/
theorem lptGet_absent (it : LPT) (hn : 0 < it.array.length)
    (k : List Nat) (habs : ¬ k ∈ lptKeys it) :
    lptGet it k = .error .key := by
  have hprobe := lptProbe_absent it hn k habs
  simp only [lptGet, hprobe]

/-- Two well formed tables storing the same pairs for a key answer its
lookup identically. -/
theorem lptGet_frame (itA itB : LPT) (hwfA : lptWF itA = true)
    (hwfB : lptWF itB = true) (k2 : List Nat)
    (hmem : ∀ x, (k2, x) ∈ entriesOf itB.array ↔
      (k2, x) ∈ entriesOf itA.array) :
    lptGet itB k2 = lptGet itA k2 := by
  by_cases hk : k2 ∈ lptKeys itA
  · obtain ⟨v, hv⟩ := (keys_mem_iff (entriesOf itA.array) k2).mp hk
    have hvB : (k2, v) ∈ entriesOf itB.array := (hmem v).mpr hv
    rw [lptGet_found itA hwfA k2 v hv, lptGet_found itB hwfB k2 v hvB]
  · have hkB : ¬ k2 ∈ lptKeys itB := by
      intro hc
      obtain ⟨v, hv⟩ := (keys_mem_iff (entriesOf itB.array) k2).mp hc
      exact hk ((keys_mem_iff (entriesOf itA.array) k2).mpr
        ⟨v, (hmem v).mp hv⟩)
    rw [lptGet_absent itA ((lptWF_iff itA).mp hwfA).1 k2 hk,
      lptGet_absent itB ((lptWF_iff itB).mp hwfB).1 k2 hkB]

/-- A successful inner rehash preserves well formedness, the size class
list, the count and the stored pairs up to permutation. -/
theorem lptRehash_spec (it it2 : LPT) (hwf : lptWF it = true)
    (hpos : ∀ x ∈ it.sizes, 0 < x)
    (h : lptRehash it = .ok it2) :
    lptWF it2 = true ∧ it2.sizes = it.sizes ∧ it2.count = it.count ∧
    List.Perm (entriesOf it2.array) (entriesOf it.array) := by
  obtain ⟨hn, hc, hr⟩ := (lptWF_iff it).mp hwf
  simp only [lptRehash] at h
  by_cases hidx : it.size_index + 1 = it.sizes.length
  · rw [if_pos hidx] at h
    have hit2 := Except.ok.inj h
    subst hit2
    exact ⟨hwf, rfl, rfl, List.Perm.refl _⟩
  · rw [if_neg hidx] at h
    cases hget : it.sizes.get? (it.size_index + 1) with
    | none => rw [hget] at h; cases h
    | some ns =>
      simp only [hget] at h
      cases hreb : rebuild (entriesOf it.array)
          (List.replicate ns none) with
      | error e => simp only [hreb] at h; cases h
      | ok arr2 =>
        simp only [hreb] at h
        have hit2 := Except.ok.inj h
        subst hit2
        have hns : 0 < ns := hpos ns (List.get?_mem hget)
        have hnd : ((entriesOf it.array).map Prod.fst ++
            (entriesOf (List.replicate ns
              (none : Option (List Nat × Nat)))).map Prod.fst).Nodup := by
          rw [entriesOf_replicate_none]
          simp only [List.map_nil, List.append_nil]
          exact entries_nodup_of_unique it.array (keyUnique_of_reach _ hr)
        obtain ⟨hlo, hro, hpo⟩ := rebuild_spec (entriesOf it.array)
          (List.replicate ns none) arr2
          (by rw [List.length_replicate]; exact hns)
          (reach_replicate ns) hnd hreb
        rw [entriesOf_replicate_none, List.append_nil] at hpo
        refine ⟨?_, rfl, rfl, hpo⟩
        rw [lptWF_iff]
        refine ⟨?_, ?_, hro⟩
        · rw [hlo, List.length_replicate]; exact hns
        · rw [hc, hpo.length_eq]

/-- The final half full check of an insertion: either no rehash, or a
rehash preserving the table contents. -/
theorem lptSetAux (it it2a it2 : LPT) (hwf2a : lptWF it2a = true)
    (hsz : it2a.sizes = it.sizes)
    (hpos : ∀ x ∈ it.sizes, 0 < x)
    (h : (if 2 * it2a.count > it2a.array.length then lptRehash it2a
          else .ok it2a) = .ok it2) :
    lptWF it2 = true ∧ it2.sizes = it.sizes ∧ it2.count = it2a.count ∧
    List.Perm (entriesOf it2.array) (entriesOf it2a.array) := by
  by_cases hhalf : 2 * it2a.count > it2a.array.length
  · rw [if_pos hhalf] at h
    obtain ⟨hwf2, hsz2, hcnt2, hperm2⟩ := lptRehash_spec it2a it2 hwf2a
      (by rw [hsz]; exact hpos) h
    exact ⟨hwf2, hsz2.trans hsz, hcnt2, hperm2⟩
  · rw [if_neg hhalf] at h
    have hin := Except.ok.inj h
    subst hin
    exact ⟨hwf2a, hsz, rfl, List.Perm.refl _⟩

/-- A successful inner insertion preserves well formedness, stores the
pair, leaves other keys untouched, and counts a new slot only when the
key was absent. -/
theorem lptSet_spec (it it2 : LPT) (hwf : lptWF it = true)
    (hpos : ∀ x ∈ it.sizes, 0 < x) (k : List Nat) (v : Nat)
    (h : lptSet it k v = .ok it2) :
    lptWF it2 = true ∧ it2.sizes = it.sizes ∧
    (k, v) ∈ entriesOf it2.array ∧
    (∀ k2 x, k2 ≠ k →
      ((k2, x) ∈ entriesOf it2.array ↔ (k2, x) ∈ entriesOf it.array)) ∧
    (lptContains it k = true → it2.count = it.count) ∧
    (lptContains it k = false → it2.count = it.count + 1) := by
  obtain ⟨hn, hc, hr⟩ := (lptWF_iff it).mp hwf
  cases hscan : scanKey it.array k it.array.length
      (polyHash it.array.length k) with
  | none =>
    have hprobe : lptProbe it k true = .error .full := by
      unfold lptProbe; rw [hscan]; rfl
    simp only [lptSet, hprobe] at h
    cases h
  | some pb =>
    obtain ⟨p, b⟩ := pb
    have hplt : p < it.array.length :=
      scanKey_lt it.array k _ _ p b (polyHash_lt _ _ hn) hscan
    have hlenset : (it.array.set p (some (k, v))).length =
        it.array.length := List.length_set it.array p (some (k, v))
    cases b with
    | true =>
      obtain ⟨oldv, hgp⟩ := scanKey_true_occupied it.array k _ _ p hscan
      have hprobe : lptProbe it k true = .ok p := by
        unfold lptProbe; rw [hscan]
      simp only [lptSet, hprobe] at h
      have hnonone : ¬ (it.array.getD p none = none) := by
        rw [hgp]; intro hc2; cases hc2
      rw [if_neg hnonone] at h
      have hwf2a : lptWF { it with
          array := it.array.set p (some (k, v)),
          count := it.count } = true := by
        rw [lptWF_iff]
        refine ⟨?_, ?_, ?_⟩
        · show 0 < (it.array.set p (some (k, v))).length
          rw [hlenset]; exact hn
        · show it.count = (entriesOf (it.array.set p (some (k, v)))).length
          have hlenent : (entriesOf (it.array.set p (some (k, v)))).length =
              (entriesOf it.array).length := by
            rw [entriesOf_set_split it.array p (some (k, v)) hplt,
              entriesOf_self_split it.array p hplt, hgp]
            simp [Option.toList]
          rw [hlenent]; exact hc
        · intro j hj k2 p2 hgj2
          show scanKey (it.array.set p (some (k, v))) k2
            (it.array.set p (some (k, v))).length
            (polyHash (it.array.set p (some (k, v))).length k2) =
            some (j, true)
          rw [hlenset]
          rw [hlenset] at hj
          rw [scanKey_set_samekey it.array p k oldv v hgp hplt k2]
          by_cases hjp : j = p
          · subst hjp
            have hgs : (it.array.set j (some (k, v))).getD j none =
                some (k, v) :=
              listGetDSetSelf it.array j (some (k, v)) none hplt
            rw [hgs] at hgj2
            have hk2 : k = k2 := congrArg Prod.fst (Option.some.inj hgj2)
            subst hk2
            exact hr j hplt k oldv hgp
          · have hgj : it.array.getD j none = some (k2, p2) := by
              rw [← listGetDSetNe it.array p j (some (k, v)) none
                (fun hc2 => hjp hc2.symm)]
              exact hgj2
            exact hr j hj k2 p2 hgj
      obtain ⟨hwf2, hsz2, hcnt2, hperm2⟩ := lptSetAux it
        { it with
          array := it.array.set p (some (k, v)),
          count := it.count } it2 hwf2a rfl hpos h
      have hmemk : (k, v) ∈ entriesOf (it.array.set p (some (k, v))) :=
        (entriesOf_mem _ _).mpr ⟨p, by rw [hlenset]; exact hplt,
          listGetDSetSelf it.array p (some (k, v)) none hplt⟩
      have hmemiff : ∀ k2 x, k2 ≠ k →
          ((k2, x) ∈ entriesOf (it.array.set p (some (k, v))) ↔
            (k2, x) ∈ entriesOf it.array) := by
        intro k2 x hne
        constructor
        · intro hm
          obtain ⟨j, hj, hg2⟩ := (entriesOf_mem _ _).mp hm
          rw [hlenset] at hj
          by_cases hjp : j = p
          · subst hjp
            rw [listGetDSetSelf it.array j (some (k, v)) none hplt] at hg2
            exact absurd (congrArg Prod.fst (Option.some.inj hg2))
              (fun hc2 => hne hc2.symm)
          · exact (entriesOf_mem _ _).mpr ⟨j, hj, by
              rw [← listGetDSetNe it.array p j (some (k, v)) none
                (fun hc2 => hjp hc2.symm)]
              exact hg2⟩
        · intro hm
          obtain ⟨j, hj, hg2⟩ := (entriesOf_mem _ _).mp hm
          by_cases hjp : j = p
          · subst hjp
            rw [hgp] at hg2
            exact absurd (congrArg Prod.fst (Option.some.inj hg2))
              (fun hc2 => hne hc2.symm)
          · exact (entriesOf_mem _ _).mpr ⟨j, by rw [hlenset]; exact hj, by
              rw [listGetDSetNe it.array p j (some (k, v)) none
                (fun hc2 => hjp hc2.symm)]
              exact hg2⟩
      have hcont : lptContains it k = true :=
        lptContains_true it hwf k oldv
          ((entriesOf_mem _ _).mpr ⟨p, hplt, hgp⟩)
      refine ⟨hwf2, hsz2, hperm2.mem_iff.mpr hmemk,
        fun k2 x hne => (hperm2.mem_iff).trans (hmemiff k2 x hne),
        fun _ => hcnt2, fun hcf => ?_⟩
      rw [hcont] at hcf
      cases hcf
    | false =>
      have hgp : it.array.getD p none = none :=
        scanKey_false_none it.array k _ _ p hscan
      have habsent : ∀ x, ¬ (k, x) ∈ entriesOf it.array :=
        absent_of_scan_false it.array k p hr hscan
      have hprobe : lptProbe it k true = .ok p := by
        unfold lptProbe; rw [hscan]; rfl
      simp only [lptSet, hprobe] at h
      rw [if_pos hgp] at h
      have hperm1 : List.Perm (entriesOf (it.array.set p (some (k, v))))
          ((k, v) :: entriesOf it.array) :=
        entriesOf_insert_perm it.array p (k, v) hplt hgp
      have hwf2a : lptWF { it with
          array := it.array.set p (some (k, v)),
          count := it.count + 1 } = true := by
        rw [lptWF_iff]
        refine ⟨?_, ?_, ?_⟩
        · show 0 < (it.array.set p (some (k, v))).length
          rw [hlenset]; exact hn
        · show it.count + 1 =
            (entriesOf (it.array.set p (some (k, v)))).length
          rw [hperm1.length_eq, List.length_cons, hc]
        · intro j hj k2 p2 hgj2
          show scanKey (it.array.set p (some (k, v))) k2
            (it.array.set p (some (k, v))).length
            (polyHash (it.array.set p (some (k, v))).length k2) =
            some (j, true)
          rw [hlenset]
          rw [hlenset] at hj
          by_cases hjp : j = p
          · subst hjp
            have hgs : (it.array.set j (some (k, v))).getD j none =
                some (k, v) :=
              listGetDSetSelf it.array j (some (k, v)) none hplt
            rw [hgs] at hgj2
            have hk2 : k = k2 := congrArg Prod.fst (Option.some.inj hgj2)
            subst hk2
            exact scanKey_set_self it.array k v it.array.length
              (polyHash it.array.length k) j hplt hscan
          · have hgj : it.array.getD j none = some (k2, p2) := by
              rw [← listGetDSetNe it.array p j (some (k, v)) none
                (fun hc2 => hjp hc2.symm)]
              exact hgj2
            have hkne : k ≠ k2 := by
              intro hc2
              subst hc2
              exact habsent p2 ((entriesOf_mem _ _).mpr ⟨j, hj, hgj⟩)
            exact scanKey_set_other it.array k2 k v p hgp hkne
              it.array.length (polyHash it.array.length k2) j
              (hr j hj k2 p2 hgj)
      obtain ⟨hwf2, hsz2, hcnt2, hperm2⟩ := lptSetAux it
        { it with
          array := it.array.set p (some (k, v)),
          count := it.count + 1 } it2 hwf2a rfl hpos h
      have hmemk : (k, v) ∈ entriesOf (it.array.set p (some (k, v))) :=
        (entriesOf_mem _ _).mpr ⟨p, by rw [hlenset]; exact hplt,
          listGetDSetSelf it.array p (some (k, v)) none hplt⟩
      have hmemiff : ∀ k2 x, k2 ≠ k →
          ((k2, x) ∈ entriesOf (it.array.set p (some (k, v))) ↔
            (k2, x) ∈ entriesOf it.array) := by
        intro k2 x hne
        rw [hperm1.mem_iff, List.mem_cons]
        constructor
        · rintro (heq | hm)
          · exact absurd (congrArg Prod.fst heq) hne
          · exact hm
        · intro hm
          exact Or.inr hm
      have hcont : lptContains it k = false := by
        refine lptContains_false it hn k ?_
        intro hck
        obtain ⟨x, hx⟩ := (keys_mem_iff (entriesOf it.array) k).mp hck
        exact habsent x hx
      refine ⟨hwf2, hsz2, hperm2.mem_iff.mpr hmemk,
        fun k2 x hne => (hperm2.mem_iff).trans (hmemiff k2 x hne),
        fun hct => ?_, fun _ => hcnt2⟩
      rw [hcont] at hct
      cases hct

/-- Deleting an absent key raises KeyError. -/
theorem lptDel_absent (it : LPT) (hn : 0 < it.array.length) (k : List Nat)
    (habs : ¬ k ∈ lptKeys it) (fuel : Nat) :
    lptDel fuel it k = some (.error .key) := by
  have hprobe := lptProbe_absent it hn k habs
  simp only [lptDel, hprobe]

/-- A successful inner deletion removes exactly the stored pair for the
key, repairs the cluster, and decrements the count. -/
theorem lptDel_spec (fuel : Nat) (it it2 : LPT) (hwf : lptWF it = true)
    (k : List Nat) (h : lptDel fuel it k = some (.ok it2)) :
    lptWF it2 = true ∧ it2.sizes = it.sizes ∧
    (∀ x, ¬ (k, x) ∈ entriesOf it2.array) ∧
    (∀ k2 x, k2 ≠ k →
      ((k2, x) ∈ entriesOf it2.array ↔ (k2, x) ∈ entriesOf it.array)) ∧
    k ∈ lptKeys it ∧
    it2.count + 1 = it.count := by
  obtain ⟨hn, hc, hr⟩ := (lptWF_iff it).mp hwf
  have huniq := keyUnique_of_reach it.array hr
  cases hscan : scanKey it.array k it.array.length
      (polyHash it.array.length k) with
  | none =>
    have hprobe : lptProbe it k false = .error .key := by
      unfold lptProbe; rw [hscan]; rfl
    simp only [lptDel, hprobe] at h
    cases h
  | some pb =>
    obtain ⟨p, b⟩ := pb
    cases b with
    | false =>
      have hprobe : lptProbe it k false = .error .key := by
        unfold lptProbe; rw [hscan]; rfl
      simp only [lptDel, hprobe] at h
      cases h
    | true =>
      obtain ⟨oldv, hgp⟩ := scanKey_true_occupied it.array k _ _ p hscan
      have hplt : p < it.array.length :=
        scanKey_lt it.array k _ _ p true (polyHash_lt _ _ hn) hscan
      have hprobe : lptProbe it k false = .ok p := by
        unfold lptProbe; rw [hscan]
      simp only [lptDel, hprobe] at h
      have hlen1 : (it.array.set p none).length = it.array.length :=
        List.length_set it.array p none
      cases hrep : repairLoop fuel (it.array.set p none)
          ((p + 1) % (it.array.set p none).length) with
      | none => simp only [hrep] at h; cases h
      | some res =>
        cases res with
        | error e => simp only [hrep] at h; cases h
        | ok arr3 =>
          simp only [hrep] at h
          have hit2 := Except.ok.inj (Option.some.inj h)
          subst hit2
          have hinv := repair_init it.array p k oldv hn hplt hgp hr
          rw [hlen1] at hrep
          have hremperm : List.Perm
              ((k, oldv) :: entriesOf (it.array.set p none))
              (entriesOf it.array) :=
            entriesOf_remove_perm it.array p (k, oldv) hplt hgp
          have hnd1 : ((entriesOf (it.array.set p none)).map
              Prod.fst).Nodup := by
            have hnd0 : ((entriesOf it.array).map Prod.fst).Nodup :=
              entries_nodup_of_unique it.array huniq
            have hnds : (((k, oldv) :: entriesOf
                (it.array.set p none)).map Prod.fst).Nodup :=
              ((hremperm.map Prod.fst).nodup_iff).mpr hnd0
            exact (List.nodup_cons.mp hnds).2
          have hw1 : (p + 1) % it.array.length <
              (it.array.set p none).length := by
            rw [hlen1]; exact Nat.mod_lt _ hn
          have hn1 : 0 < (it.array.set p none).length := by
            rw [hlen1]; exact hn
          obtain ⟨hlo, hro, hpo⟩ := repairLoop_spec fuel
            (it.array.set p none) ((p + 1) % it.array.length) arr3 hn1 hw1
            hinv hnd1 hrep
          have habs1 : ∀ x, ¬ (k, x) ∈ entriesOf (it.array.set p none) := by
            intro x hm
            obtain ⟨j, hj, hgj⟩ := (entriesOf_mem _ _).mp hm
            rw [hlen1] at hj
            have hjp : j ≠ p := by
              intro hc2
              rw [hc2, listGetDSetSelf it.array p none none hplt] at hgj
              cases hgj
            have hgj2 : it.array.getD j none = some (k, x) := by
              rw [← listGetDSetNe it.array p j none none
                (fun hc2 => hjp hc2.symm)]
              exact hgj
            exact hjp (huniq j p k x oldv hj hplt hgj2 hgp)
          have hlen_rm : (entriesOf it.array).length =
              (entriesOf (it.array.set p none)).length + 1 := by
            rw [← hremperm.length_eq, List.length_cons]
          refine ⟨?_, rfl, ?_, ?_, ?_, ?_⟩
          · rw [lptWF_iff]
            refine ⟨?_, ?_, hro⟩
            · show 0 < arr3.length
              rw [hlo, hlen1]; exact hn
            · show it.count - 1 = (entriesOf arr3).length
              rw [hpo.length_eq]
              omega
          · intro x hm
            exact habs1 x (hpo.mem_iff.mp hm)
          · intro k2 x hne
            constructor
            · intro hm
              exact hremperm.mem_iff.mp
                (List.mem_cons_of_mem _ (hpo.mem_iff.mp hm))
            · intro hm
              have hm1 : (k2, x) ∈ (k, oldv) ::
                  entriesOf (it.array.set p none) :=
                hremperm.mem_iff.mpr hm
              rcases List.mem_cons.mp hm1 with heq | hm2
              · exact absurd (congrArg Prod.fst heq) hne
              · exact hpo.mem_iff.mpr hm2
          · exact (keys_mem_iff _ _).mpr
              ⟨oldv, (entriesOf_mem _ _).mpr ⟨p, hplt, hgp⟩⟩
          · show it.count - 1 + 1 = it.count
            omega

/-- The externally observable (key1, key2, value) triples of the
composite table, outer slots in order. -/
def dktTriples (t : Table) : List (List Nat × List Nat × Nat) :=
  ((entriesOf t.external_table_array).map
    (fun e => (entriesOf e.2.array).map (fun p => (e.1, p.1, p.2)))).flatten

/-- Membership in the observable triples. -/
theorem dktTriples_mem (t : Table) (k1 k2 : List Nat) (v : Nat) :
    (k1, k2, v) ∈ dktTriples t ↔
    ∃ it1, (k1, it1) ∈ entriesOf t.external_table_array ∧
      (k2, v) ∈ entriesOf it1.array := by
  unfold dktTriples
  rw [List.mem_flatten]
  constructor
  · rintro ⟨l, hl, hmem⟩
    obtain ⟨e, he, rfl⟩ := List.mem_map.mp hl
    obtain ⟨p, hp, hpe⟩ := List.mem_map.mp hmem
    have h1 : e.1 = k1 := congrArg (fun x => x.1) hpe
    have h2 : p.1 = k2 := congrArg (fun x => x.2.1) hpe
    have h3 : p.2 = v := congrArg (fun x => x.2.2) hpe
    refine ⟨e.2, ?_, ?_⟩
    · rw [← h1]
      exact he
    · rw [← h2, ← h3]
      exact hp
  · rintro ⟨it1, h1, h2⟩
    refine ⟨(entriesOf it1.array).map (fun p => (k1, p.1, p.2)), ?_, ?_⟩
    · exact List.mem_map.mpr ⟨(k1, it1), h1, rfl⟩
    · exact List.mem_map.mpr ⟨(k2, v), h2, rfl⟩

/-- Entry based reading of composite table well formedness. -/
theorem dktWF_parts (t : Table) : dktWF t = true ↔
    (0 < t.table_size ∧
     t.external_table_length = (entriesOf t.external_table_array).length ∧
     ReachArr t.external_table_array ∧
     ∀ e ∈ entriesOf t.external_table_array,
       lptWF e.2 = true ∧ 0 < e.2.count) := by
  rw [dktWF_iff]
  constructor
  · rintro ⟨h1, h2, h3⟩
    refine ⟨h1, h2, ?_, ?_⟩
    · intro j hj k p hg
      have hs := h3 j hj
      unfold SlotWFD at hs
      rw [hg] at hs
      exact hs.1
    · intro e he
      obtain ⟨j, hj, hg⟩ := (entriesOf_mem _ _).mp he
      have hs := h3 j hj
      unfold SlotWFD at hs
      obtain ⟨k1, it1⟩ := e
      rw [hg] at hs
      exact ⟨hs.2.1, hs.2.2⟩
  · rintro ⟨h1, h2, h3, h4⟩
    refine ⟨h1, h2, fun j hj => ?_⟩
    unfold SlotWFD
    cases hg : t.external_table_array.getD j none with
    | none => trivial
    | some e =>
      obtain ⟨k1, it1⟩ := e
      have hmem : (k1, it1) ∈ entriesOf t.external_table_array :=
        (entriesOf_mem _ _).mpr ⟨j, hj, hg⟩
      exact ⟨h3 j hj k1 it1 hg, (h4 _ hmem).1, (h4 _ hmem).2⟩

/-- The outer probe loop with no steps left. -/
theorem probeAux_zero (t : Table) (k1 k2 : List Nat) (isIns : Bool)
    (pos : Nat) : probeAuxD t k1 k2 isIns 0 pos =
      if isIns then .error .full else .error .key := by
  rw [probeAuxD]

/-- One step of the outer probe loop at an empty slot. -/
theorem probeAux_succ_none {t : Table} {k1 k2 : List Nat} {isIns : Bool}
    {s pos : Nat} (hg : t.external_table_array.getD pos none = none) :
    probeAuxD t k1 k2 isIns (s + 1) pos =
      if isIns then
        (match lptProbe (lptNew t.internal_table_sizes) k2 true with
         | .error e => .error e
         | .ok bp => .ok ((pos, bp),
             { t with
                 external_table_array := t.external_table_array.set pos
                   (some (k1, lptNew t.internal_table_sizes)),
                 external_table_length := t.external_table_length + 1 }))
      else .error .key := by
  conv_lhs => rw [probeAuxD]
  simp only [hg]

/-- One step of the outer probe loop at the slot holding key1. -/
theorem probeAux_succ_hit {t : Table} {k1 k2 : List Nat} {isIns : Bool}
    {s pos : Nat} {it1 : LPT}
    (hg : t.external_table_array.getD pos none = some (k1, it1)) :
    probeAuxD t k1 k2 isIns (s + 1) pos =
      (if lptContains it1 k2 then
        match lptProbe it1 k2 false with
        | .error e => .error e
        | .ok bp => .ok ((pos, bp), t)
      else if isIns then
        match lptProbe it1 k2 true with
        | .error e => .error e
        | .ok bp => .ok ((pos, bp), t)
      else .error .key) := by
  conv_lhs => rw [probeAuxD]
  simp only [hg, if_pos]

/-- One step of the outer probe loop at a mismatched slot. -/
theorem probeAux_succ_miss {t : Table} {k1 k2 : List Nat} {isIns : Bool}
    {s pos : Nat} {kx : List Nat} {itx : LPT}
    (hg : t.external_table_array.getD pos none = some (kx, itx))
    (hne : ¬ (kx = k1)) :
    probeAuxD t k1 k2 isIns (s + 1) pos =
      probeAuxD t k1 k2 isIns s ((pos + 1) % t.table_size) := by
  conv_lhs => rw [probeAuxD]
  simp only [hg]
  rw [if_neg hne]

/-- The outer probe follows a probe scan that finds key1. -/
theorem probeAux_scan_true (t : Table) (k1 k2 : List Nat) (isIns : Bool) :
    ∀ s pos j it1,
    t.external_table_array.getD j none = some (k1, it1) →
    scanKey t.external_table_array k1 s pos = some (j, true) →
    probeAuxD t k1 k2 isIns s pos =
      (if lptContains it1 k2 then
        match lptProbe it1 k2 false with
        | .error e => .error e
        | .ok bp => .ok ((j, bp), t)
      else if isIns then
        match lptProbe it1 k2 true with
        | .error e => .error e
        | .ok bp => .ok ((j, bp), t)
      else .error .key) := by
  intro s
  induction s with
  | zero => intro pos j it1 _ hscan; cases hscan
  | succ m ih =>
    intro pos j it1 hgj hscan
    cases hg : t.external_table_array.getD pos none with
    | none =>
      rw [scanKey_succ_none hg] at hscan
      cases hscan
    | some e =>
      obtain ⟨kx, itx⟩ := e
      by_cases hk : kx = k1
      · have hg2 : t.external_table_array.getD pos none =
            some (k1, itx) := by rw [hg, hk]
        rw [scanKey_succ_match hg2 rfl] at hscan
        have hpj : pos = j := congrArg Prod.fst (Option.some.inj hscan)
        subst hpj
        rw [hg2] at hgj
        have hit : it1 = itx := congrArg Prod.snd (Option.some.inj hgj.symm)
        rw [probeAux_succ_hit hg2, hit]
      · rw [scanKey_succ_step hg hk] at hscan
        rw [probeAux_succ_miss hg hk]
        exact ih _ j it1 hgj hscan

/-- The outer probe follows a probe scan that ends at an empty slot. -/
theorem probeAux_scan_false (t : Table) (k1 k2 : List Nat) (isIns : Bool) :
    ∀ s pos p,
    scanKey t.external_table_array k1 s pos = some (p, false) →
    probeAuxD t k1 k2 isIns s pos =
      if isIns then
        (match lptProbe (lptNew t.internal_table_sizes) k2 true with
         | .error e => .error e
         | .ok bp => .ok ((p, bp),
             { t with
                 external_table_array := t.external_table_array.set p
                   (some (k1, lptNew t.internal_table_sizes)),
                 external_table_length := t.external_table_length + 1 }))
      else .error .key := by
  intro s
  induction s with
  | zero => intro pos p hscan; cases hscan
  | succ m ih =>
    intro pos p hscan
    cases hg : t.external_table_array.getD pos none with
    | none =>
      rw [scanKey_succ_none hg] at hscan
      have hpj : pos = p := congrArg Prod.fst (Option.some.inj hscan)
      subst hpj
      exact probeAux_succ_none hg
    | some e =>
      obtain ⟨kx, itx⟩ := e
      by_cases hk : kx = k1
      · rw [scanKey_succ_match hg hk] at hscan
        have := congrArg Prod.snd (Option.some.inj hscan)
        cases this
      · rw [scanKey_succ_step hg hk] at hscan
        rw [probeAux_succ_miss hg hk]
        exact ih _ p hscan

/-- The outer probe follows an exhausted probe scan. -/
theorem probeAux_scan_none (t : Table) (k1 k2 : List Nat) (isIns : Bool) :
    ∀ s pos,
    scanKey t.external_table_array k1 s pos = none →
    probeAuxD t k1 k2 isIns s pos =
      (if isIns then .error .full else .error .key) := by
  intro s
  induction s with
  | zero => intro pos _; exact probeAux_zero t k1 k2 isIns pos
  | succ m ih =>
    intro pos hscan
    cases hg : t.external_table_array.getD pos none with
    | none => rw [scanKey_succ_none hg] at hscan; cases hscan
    | some e =>
      obtain ⟨kx, itx⟩ := e
      by_cases hk : kx = k1
      · rw [scanKey_succ_match hg hk] at hscan; cases hscan
      · rw [scanKey_succ_step hg hk] at hscan
        rw [probeAux_succ_miss hg hk]
        exact ih _ hscan

/-- Composite lookup of a stored triple returns its value. -/
theorem dktGet_found (t : Table) (hwf : dktWF t = true) (j : Nat)
    (k1 : List Nat) (it1 : LPT) (k2 : List Nat) (v : Nat)
    (hj : j < t.table_size)
    (hgj : t.external_table_array.getD j none = some (k1, it1))
    (hmem : (k2, v) ∈ entriesOf it1.array) :
    dktGet t k1 k2 = .ok v := by
  obtain ⟨hn, hcnt, hreach, hinner⟩ := (dktWF_parts t).mp hwf
  have hmemE : (k1, it1) ∈ entriesOf t.external_table_array :=
    (entriesOf_mem _ _).mpr ⟨j, hj, hgj⟩
  obtain ⟨hwfI, _⟩ := hinner (k1, it1) hmemE
  have hscan := hreach j hj k1 it1 hgj
  have hcont : lptContains it1 k2 = true :=
    lptContains_true it1 hwfI k2 v hmem
  obtain ⟨jb, hjb, hgb⟩ := (entriesOf_mem it1.array (k2, v)).mp hmem
  have hprobeI : lptProbe it1 k2 false = .ok jb :=
    lptProbe_found it1 hwfI jb k2 v hjb hgb false
  have hbridge := probeAux_scan_true t k1 k2 false t.table_size
    (hash1 t k1) j it1 hgj hscan
  rw [if_pos hcont] at hbridge
  simp only [hprobeI] at hbridge
  unfold dktGet dktProbe
  simp only [hbridge, hgj]
  exact lptGet_found it1 hwfI k2 v hmem

/-- Composite lookup with key1 present but key2 absent raises
KeyError. -/
theorem dktGet_noK2 (t : Table) (hwf : dktWF t = true) (j : Nat)
    (k1 : List Nat) (it1 : LPT) (k2 : List Nat)
    (hj : j < t.table_size)
    (hgj : t.external_table_array.getD j none = some (k1, it1))
    (habs : ¬ k2 ∈ lptKeys it1) :
    dktGet t k1 k2 = .error .key := by
  obtain ⟨hn, hcnt, hreach, hinner⟩ := (dktWF_parts t).mp hwf
  have hmemE : (k1, it1) ∈ entriesOf t.external_table_array :=
    (entriesOf_mem _ _).mpr ⟨j, hj, hgj⟩
  obtain ⟨hwfI, _⟩ := hinner (k1, it1) hmemE
  have hscan := hreach j hj k1 it1 hgj
  have hcont : lptContains it1 k2 = false :=
    lptContains_false it1 ((lptWF_iff it1).mp hwfI).1 k2 habs
  have hcont2 : ¬ (lptContains it1 k2 = true) := by
    rw [hcont]; exact Bool.false_ne_true
  have hbridge := probeAux_scan_true t k1 k2 false t.table_size
    (hash1 t k1) j it1 hgj hscan
  rw [if_neg hcont2, if_neg Bool.false_ne_true] at hbridge
  unfold dktGet dktProbe
  simp only [hbridge]

/-- Composite lookup with key1 absent raises KeyError. -/
theorem dktGet_noK1 (t : Table) (hn : 0 < t.table_size)
    (k1 : List Nat) (habs : ¬ k1 ∈ dktKeysAll t) (k2 : List Nat) :
    dktGet t k1 k2 = .error .key := by
  have habs2 := absent_of_not_mem_keys t.external_table_array k1 habs
  have hscan := scanKey_absent t.external_table_array k1 habs2
    t.table_size (hash1 t k1) (polyHash_lt t.table_size k1 hn)
  cases hfind : findNone t.external_table_array t.table_size
      (hash1 t k1) with
  | some p =>
    have hscan2 : scanKey t.external_table_array k1 t.table_size
        (hash1 t k1) = some (p, false) := by
      rw [hscan, hfind]; rfl
    have hbridge := probeAux_scan_false t k1 k2 false t.table_size
      (hash1 t k1) p hscan2
    rw [if_neg Bool.false_ne_true] at hbridge
    unfold dktGet dktProbe
    simp only [hbridge]
  | none =>
    have hscan2 : scanKey t.external_table_array k1 t.table_size
        (hash1 t k1) = none := by
      rw [hscan, hfind]; rfl
    have hbridge := probeAux_scan_none t k1 k2 false t.table_size
      (hash1 t k1) hscan2
    rw [if_neg Bool.false_ne_true] at hbridge
    unfold dktGet dktProbe
    simp only [hbridge]

/-- Composite lookup succeeds exactly on the stored triples. -/
theorem dktGet_ok_iff (t : Table) (hwf : dktWF t = true)
    (k1 k2 : List Nat) (v : Nat) :
    dktGet t k1 k2 = .ok v ↔ (k1, k2, v) ∈ dktTriples t := by
  obtain ⟨hn, hcnt, hreach, hinner⟩ := (dktWF_parts t).mp hwf
  constructor
  · intro h
    by_cases hk1 : k1 ∈ dktKeysAll t
    · obtain ⟨it1, hit1⟩ := (keys_mem_iff _ _).mp hk1
      obtain ⟨j, hj, hgj⟩ := (entriesOf_mem _ _).mp hit1
      obtain ⟨hwfI, _⟩ := hinner (k1, it1) hit1
      by_cases hk2 : k2 ∈ lptKeys it1
      · obtain ⟨w, hw⟩ := (keys_mem_iff _ _).mp hk2
        have hfd := dktGet_found t hwf j k1 it1 k2 w hj hgj hw
        rw [h] at hfd
        have hv : v = w := Except.ok.inj hfd
        subst hv
        exact (dktTriples_mem t k1 k2 v).mpr ⟨it1, hit1, hw⟩
      · have hno := dktGet_noK2 t hwf j k1 it1 k2 hj hgj hk2
        rw [h] at hno
        cases hno
    · have hno := dktGet_noK1 t hn k1 hk1 k2
      rw [h] at hno
      cases hno
  · intro h
    obtain ⟨it1, hit1, hmem⟩ := (dktTriples_mem t k1 k2 v).mp h
    obtain ⟨j, hj, hgj⟩ := (entriesOf_mem _ _).mp hit1
    exact dktGet_found t hwf j k1 it1 k2 v hj hgj hmem

/-- Under well formedness a composite lookup either returns a value or
raises KeyError. -/
theorem dktGet_cases (t : Table) (hwf : dktWF t = true)
    (k1 k2 : List Nat) :
    (∃ v, dktGet t k1 k2 = .ok v) ∨ dktGet t k1 k2 = .error .key := by
  obtain ⟨hn, hcnt, hreach, hinner⟩ := (dktWF_parts t).mp hwf
  by_cases hk1 : k1 ∈ dktKeysAll t
  · obtain ⟨it1, hit1⟩ := (keys_mem_iff _ _).mp hk1
    obtain ⟨j, hj, hgj⟩ := (entriesOf_mem _ _).mp hit1
    by_cases hk2 : k2 ∈ lptKeys it1
    · obtain ⟨w, hw⟩ := (keys_mem_iff _ _).mp hk2
      exact Or.inl ⟨w, dktGet_found t hwf j k1 it1 k2 w hj hgj hw⟩
    · exact Or.inr (dktGet_noK2 t hwf j k1 it1 k2 hj hgj hk2)
  · exact Or.inr (dktGet_noK1 t hn k1 hk1 k2)

/-- Two well formed composite tables with the same triples answer every
lookup identically. -/
theorem dktGet_congr (tA tB : Table) (hwfA : dktWF tA = true)
    (hwfB : dktWF tB = true)
    (hiff : ∀ k1 k2 v,
      (k1, k2, v) ∈ dktTriples tB ↔ (k1, k2, v) ∈ dktTriples tA)
    (k1 k2 : List Nat) :
    dktGet tB k1 k2 = dktGet tA k1 k2 := by
  rcases dktGet_cases tA hwfA k1 k2 with ⟨v, hv⟩ | he
  · have hmB := (dktGet_ok_iff tB hwfB k1 k2 v).mpr
      ((hiff k1 k2 v).mpr ((dktGet_ok_iff tA hwfA k1 k2 v).mp hv))
    rw [hv, hmB]
  · rcases dktGet_cases tB hwfB k1 k2 with ⟨v, hv⟩ | heB
    · have hA := (dktGet_ok_iff tA hwfA k1 k2 v).mpr
        ((hiff k1 k2 v).mp ((dktGet_ok_iff tB hwfB k1 k2 v).mp hv))
      rw [hA] at he
      cases he
    · rw [he, heB]

/-- Membership is a successful lookup. -/
theorem dktContains_iff (t : Table) (k1 k2 : List Nat) :
    dktContains t k1 k2 = true ↔ ∃ v, dktGet t k1 k2 = .ok v := by
  unfold dktContains
  cases h : dktGet t k1 k2 with
  | ok v =>
    constructor
    · intro _; exact ⟨v, rfl⟩
    · intro _; rfl
  | error e =>
    constructor
    · intro hc; cases hc
    · rintro ⟨v, hv⟩; cases hv

/-- The composite length is the number of stored triples. -/
theorem dktLen_eq_triples (t : Table) (hwf : dktWF t = true) :
    dktLen t = (dktTriples t).length := by
  obtain ⟨_, _, _, hinner⟩ := (dktWF_parts t).mp hwf
  unfold dktLen dktTriples
  rw [List.length_flatten, List.map_map]
  congr 1
  apply List.map_congr_left
  intro e he
  obtain ⟨hwfI, _⟩ := hinner e he
  obtain ⟨_, hcnt, _⟩ := (lptWF_iff e.2).mp hwfI
  simp only [Function.comp_apply, List.length_map]
  exact hcnt

/-- A permutation of the outer entries preserves the observable
triples. -/
theorem dktTriples_perm_iff (tA tB : Table)
    (hperm : List.Perm (entriesOf tB.external_table_array)
      (entriesOf tA.external_table_array)) :
    ∀ k1 k2 v, ((k1, k2, v) ∈ dktTriples tB ↔ (k1, k2, v) ∈ dktTriples tA) := by
  intro k1 k2 v
  rw [dktTriples_mem, dktTriples_mem]
  constructor
  · rintro ⟨it1, h1, h2⟩
    exact ⟨it1, hperm.mem_iff.mp h1, h2⟩
  · rintro ⟨it1, h1, h2⟩
    exact ⟨it1, hperm.mem_iff.mpr h1, h2⟩

/-- A permutation of the outer entries preserves the composite
length. -/
theorem dktLen_perm_eq (tA tB : Table)
    (hperm : List.Perm (entriesOf tB.external_table_array)
      (entriesOf tA.external_table_array)) :
    dktLen tB = dktLen tA := by
  unfold dktLen
  exact (hperm.map (fun e => e.2.count)).sum_eq

/-- A successful outer rehash preserves well formedness, both size class
lists, the occupancy count and the outer entries up to permutation. -/
theorem dktRehash_spec (t t2 : Table) (hwf : dktWF t = true)
    (hposE : ∀ x ∈ t.external_table_sizes, 0 < x)
    (h : dktRehash t = .ok t2) :
    dktWF t2 = true ∧
    t2.external_table_sizes = t.external_table_sizes ∧
    t2.internal_table_sizes = t.internal_table_sizes ∧
    t2.external_table_length = t.external_table_length ∧
    List.Perm (entriesOf t2.external_table_array)
      (entriesOf t.external_table_array) := by
  obtain ⟨hn, hcnt, hreach, hinner⟩ := (dktWF_parts t).mp hwf
  simp only [dktRehash] at h
  by_cases hidx : t.size_index + 1 = t.external_table_sizes.length
  · rw [if_pos hidx] at h
    have hit2 := Except.ok.inj h
    subst hit2
    exact ⟨hwf, rfl, rfl, rfl, List.Perm.refl _⟩
  · rw [if_neg hidx] at h
    cases hget : t.external_table_sizes.get? (t.size_index + 1) with
    | none => rw [hget] at h; cases h
    | some ns =>
      simp only [hget] at h
      cases hreb : rebuild (entriesOf t.external_table_array)
          (List.replicate ns none) with
      | error e => simp only [hreb] at h; cases h
      | ok arr2 =>
        simp only [hreb] at h
        have hit2 := Except.ok.inj h
        subst hit2
        have hns : 0 < ns := hposE ns (List.get?_mem hget)
        have hnd : ((entriesOf t.external_table_array).map Prod.fst ++
            (entriesOf (List.replicate ns
              (none : Option (List Nat × LPT)))).map Prod.fst).Nodup := by
          rw [entriesOf_replicate_none]
          simp only [List.map_nil, List.append_nil]
          exact entries_nodup_of_unique _ (keyUnique_of_reach _ hreach)
        obtain ⟨hlo, hro, hpo⟩ := rebuild_spec
          (entriesOf t.external_table_array) (List.replicate ns none) arr2
          (by rw [List.length_replicate]; exact hns)
          (reach_replicate ns) hnd hreb
        rw [entriesOf_replicate_none, List.append_nil] at hpo
        refine ⟨?_, rfl, rfl, rfl, hpo⟩
        rw [dktWF_parts]
        refine ⟨?_, ?_, hro, ?_⟩
        · show 0 < arr2.length
          rw [hlo, List.length_replicate]
          exact hns
        · show t.external_table_length = (entriesOf arr2).length
          rw [hpo.length_eq]
          exact hcnt
        · intro e he
          exact hinner e (hpo.mem_iff.mp he)

/-- A fresh inner table stores nothing. -/
theorem lptNew_entries (sizes : List Nat) :
    entriesOf (lptNew sizes).array = [] :=
  entriesOf_replicate_none _

/-- A fresh inner table over a positive first size class is well
formed. -/
theorem lptNew_wf (sizes : List Nat) (h0 : 0 < sizes.getD 0 0) :
    lptWF (lptNew sizes) = true := by
  rw [lptWF_iff]
  refine ⟨?_, ?_, ?_⟩
  · show 0 < (List.replicate (sizes.getD 0 0) (none : Option (List Nat × Nat))).length
    rw [List.length_replicate]
    exact h0
  · show 0 = (entriesOf (lptNew sizes).array).length
    rw [lptNew_entries]
    rfl
  · exact reach_replicate _

/-- Every stored inner table carries the configured internal size class
list (true of every table the implementation can build, since inner
tables are only created by the constructor call inside the probe). -/
def InnerSizesOK (t : Table) : Prop :=
  ∀ e ∈ entriesOf t.external_table_array,
    e.2.sizes = t.internal_table_sizes

/-- The final half full check of a composite insertion: either no outer
rehash, or a rehash preserving the observable state. -/
theorem dktSetAux (t t2a t2 : Table) (hwf2a : dktWF t2a = true)
    (hszE : t2a.external_table_sizes = t.external_table_sizes)
    (hszI : t2a.internal_table_sizes = t.internal_table_sizes)
    (hposE : ∀ x ∈ t.external_table_sizes, 0 < x)
    (hIS2a : InnerSizesOK t2a)
    (h : (if 2 * t2a.external_table_length > t2a.table_size then
        dktRehash t2a else .ok t2a) = .ok t2) :
    dktWF t2 = true ∧ t2.external_table_sizes = t.external_table_sizes ∧
    t2.internal_table_sizes = t.internal_table_sizes ∧
    (∀ k1 k2 v,
      ((k1, k2, v) ∈ dktTriples t2 ↔ (k1, k2, v) ∈ dktTriples t2a)) ∧
    dktLen t2 = dktLen t2a ∧ InnerSizesOK t2 := by
  by_cases hhalf : 2 * t2a.external_table_length > t2a.table_size
  · rw [if_pos hhalf] at h
    obtain ⟨hwf2, hszE2, hszI2, _, hperm2⟩ := dktRehash_spec t2a t2 hwf2a
      (by rw [hszE]; exact hposE) h
    refine ⟨hwf2, hszE2.trans hszE, hszI2.trans hszI,
      dktTriples_perm_iff t2a t2 hperm2, dktLen_perm_eq t2a t2 hperm2, ?_⟩
    intro e he
    rw [hszI2]
    exact hIS2a e (hperm2.mem_iff.mp he)
  · rw [if_neg hhalf] at h
    have hin := Except.ok.inj h
    subst hin
    exact ⟨hwf2a, hszE, hszI, fun k1 k2 v => Iff.rfl, rfl, hIS2a⟩

/-- A composite insertion whose probe lands on the slot already holding
key1: the inner write goes through and the observable state updates
accordingly. -/
theorem dktSet_hitAux (t t2 : Table) (hwf : dktWF t = true)
    (hIS : InnerSizesOK t)
    (hposE : ∀ x ∈ t.external_table_sizes, 0 < x)
    (hposI : ∀ x ∈ t.internal_table_sizes, 0 < x)
    (k1 k2 : List Nat) (v : Nat) (p bp : Nat) (it1 : LPT)
    (hplt : p < t.table_size)
    (hgj : t.external_table_array.getD p none = some (k1, it1))
    (hbridge : dktProbe t k1 k2 true = .ok ((p, bp), t))
    (h : dktSet t k1 k2 v = .ok t2) :
    dktWF t2 = true ∧
    t2.external_table_sizes = t.external_table_sizes ∧
    t2.internal_table_sizes = t.internal_table_sizes ∧
    InnerSizesOK t2 ∧
    (k1, k2, v) ∈ dktTriples t2 ∧
    (∀ j1 j2 x, ¬ (j1 = k1 ∧ j2 = k2) →
      ((j1, j2, x) ∈ dktTriples t2 ↔ (j1, j2, x) ∈ dktTriples t)) ∧
    (dktContains t k1 k2 = true → dktLen t2 = dktLen t) ∧
    (dktContains t k1 k2 = false → dktLen t2 = dktLen t + 1) := by
  obtain ⟨hn, hcnt, hreach, hinner⟩ := (dktWF_parts t).mp hwf
  have hmemE : (k1, it1) ∈ entriesOf t.external_table_array :=
    (entriesOf_mem _ _).mpr ⟨p, hplt, hgj⟩
  obtain ⟨hwfI, hcntposI⟩ := hinner (k1, it1) hmemE
  simp only [dktSet, hbridge, hgj] at h
  cases hset : lptSet it1 k2 v with
  | error e => simp only [hset] at h; cases h
  | ok it2i =>
    simp only [hset] at h
    have hposInner : ∀ x ∈ it1.sizes, 0 < x := by
      have hsz := hIS (k1, it1) hmemE
      rw [hsz]; exact hposI
    obtain ⟨hwfI2, hszI2, hmemk2, hmemiff2, hcntT, hcntF⟩ :=
      lptSet_spec it1 it2i hwfI hposInner k2 v hset
    have hsplit2 : entriesOf
        (t.external_table_array.set p (some (k1, it2i))) =
        entriesOf (t.external_table_array.take p) ++ [(k1, it2i)] ++
        entriesOf (t.external_table_array.drop (p + 1)) := by
      rw [entriesOf_set_split t.external_table_array p (some (k1, it2i))
        hplt]
      rfl
    have hsplit1 : entriesOf t.external_table_array =
        entriesOf (t.external_table_array.take p) ++ [(k1, it1)] ++
        entriesOf (t.external_table_array.drop (p + 1)) := by
      conv_lhs => rw [entriesOf_self_split t.external_table_array p hplt]
      rw [hgj]
      rfl
    have hlensetO : (t.external_table_array.set p
        (some (k1, it2i))).length = t.external_table_array.length :=
      List.length_set t.external_table_array p (some (k1, it2i))
    have hwf2a : dktWF { t with
        external_table_array := t.external_table_array.set p (some (k1, it2i)) } = true := by
      rw [dktWF_parts]
      refine ⟨?_, ?_, ?_, ?_⟩
      · show 0 < (t.external_table_array.set p (some (k1, it2i))).length
        rw [hlensetO]; exact hn
      · show t.external_table_length = (entriesOf
          (t.external_table_array.set p (some (k1, it2i)))).length
        rw [hsplit2, hcnt, hsplit1]
        simp [List.length_append]
      · intro j hj kx itx hgj2
        show scanKey (t.external_table_array.set p (some (k1, it2i))) kx
          (t.external_table_array.set p (some (k1, it2i))).length
          (polyHash (t.external_table_array.set p
            (some (k1, it2i))).length kx) = some (j, true)
        rw [hlensetO]
        rw [hlensetO] at hj
        rw [scanKey_set_samekey t.external_table_array p k1 it1 it2i hgj
          hplt kx]
        by_cases hjp : j = p
        · subst hjp
          have hgs : (t.external_table_array.set j
              (some (k1, it2i))).getD j none = some (k1, it2i) :=
            listGetDSetSelf t.external_table_array j (some (k1, it2i))
              none hplt
          rw [hgs] at hgj2
          have hk : k1 = kx := congrArg Prod.fst (Option.some.inj hgj2)
          subst hk
          exact hreach j hj k1 it1 hgj
        · have hgj3 : t.external_table_array.getD j none =
              some (kx, itx) := by
            rw [← listGetDSetNe t.external_table_array p j
              (some (k1, it2i)) none (fun hc => hjp hc.symm)]
            exact hgj2
          exact hreach j hj kx itx hgj3
      · intro e he
        have he2 : e ∈ entriesOf
            (t.external_table_array.set p (some (k1, it2i))) := he
        rw [hsplit2] at he2
        simp only [List.mem_append, List.mem_singleton] at he2
        rcases he2 with (hta | heq) | hdr
        · refine hinner e ?_
          rw [hsplit1]
          simp only [List.mem_append, List.mem_singleton]
          exact Or.inl (Or.inl hta)
        · subst heq
          refine ⟨hwfI2, ?_⟩
          show 0 < it2i.count
          obtain ⟨_, hcnt2i, _⟩ := (lptWF_iff it2i).mp hwfI2
          rw [hcnt2i]
          exact List.length_pos.mpr (List.ne_nil_of_mem hmemk2)
        · refine hinner e ?_
          rw [hsplit1]
          simp only [List.mem_append, List.mem_singleton]
          exact Or.inr hdr
    have hIS2a : InnerSizesOK { t with
        external_table_array := t.external_table_array.set p (some (k1, it2i)) } := by
      intro e he
      show e.2.sizes = t.internal_table_sizes
      have he2 : e ∈ entriesOf
          (t.external_table_array.set p (some (k1, it2i))) := he
      rw [hsplit2] at he2
      simp only [List.mem_append, List.mem_singleton] at he2
      rcases he2 with (hta | heq) | hdr
      · refine hIS e ?_
        rw [hsplit1]
        simp only [List.mem_append, List.mem_singleton]
        exact Or.inl (Or.inl hta)
      · subst heq
        show it2i.sizes = t.internal_table_sizes
        rw [hszI2]
        exact hIS (k1, it1) hmemE
      · refine hIS e ?_
        rw [hsplit1]
        simp only [List.mem_append, List.mem_singleton]
        exact Or.inr hdr
    obtain ⟨hwf2, hszE2, hszI2', htrip, hlen2, hIS2⟩ :=
      dktSetAux t _ t2 hwf2a rfl rfl hposE hIS2a h
    have hmemtrip : (k1, k2, v) ∈ dktTriples { t with
        external_table_array :=
          t.external_table_array.set p (some (k1, it2i)) } := by
      rw [dktTriples_mem]
      refine ⟨it2i, ?_, hmemk2⟩
      show (k1, it2i) ∈ entriesOf
        (t.external_table_array.set p (some (k1, it2i)))
      rw [hsplit2]
      simp only [List.mem_append, List.mem_singleton]
      exact Or.inl (Or.inr True.intro)
    have hframe : ∀ j1 j2 x, ¬ (j1 = k1 ∧ j2 = k2) →
        ((j1, j2, x) ∈ dktTriples { t with
          external_table_array := t.external_table_array.set p (some (k1, it2i)) } ↔
          (j1, j2, x) ∈ dktTriples t) := by
      intro j1 j2 x hne
      rw [dktTriples_mem, dktTriples_mem]
      constructor
      · rintro ⟨it3, hout, hin⟩
        have hout2 : (j1, it3) ∈ entriesOf
            (t.external_table_array.set p (some (k1, it2i))) := hout
        rw [hsplit2] at hout2
        simp only [List.mem_append, List.mem_singleton] at hout2
        rcases hout2 with (hta | heq) | hdr
        · refine ⟨it3, ?_, hin⟩
          rw [hsplit1]
          simp only [List.mem_append, List.mem_singleton]
          exact Or.inl (Or.inl hta)
        · have hj1 : j1 = k1 := congrArg Prod.fst heq
          have hit3 : it3 = it2i := congrArg Prod.snd heq
          have hj2 : j2 ≠ k2 := fun hc => hne ⟨hj1, hc⟩
          subst hit3
          refine ⟨it1, ?_, (hmemiff2 j2 x hj2).mp hin⟩
          rw [hj1]
          exact hmemE
        · refine ⟨it3, ?_, hin⟩
          rw [hsplit1]
          simp only [List.mem_append, List.mem_singleton]
          exact Or.inr hdr
      · rintro ⟨it3, hout, hin⟩
        rw [hsplit1] at hout
        simp only [List.mem_append, List.mem_singleton] at hout
        rcases hout with (hta | heq) | hdr
        · refine ⟨it3, ?_, hin⟩
          show (j1, it3) ∈ entriesOf
            (t.external_table_array.set p (some (k1, it2i)))
          rw [hsplit2]
          simp only [List.mem_append, List.mem_singleton]
          exact Or.inl (Or.inl hta)
        · have hj1 : j1 = k1 := congrArg Prod.fst heq
          have hit3 : it3 = it1 := congrArg Prod.snd heq
          have hj2 : j2 ≠ k2 := fun hc => hne ⟨hj1, hc⟩
          subst hit3
          refine ⟨it2i, ?_, (hmemiff2 j2 x hj2).mpr hin⟩
          show (j1, it2i) ∈ entriesOf
            (t.external_table_array.set p (some (k1, it2i)))
          rw [hj1, hsplit2]
          simp only [List.mem_append, List.mem_singleton]
          exact Or.inl (Or.inr True.intro)
        · refine ⟨it3, ?_, hin⟩
          show (j1, it3) ∈ entriesOf
            (t.external_table_array.set p (some (k1, it2i)))
          rw [hsplit2]
          simp only [List.mem_append, List.mem_singleton]
          exact Or.inr hdr
    have hlen2a : dktLen { t with
          external_table_array := t.external_table_array.set p (some (k1, it2i)) } + it1.count =
        dktLen t + it2i.count := by
      unfold dktLen
      show ((entriesOf (t.external_table_array.set p
          (some (k1, it2i)))).map (fun e => e.2.count)).sum + it1.count =
        ((entriesOf t.external_table_array).map
          (fun e => e.2.count)).sum + it2i.count
      rw [hsplit2]
      conv_rhs => rw [hsplit1]
      simp only [List.map_append, List.sum_append, List.map_cons,
        List.map_nil, List.sum_cons, List.sum_nil]
      omega
    by_cases hk2 : k2 ∈ lptKeys it1
    · obtain ⟨w, hw⟩ := (keys_mem_iff _ _).mp hk2
      have hdkget := dktGet_found t hwf p k1 it1 k2 w hplt hgj hw
      have hdkc : dktContains t k1 k2 = true :=
        (dktContains_iff t k1 k2).mpr ⟨w, hdkget⟩
      have hcontI : lptContains it1 k2 = true :=
        lptContains_true it1 hwfI k2 w hw
      have hcq : it2i.count = it1.count := hcntT hcontI
      refine ⟨hwf2, hszE2, hszI2', hIS2, (htrip k1 k2 v).mpr hmemtrip,
        fun j1 j2 x hne => (htrip j1 j2 x).trans (hframe j1 j2 x hne),
        fun _ => ?_, fun hcf => ?_⟩
      · rw [hlen2]; omega
      · rw [hdkc] at hcf; cases hcf
    · have hdkget := dktGet_noK2 t hwf p k1 it1 k2 hplt hgj hk2
      have hdkc : dktContains t k1 k2 = false := by
        unfold dktContains; rw [hdkget]
      have hcontI : lptContains it1 k2 = false :=
        lptContains_false it1 ((lptWF_iff it1).mp hwfI).1 k2 hk2
      have hcq : it2i.count = it1.count + 1 := hcntF hcontI
      refine ⟨hwf2, hszE2, hszI2', hIS2, (htrip k1 k2 v).mpr hmemtrip,
        fun j1 j2 x hne => (htrip j1 j2 x).trans (hframe j1 j2 x hne),
        fun hct => ?_, fun _ => ?_⟩
      · rw [hdkc] at hct; cases hct
      · rw [hlen2]; omega

/-- A successful composite insertion: the triple becomes observable,
all other pairs are untouched, and the pair count grows only when the
pair was absent. -/
theorem dktSet_spec (t t2 : Table) (hwf : dktWF t = true)
    (hIS : InnerSizesOK t)
    (hposE : ∀ x ∈ t.external_table_sizes, 0 < x)
    (hposI : ∀ x ∈ t.internal_table_sizes, 0 < x)
    (hheadI : 0 < t.internal_table_sizes.getD 0 0)
    (k1 k2 : List Nat) (v : Nat)
    (h : dktSet t k1 k2 v = .ok t2) :
    dktWF t2 = true ∧
    t2.external_table_sizes = t.external_table_sizes ∧
    t2.internal_table_sizes = t.internal_table_sizes ∧
    InnerSizesOK t2 ∧
    (k1, k2, v) ∈ dktTriples t2 ∧
    (∀ j1 j2 x, ¬ (j1 = k1 ∧ j2 = k2) →
      ((j1, j2, x) ∈ dktTriples t2 ↔ (j1, j2, x) ∈ dktTriples t)) ∧
    (dktContains t k1 k2 = true → dktLen t2 = dktLen t) ∧
    (dktContains t k1 k2 = false → dktLen t2 = dktLen t + 1) := by
  obtain ⟨hn, hcnt, hreach, hinner⟩ := (dktWF_parts t).mp hwf
  cases hscan : scanKey t.external_table_array k1 t.table_size
      (hash1 t k1) with
  | none =>
    have hbridge := probeAux_scan_none t k1 k2 true t.table_size
      (hash1 t k1) hscan
    rw [if_pos rfl] at hbridge
    simp only [dktSet, dktProbe, hbridge] at h
    cases h
  | some pb =>
    obtain ⟨p, b⟩ := pb
    have hplt : p < t.table_size :=
      scanKey_lt t.external_table_array k1 _ _ p b
        (polyHash_lt _ _ hn) hscan
    cases b with
    | true =>
      obtain ⟨it1, hgj⟩ := scanKey_true_occupied t.external_table_array
        k1 _ _ p hscan
      have hbridge0 := probeAux_scan_true t k1 k2 true t.table_size
        (hash1 t k1) p it1 hgj hscan
      cases hcontI : lptContains it1 k2 with
      | true =>
        rw [if_pos hcontI] at hbridge0
        cases hpI : lptProbe it1 k2 false with
        | error e =>
          exfalso
          simp only [lptContains, hpI] at hcontI
          exact Bool.false_ne_true hcontI
        | ok bp =>
          simp only [hpI] at hbridge0
          exact dktSet_hitAux t t2 hwf hIS hposE hposI k1 k2 v p bp it1
            hplt hgj hbridge0 h
      | false =>
        rw [if_neg (by rw [hcontI]; exact Bool.false_ne_true),
          if_pos rfl] at hbridge0
        cases hpI : lptProbe it1 k2 true with
        | error e =>
          simp only [hpI] at hbridge0
          simp only [dktSet, dktProbe, hbridge0] at h
          cases h
        | ok bp =>
          simp only [hpI] at hbridge0
          exact dktSet_hitAux t t2 hwf hIS hposE hposI k1 k2 v p bp it1
            hplt hgj hbridge0 h
    | false =>
      have hgpnone : t.external_table_array.getD p none = none :=
        scanKey_false_none t.external_table_array k1 _ _ p hscan
      have habsK1 : ∀ x, ¬ (k1, x) ∈ entriesOf t.external_table_array :=
        absent_of_scan_false t.external_table_array k1 p hreach hscan
      have hbridge0 := probeAux_scan_false t k1 k2 true t.table_size
        (hash1 t k1) p hscan
      rw [if_pos rfl] at hbridge0
      cases hpN : lptProbe (lptNew t.internal_table_sizes) k2 true with
      | error e =>
        simp only [hpN] at hbridge0
        simp only [dktSet, dktProbe, hbridge0] at h
        cases h
      | ok bp =>
        simp only [hpN] at hbridge0
        have hgMod : (t.external_table_array.set p
            (some (k1, lptNew t.internal_table_sizes))).getD p none =
            some (k1, lptNew t.internal_table_sizes) :=
          listGetDSetSelf t.external_table_array p
            (some (k1, lptNew t.internal_table_sizes)) none hplt
        simp only [dktSet, dktProbe, hbridge0, hgMod] at h
        cases hset : lptSet (lptNew t.internal_table_sizes) k2 v with
        | error e => simp only [hset] at h; cases h
        | ok it2i =>
          simp only [hset] at h
          have hcollapse : (t.external_table_array.set p
              (some (k1, lptNew t.internal_table_sizes))).set p
              (some (k1, it2i)) =
              t.external_table_array.set p (some (k1, it2i)) := by
            rw [List.set_set]
          rw [hcollapse] at h
          have hwfN : lptWF (lptNew t.internal_table_sizes) = true :=
            lptNew_wf t.internal_table_sizes hheadI
          have hposN : ∀ x ∈ (lptNew t.internal_table_sizes).sizes,
              0 < x := hposI
          obtain ⟨hwfI2, hszI2, hmemk2, hmemiff2, hcntT, hcntF⟩ :=
            lptSet_spec (lptNew t.internal_table_sizes) it2i hwfN hposN
              k2 v hset
          have hcontN : lptContains (lptNew t.internal_table_sizes) k2 =
              false := by
            refine lptContains_false _ ((lptWF_iff _).mp hwfN).1 k2 ?_
            show ¬ k2 ∈ lptKeys (lptNew t.internal_table_sizes)
            unfold lptKeys
            rw [lptNew_entries]
            simp
          have hcnt2i : it2i.count = 1 := hcntF hcontN
          have hpermO : List.Perm
              (entriesOf (t.external_table_array.set p (some (k1, it2i))))
              ((k1, it2i) :: entriesOf t.external_table_array) :=
            entriesOf_insert_perm t.external_table_array p (k1, it2i)
              hplt hgpnone
          have hkeysabs : ¬ k1 ∈
              (entriesOf t.external_table_array).map Prod.fst := by
            intro hc
            obtain ⟨x, hx⟩ := (keys_mem_iff _ _).mp hc
            exact habsK1 x hx
          have hlensetO : (t.external_table_array.set p
              (some (k1, it2i))).length = t.external_table_array.length :=
            List.length_set t.external_table_array p (some (k1, it2i))
          have hwf2a : dktWF { t with
              external_table_array :=
                t.external_table_array.set p (some (k1, it2i)),
              external_table_length := t.external_table_length + 1 } =
              true := by
            rw [dktWF_parts]
            refine ⟨?_, ?_, ?_, ?_⟩
            · show 0 < (t.external_table_array.set p
                (some (k1, it2i))).length
              rw [hlensetO]; exact hn
            · show t.external_table_length + 1 = (entriesOf
                (t.external_table_array.set p (some (k1, it2i)))).length
              rw [hpermO.length_eq, List.length_cons, hcnt]
            · intro j hj kx itx hgj2
              show scanKey (t.external_table_array.set p
                  (some (k1, it2i))) kx
                (t.external_table_array.set p (some (k1, it2i))).length
                (polyHash (t.external_table_array.set p
                  (some (k1, it2i))).length kx) = some (j, true)
              rw [hlensetO]
              rw [hlensetO] at hj
              by_cases hjp : j = p
              · subst hjp
                have hgs : (t.external_table_array.set j
                    (some (k1, it2i))).getD j none = some (k1, it2i) :=
                  listGetDSetSelf t.external_table_array j
                    (some (k1, it2i)) none hplt
                rw [hgs] at hgj2
                have hk : k1 = kx :=
                  congrArg Prod.fst (Option.some.inj hgj2)
                subst hk
                exact scanKey_set_self t.external_table_array k1 it2i
                  t.table_size (hash1 t k1) j hplt hscan
              · have hgj3 : t.external_table_array.getD j none =
                    some (kx, itx) := by
                  rw [← listGetDSetNe t.external_table_array p j
                    (some (k1, it2i)) none (fun hc => hjp hc.symm)]
                  exact hgj2
                have hkne : k1 ≠ kx := by
                  intro hc
                  subst hc
                  exact habsK1 itx ((entriesOf_mem _ _).mpr ⟨j, hj, hgj3⟩)
                exact scanKey_set_other t.external_table_array kx k1 it2i
                  p hgpnone hkne t.table_size (polyHash t.table_size kx) j
                  (hreach j hj kx itx hgj3)
            · intro e he
              have he2 : e ∈ entriesOf
                  (t.external_table_array.set p (some (k1, it2i))) := he
              rcases List.mem_cons.mp (hpermO.mem_iff.mp he2) with
                heq | hm
              · subst heq
                refine ⟨hwfI2, ?_⟩
                show 0 < it2i.count
                rw [hcnt2i]
                omega
              · exact hinner e hm
          have hIS2a : InnerSizesOK { t with
              external_table_array :=
                t.external_table_array.set p (some (k1, it2i)),
              external_table_length := t.external_table_length + 1 } := by
            intro e he
            show e.2.sizes = t.internal_table_sizes
            have he2 : e ∈ entriesOf
                (t.external_table_array.set p (some (k1, it2i))) := he
            rcases List.mem_cons.mp (hpermO.mem_iff.mp he2) with heq | hm
            · subst heq
              show it2i.sizes = t.internal_table_sizes
              rw [hszI2]
              rfl
            · exact hIS e hm
          obtain ⟨hwf2, hszE2, hszI2', htrip, hlen2, hIS2⟩ :=
            dktSetAux t _ t2 hwf2a rfl rfl hposE hIS2a h
          have hmemtrip : (k1, k2, v) ∈ dktTriples { t with
              external_table_array :=
                t.external_table_array.set p (some (k1, it2i)),
              external_table_length := t.external_table_length + 1 } := by
            rw [dktTriples_mem]
            exact ⟨it2i, hpermO.mem_iff.mpr (List.mem_cons_self _ _),
              hmemk2⟩
          have hframe : ∀ j1 j2 x, ¬ (j1 = k1 ∧ j2 = k2) →
              ((j1, j2, x) ∈ dktTriples { t with
                external_table_array :=
                  t.external_table_array.set p (some (k1, it2i)),
                external_table_length := t.external_table_length + 1 } ↔
                (j1, j2, x) ∈ dktTriples t) := by
            intro j1 j2 x hne
            rw [dktTriples_mem, dktTriples_mem]
            constructor
            · rintro ⟨it3, hout, hin⟩
              have hout2 : (j1, it3) ∈ entriesOf
                  (t.external_table_array.set p (some (k1, it2i))) := hout
              rcases List.mem_cons.mp (hpermO.mem_iff.mp hout2) with
                heq | hm
              · have hj1 : j1 = k1 := congrArg Prod.fst heq
                have hit3 : it3 = it2i := congrArg Prod.snd heq
                have hj2 : j2 ≠ k2 := fun hc => hne ⟨hj1, hc⟩
                subst hit3
                have hinN : (j2, x) ∈ entriesOf
                    (lptNew t.internal_table_sizes).array :=
                  (hmemiff2 j2 x hj2).mp hin
                rw [lptNew_entries] at hinN
                cases hinN
              · exact ⟨it3, hm, hin⟩
            · rintro ⟨it3, hout, hin⟩
              by_cases hj1 : j1 = k1
              · subst hj1
                exact absurd hout (habsK1 it3)
              · refine ⟨it3, ?_, hin⟩
                exact hpermO.mem_iff.mpr (List.mem_cons_of_mem _ hout)
          have hdkc : dktContains t k1 k2 = false := by
            unfold dktContains
            rw [dktGet_noK1 t hn k1 hkeysabs k2]
          have hlen2a : dktLen { t with
              external_table_array :=
                t.external_table_array.set p (some (k1, it2i)),
              external_table_length := t.external_table_length + 1 } =
              dktLen t + it2i.count := by
            show ((entriesOf (t.external_table_array.set p
                (some (k1, it2i)))).map (fun e => e.2.count)).sum =
              dktLen t + it2i.count
            rw [(hpermO.map (fun e => e.2.count)).sum_eq]
            simp only [List.map_cons, List.sum_cons]
            unfold dktLen
            omega
          refine ⟨hwf2, hszE2, hszI2', hIS2, (htrip k1 k2 v).mpr hmemtrip,
            fun j1 j2 x hne => (htrip j1 j2 x).trans (hframe j1 j2 x hne),
            fun hct => ?_, fun _ => ?_⟩
          · rw [hdkc] at hct; cases hct
          · rw [hlen2, hlen2a, hcnt2i]

/-- A successful composite deletion: the pair disappears, all other
pairs are untouched, the count drops by one, and a deletion that empties
an inner table clears its outer slot. -/
theorem dktDel_spec (fuel : Nat) (t t2 : Table) (hwf : dktWF t = true)
    (hIS : InnerSizesOK t) (k1 k2 : List Nat)
    (h : dktDel fuel t k1 k2 = some (.ok t2)) :
    dktWF t2 = true ∧
    t2.external_table_sizes = t.external_table_sizes ∧
    t2.internal_table_sizes = t.internal_table_sizes ∧
    InnerSizesOK t2 ∧
    (∀ x, ¬ (k1, k2, x) ∈ dktTriples t2) ∧
    (∀ j1 j2 x, ¬ (j1 = k1 ∧ j2 = k2) →
      ((j1, j2, x) ∈ dktTriples t2 ↔ (j1, j2, x) ∈ dktTriples t)) ∧
    dktContains t k1 k2 = true ∧
    dktLen t2 + 1 = dktLen t ∧
    ((t2.external_table_length = t.external_table_length ∧
        k1 ∈ dktKeysAll t2) ∨
      (t2.external_table_length + 1 = t.external_table_length ∧
        ¬ k1 ∈ dktKeysAll t2)) := by
  obtain ⟨hn, hcnt, hreach, hinner⟩ := (dktWF_parts t).mp hwf
  have huniq := keyUnique_of_reach _ hreach
  cases hscan : scanKey t.external_table_array k1 t.table_size
      (hash1 t k1) with
  | none =>
    have hbridge := probeAux_scan_none t k1 k2 false t.table_size
      (hash1 t k1) hscan
    rw [if_neg Bool.false_ne_true] at hbridge
    simp only [dktDel, dktProbe, hbridge] at h
    cases h
  | some pb =>
    obtain ⟨p, b⟩ := pb
    have hplt : p < t.table_size :=
      scanKey_lt t.external_table_array k1 _ _ p b
        (polyHash_lt _ _ hn) hscan
    cases b with
    | false =>
      have hbridge := probeAux_scan_false t k1 k2 false t.table_size
        (hash1 t k1) p hscan
      rw [if_neg Bool.false_ne_true] at hbridge
      simp only [dktDel, dktProbe, hbridge] at h
      cases h
    | true =>
      obtain ⟨it1, hgj⟩ := scanKey_true_occupied t.external_table_array
        k1 _ _ p hscan
      have hmemE : (k1, it1) ∈ entriesOf t.external_table_array :=
        (entriesOf_mem _ _).mpr ⟨p, hplt, hgj⟩
      obtain ⟨hwfI, hcntposI⟩ := hinner (k1, it1) hmemE
      have hbridge0 := probeAux_scan_true t k1 k2 false t.table_size
        (hash1 t k1) p it1 hgj hscan
      cases hcontI : lptContains it1 k2 with
      | false =>
        rw [if_neg (by rw [hcontI]; exact Bool.false_ne_true),
          if_neg Bool.false_ne_true] at hbridge0
        simp only [dktDel, dktProbe, hbridge0] at h
        cases h
      | true =>
        cases hpI : lptProbe it1 k2 false with
        | error e =>
          exfalso
          simp only [lptContains, hpI] at hcontI
          exact Bool.false_ne_true hcontI
        | ok bp =>
          rw [if_pos hcontI] at hbridge0
          simp only [hpI] at hbridge0
          have hk2mem : k2 ∈ lptKeys it1 := by
            by_contra hc
            have hcf := lptContains_false it1
              ((lptWF_iff it1).mp hwfI).1 k2 hc
            rw [hcf] at hcontI
            exact Bool.false_ne_true hcontI
          obtain ⟨w, hw⟩ := (keys_mem_iff _ _).mp hk2mem
          have hdkget := dktGet_found t hwf p k1 it1 k2 w hplt hgj hw
          have hdkc : dktContains t k1 k2 = true :=
            (dktContains_iff t k1 k2).mpr ⟨w, hdkget⟩
          simp only [dktDel, dktProbe, hbridge0, hdkc, hgj,
            reduceIte] at h
          cases hdel : lptDel fuel it1 k2 with
          | none => simp only [hdel] at h; cases h
          | some res =>
            cases res with
            | error e => simp only [hdel] at h; cases h
            | ok it2i =>
              simp only [hdel] at h
              obtain ⟨hwfI2, hszI2, habs2, hmemiff2, _, hcnt2⟩ :=
                lptDel_spec fuel it1 it2i hwfI k2 hdel
              have hlenA1 : (t.external_table_array.set p none).length =
                  t.external_table_array.length :=
                List.length_set t.external_table_array p none
              have hpermT : List.Perm
                  ((k1, it1) :: entriesOf (t.external_table_array.set p
                    none)) (entriesOf t.external_table_array) :=
                entriesOf_remove_perm t.external_table_array p (k1, it1)
                  hplt hgj
              have habsA1 : ∀ it3, ¬ (k1, it3) ∈ entriesOf
                  (t.external_table_array.set p none) := by
                intro it3 hm
                obtain ⟨j, hj, hgj3⟩ := (entriesOf_mem _ _).mp hm
                rw [hlenA1] at hj
                have hjp : j ≠ p := by
                  intro hc
                  rw [hc, listGetDSetSelf t.external_table_array p none
                    none hplt] at hgj3
                  cases hgj3
                have hgj4 : t.external_table_array.getD j none =
                    some (k1, it3) := by
                  rw [← listGetDSetNe t.external_table_array p j none
                    none (fun hc => hjp hc.symm)]
                  exact hgj3
                exact hjp (huniq j p k1 it3 it1 hj hplt hgj4 hgj)
              have hsumT : ((entriesOf t.external_table_array).map
                  (fun e => e.2.count)).sum = it1.count +
                  ((entriesOf (t.external_table_array.set p none)).map
                    (fun e => e.2.count)).sum := by
                rw [← (hpermT.map (fun e => e.2.count)).sum_eq]
                simp only [List.map_cons, List.sum_cons]
              have hcntTpos : 0 < t.external_table_length := by
                rw [hcnt]
                exact List.length_pos.mpr (List.ne_nil_of_mem hmemE)
              by_cases hzero : it2i.count = 0
              · rw [if_pos hzero] at h
                have hcollapse : (t.external_table_array.set p
                    (some (k1, it2i))).set p none =
                    t.external_table_array.set p none := by
                  rw [List.set_set]
                rw [hcollapse] at h
                cases hrep : repairLoop fuel
                    (t.external_table_array.set p none)
                    ((p + 1) % t.table_size) with
                | none => simp only [hrep] at h; cases h
                | some res2 =>
                  cases res2 with
                  | error e => simp only [hrep] at h; cases h
                  | ok arr3 =>
                    simp only [hrep] at h
                    have hit2 := Except.ok.inj (Option.some.inj h)
                    subst hit2
                    have hent2i : entriesOf it2i.array = [] := by
                      obtain ⟨_, hcc, _⟩ := (lptWF_iff it2i).mp hwfI2
                      rw [hzero] at hcc
                      exact (List.eq_nil_of_length_eq_zero hcc.symm)
                    have hinv := repair_init t.external_table_array p k1
                      it1 hn hplt hgj hreach
                    have hnd1 : ((entriesOf (t.external_table_array.set p
                        none)).map Prod.fst).Nodup := by
                      have hnd0 := entries_nodup_of_unique _ huniq
                      have hnds := ((hpermT.map Prod.fst).nodup_iff).mpr
                        hnd0
                      exact (List.nodup_cons.mp hnds).2
                    have hn1 : 0 < (t.external_table_array.set p
                        none).length := by
                      rw [hlenA1]; exact hn
                    have hw1 : (p + 1) % t.table_size <
                        (t.external_table_array.set p none).length := by
                      rw [hlenA1]; exact Nat.mod_lt _ hn
                    obtain ⟨hlo, hro, hpo⟩ := repairLoop_spec fuel
                      (t.external_table_array.set p none)
                      ((p + 1) % t.table_size) arr3 hn1 hw1 hinv hnd1 hrep
                    have habs3 : ∀ it3, ¬ (k1, it3) ∈ entriesOf arr3 := by
                      intro it3 hm
                      exact habsA1 it3 (hpo.mem_iff.mp hm)
                    refine ⟨?_, rfl, rfl, ?_, ?_, ?_, hdkc, ?_, ?_⟩
                    · rw [dktWF_parts]
                      refine ⟨?_, ?_, hro, ?_⟩
                      · show 0 < arr3.length
                        rw [hlo, hlenA1]; exact hn
                      · show t.external_table_length - 1 =
                          (entriesOf arr3).length
                        rw [hpo.length_eq]
                        have hlT := hpermT.length_eq
                        simp only [List.length_cons] at hlT
                        omega
                      · intro e he
                        have he2 : e ∈ entriesOf
                            (t.external_table_array.set p none) :=
                          hpo.mem_iff.mp he
                        exact hinner e
                          (hpermT.mem_iff.mp (List.mem_cons_of_mem _ he2))
                    · intro e he
                      show e.2.sizes = t.internal_table_sizes
                      have he2 : e ∈ entriesOf
                          (t.external_table_array.set p none) :=
                        hpo.mem_iff.mp he
                      exact hIS e
                        (hpermT.mem_iff.mp (List.mem_cons_of_mem _ he2))
                    · intro x hm
                      rw [dktTriples_mem] at hm
                      obtain ⟨it3, hout, _⟩ := hm
                      exact habs3 it3 hout
                    · intro j1 j2 x hne
                      rw [dktTriples_mem, dktTriples_mem]
                      constructor
                      · rintro ⟨it3, hout, hin⟩
                        have hout2 : (j1, it3) ∈ entriesOf
                            (t.external_table_array.set p none) :=
                          hpo.mem_iff.mp hout
                        refine ⟨it3, hpermT.mem_iff.mp
                          (List.mem_cons_of_mem _ hout2), hin⟩
                      · rintro ⟨it3, hout, hin⟩
                        have hout2 := hpermT.mem_iff.mpr hout
                        rcases List.mem_cons.mp hout2 with heq | hm2
                        · have hj1 : j1 = k1 := congrArg Prod.fst heq
                          have hit3 : it3 = it1 := congrArg Prod.snd heq
                          have hj2 : j2 ≠ k2 := fun hc => hne ⟨hj1, hc⟩
                          subst hit3
                          exfalso
                          have hin2 : (j2, x) ∈ entriesOf it2i.array :=
                            (hmemiff2 j2 x hj2).mpr hin
                          rw [hent2i] at hin2
                          cases hin2
                        · exact ⟨it3, hpo.mem_iff.mpr hm2, hin⟩
                    · show dktLen { t with
                          external_table_array := arr3,
                          external_table_length :=
                            t.external_table_length - 1 } + 1 = dktLen t
                      unfold dktLen
                      have hsum3 : ((entriesOf arr3).map
                          (fun e => e.2.count)).sum =
                          ((entriesOf (t.external_table_array.set p
                            none)).map (fun e => e.2.count)).sum :=
                        (hpo.map (fun e => e.2.count)).sum_eq
                      show ((entriesOf arr3).map
                          (fun e => e.2.count)).sum + 1 =
                        ((entriesOf t.external_table_array).map
                          (fun e => e.2.count)).sum
                      omega
                    · refine Or.inr ⟨?_, ?_⟩
                      · show t.external_table_length - 1 + 1 =
                          t.external_table_length
                        omega
                      · intro hm
                        obtain ⟨it3, hit3⟩ := (keys_mem_iff _ _).mp hm
                        exact habs3 it3 hit3
              · rw [if_neg hzero] at h
                have hit2 := Except.ok.inj (Option.some.inj h)
                subst hit2
                have hperm2a : List.Perm
                    (entriesOf (t.external_table_array.set p
                      (some (k1, it2i))))
                    ((k1, it2i) :: entriesOf
                      (t.external_table_array.set p none)) := by
                  have hins := entriesOf_insert_perm
                    (t.external_table_array.set p none) p (k1, it2i)
                    (by rw [hlenA1]; exact hplt)
                    (listGetDSetSelf t.external_table_array p none none
                      hplt)
                  rw [List.set_set] at hins
                  exact hins
                have hlenset2 : (t.external_table_array.set p
                    (some (k1, it2i))).length =
                    t.external_table_array.length :=
                  List.length_set t.external_table_array p
                    (some (k1, it2i))
                have hkeep : k1 ∈ dktKeysAll { t with
                    external_table_array := t.external_table_array.set p
                      (some (k1, it2i)) } := by
                  refine (keys_mem_iff _ _).mpr ⟨it2i, ?_⟩
                  show (k1, it2i) ∈ entriesOf
                    (t.external_table_array.set p (some (k1, it2i)))
                  exact hperm2a.mem_iff.mpr (List.mem_cons_self _ _)
                refine ⟨?_, rfl, rfl, ?_, ?_, ?_, hdkc, ?_,
                  Or.inl ⟨rfl, hkeep⟩⟩
                · rw [dktWF_parts]
                  refine ⟨?_, ?_, ?_, ?_⟩
                  · show 0 < (t.external_table_array.set p
                      (some (k1, it2i))).length
                    rw [hlenset2]; exact hn
                  · show t.external_table_length = (entriesOf
                      (t.external_table_array.set p
                        (some (k1, it2i)))).length
                    rw [hperm2a.length_eq, List.length_cons, hcnt,
                      ← hpermT.length_eq, List.length_cons]
                  · intro j hj kx itx hgj2
                    show scanKey (t.external_table_array.set p
                        (some (k1, it2i))) kx
                      (t.external_table_array.set p
                        (some (k1, it2i))).length
                      (polyHash (t.external_table_array.set p
                        (some (k1, it2i))).length kx) = some (j, true)
                    rw [hlenset2]
                    rw [hlenset2] at hj
                    rw [scanKey_set_samekey t.external_table_array p k1
                      it1 it2i hgj hplt kx]
                    by_cases hjp : j = p
                    · subst hjp
                      have hgs : (t.external_table_array.set j
                          (some (k1, it2i))).getD j none =
                          some (k1, it2i) :=
                        listGetDSetSelf t.external_table_array j
                          (some (k1, it2i)) none hplt
                      rw [hgs] at hgj2
                      have hk : k1 = kx :=
                        congrArg Prod.fst (Option.some.inj hgj2)
                      subst hk
                      exact hreach j hj k1 it1 hgj
                    · have hgj3 : t.external_table_array.getD j none =
                          some (kx, itx) := by
                        rw [← listGetDSetNe t.external_table_array p j
                          (some (k1, it2i)) none (fun hc => hjp hc.symm)]
                        exact hgj2
                      exact hreach j hj kx itx hgj3
                  · intro e he
                    have he2 : e ∈ entriesOf
                        (t.external_table_array.set p
                          (some (k1, it2i))) := he
                    rcases List.mem_cons.mp (hperm2a.mem_iff.mp he2) with
                      heq | hm
                    · subst heq
                      exact ⟨hwfI2, Nat.pos_of_ne_zero hzero⟩
                    · exact hinner e
                        (hpermT.mem_iff.mp (List.mem_cons_of_mem _ hm))
                · intro e he
                  show e.2.sizes = t.internal_table_sizes
                  have he2 : e ∈ entriesOf
                      (t.external_table_array.set p
                        (some (k1, it2i))) := he
                  rcases List.mem_cons.mp (hperm2a.mem_iff.mp he2) with
                    heq | hm
                  · subst heq
                    show it2i.sizes = t.internal_table_sizes
                    rw [hszI2]
                    exact hIS (k1, it1) hmemE
                  · exact hIS e
                      (hpermT.mem_iff.mp (List.mem_cons_of_mem _ hm))
                · intro x hm
                  rw [dktTriples_mem] at hm
                  obtain ⟨it3, hout, hin⟩ := hm
                  have hout2 : (k1, it3) ∈ entriesOf
                      (t.external_table_array.set p
                        (some (k1, it2i))) := hout
                  rcases List.mem_cons.mp (hperm2a.mem_iff.mp hout2) with
                    heq | hm2
                  · have hit3 : it3 = it2i := congrArg Prod.snd heq
                    subst hit3
                    exact habs2 x hin
                  · exact habsA1 it3 hm2
                · intro j1 j2 x hne
                  rw [dktTriples_mem, dktTriples_mem]
                  constructor
                  · rintro ⟨it3, hout, hin⟩
                    have hout2 : (j1, it3) ∈ entriesOf
                        (t.external_table_array.set p
                          (some (k1, it2i))) := hout
                    rcases List.mem_cons.mp (hperm2a.mem_iff.mp hout2)
                      with heq | hm2
                    · have hj1 : j1 = k1 := congrArg Prod.fst heq
                      have hit3 : it3 = it2i := congrArg Prod.snd heq
                      have hj2 : j2 ≠ k2 := fun hc => hne ⟨hj1, hc⟩
                      subst hit3
                      refine ⟨it1, ?_, (hmemiff2 j2 x hj2).mp hin⟩
                      rw [hj1]
                      exact hmemE
                    · exact ⟨it3, hpermT.mem_iff.mp
                        (List.mem_cons_of_mem _ hm2), hin⟩
                  · rintro ⟨it3, hout, hin⟩
                    have hout2 := hpermT.mem_iff.mpr hout
                    rcases List.mem_cons.mp hout2 with heq | hm2
                    · have hj1 : j1 = k1 := congrArg Prod.fst heq
                      have hit3 : it3 = it1 := congrArg Prod.snd heq
                      have hj2 : j2 ≠ k2 := fun hc => hne ⟨hj1, hc⟩
                      subst hit3
                      refine ⟨it2i, hperm2a.mem_iff.mpr ?_,
                        (hmemiff2 j2 x hj2).mpr hin⟩
                      rw [hj1]
                      exact List.mem_cons_self _ _
                    · exact ⟨it3, hperm2a.mem_iff.mpr
                        (List.mem_cons_of_mem _ hm2), hin⟩
                · show dktLen { t with
                      external_table_array := t.external_table_array.set
                        p (some (k1, it2i)) } + 1 = dktLen t
                  unfold dktLen
                  have hsum2 : ((entriesOf (t.external_table_array.set p
                      (some (k1, it2i)))).map (fun e => e.2.count)).sum =
                      it2i.count + ((entriesOf
                        (t.external_table_array.set p none)).map
                        (fun e => e.2.count)).sum := by
                    rw [(hperm2a.map (fun e => e.2.count)).sum_eq]
                    simp only [List.map_cons, List.sum_cons]
                  show ((entriesOf (t.external_table_array.set p
                      (some (k1, it2i)))).map (fun e => e.2.count)).sum +
                      1 = ((entriesOf t.external_table_array).map
                      (fun e => e.2.count)).sum
                  omega

/-- A pair stored nowhere is reported missing. -/
theorem dktGet_absent_of_no_triple (t : Table) (hwf : dktWF t = true)
    (k1 k2 : List Nat)
    (habs : ∀ v, ¬ (k1, k2, v) ∈ dktTriples t) :
    dktGet t k1 k2 = .error .key := by
  rcases dktGet_cases t hwf k1 k2 with ⟨v, hv⟩ | he
  · exact absurd ((dktGet_ok_iff t hwf k1 k2 v).mp hv) (habs v)
  · exact he

/-- The non wrapping forward scan misses a key held in no slot. -/
theorem findFwd_none (t : Table) (key : List Nat)
    (habs : ∀ j, j < t.table_size → ∀ it1,
      t.external_table_array.getD j none ≠ some (key, it1)) :
    findFwd t key = none := by
  unfold findFwd
  rw [List.find?_eq_none]
  intro i hi
  rw [List.mem_range] at hi
  cases hg : t.external_table_array.getD i none with
  | none => simp [hg]
  | some e =>
    obtain ⟨k, it⟩ := e
    have hk : ¬ (k = key) := fun hc => habs i hi it (by rw [hg, hc])
    simp [hg, hk]

/-- Scoped enumeration of a key held in no outer slot raises
KeyError. -/
theorem dktKeys1_absent (t : Table) (key : List Nat)
    (habs : ∀ j, j < t.table_size → ∀ it1,
      t.external_table_array.getD j none ≠ some (key, it1)) :
    dktKeys1 t key = .error .key ∧ dktValues1 t key = .error .key := by
  have hf := findFwd_none t key habs
  constructor
  · simp only [dktKeys1, hf]
  · simp only [dktValues1, hf]

/-- Scoped enumeration succeeds on a key stored at or after its hashed
start position. -/
theorem dktKeys1_found (t : Table) (hwf : dktWF t = true)
    (key : List Nat) (it1 : LPT) (j : Nat) (hj : j < t.table_size)
    (hgj : t.external_table_array.getD j none = some (key, it1))
    (hge : hash1 t key ≤ j) :
    dktKeys1 t key = .ok (lptKeys it1) ∧
    dktValues1 t key = .ok (lptValues it1) := by
  obtain ⟨hn, _, hreach, _⟩ := (dktWF_parts t).mp hwf
  have huniq := keyUnique_of_reach _ hreach
  have hmemj : j ∈ List.range t.table_size := List.mem_range.mpr hj
  have hPj : (decide (hash1 t key ≤ j) &&
      (match t.external_table_array.getD j none with
       | some (k, _) => k = key
       | none => false)) = true := by
    rw [hgj]
    simp [hge]
  cases hf : findFwd t key with
  | none =>
    exfalso
    have hf2 : (List.range t.table_size).find? (fun i =>
        decide (hash1 t key ≤ i) &&
        (match t.external_table_array.getD i none with
         | some (k, _) => k = key
         | none => false)) = none := hf
    rw [List.find?_eq_none] at hf2
    exact (hf2 j hmemj) hPj
  | some i =>
    have hf2 : (List.range t.table_size).find? (fun i =>
        decide (hash1 t key ≤ i) &&
        (match t.external_table_array.getD i none with
         | some (k, _) => k = key
         | none => false)) = some i := hf
    have hPi := List.find?_some hf2
    have hiR : i ∈ List.range t.table_size := List.mem_of_find?_eq_some hf2
    rw [List.mem_range] at hiR
    rw [Bool.and_eq_true] at hPi
    obtain ⟨_, hPi2⟩ := hPi
    cases hg2 : t.external_table_array.getD i none with
    | none => rw [hg2] at hPi2; cases hPi2
    | some e =>
      obtain ⟨k, it2⟩ := e
      rw [hg2] at hPi2
      have hk : k = key := by
        simpa using hPi2
      subst hk
      have hij : i = j := huniq i j k it2 it1 hiR hj hg2 hgj
      subst hij
      rw [hgj] at hg2
      have hit : it1 = it2 := by
        have h5 := Option.some.inj hg2
        rw [Prod.mk.injEq] at h5
        exact h5.2
      subst hit
      constructor
      · simp only [dktKeys1, hf, hgj]
      · simp only [dktValues1, hf, hgj]

/-- A public mutating operation on the composite table. -/
inductive DOp where
| set (k1 k2 : List Nat) (v : Nat)
| del (k1 k2 : List Nat)

/-- Run one operation. -/
def applyOp (fuel : Nat) (t : Table) : DOp → Option (Except Err Table)
| .set k1 k2 v => some (dktSet t k1 k2 v)
| .del k1 k2 => dktDel fuel t k1 k2

/-- Run a sequence of operations, stopping at the first exception. -/
def applySeq (fuel : Nat) : List DOp → Table → Option (Except Err Table)
| [], t => some (.ok t)
| op :: rest, t =>
  match applyOp fuel t op with
  | some (.ok t2) => applySeq fuel rest t2
  | some (.error e) => some (.error e)
  | none => none

/-- A successful sequence of inserts and deletes preserves well
formedness and the configuration. -/
theorem applySeq_wf : ∀ (ops : List DOp) (fuel : Nat) (t t2 : Table),
    dktWF t = true → InnerSizesOK t →
    (∀ x ∈ t.external_table_sizes, 0 < x) →
    (∀ x ∈ t.internal_table_sizes, 0 < x) →
    0 < t.internal_table_sizes.getD 0 0 →
    applySeq fuel ops t = some (.ok t2) →
    dktWF t2 = true ∧ InnerSizesOK t2 ∧
    t2.external_table_sizes = t.external_table_sizes ∧
    t2.internal_table_sizes = t.internal_table_sizes := by
  intro ops
  induction ops with
  | nil =>
    intro fuel t t2 h1 h2 _ _ _ h
    have ht := Except.ok.inj (Option.some.inj h)
    subst ht
    exact ⟨h1, h2, rfl, rfl⟩
  | cons op rest ih =>
    intro fuel t t2 hwf hIS hpe hpi hh h
    cases hop : applyOp fuel t op with
    | none => simp only [applySeq, hop] at h; cases h
    | some res =>
      cases res with
      | error e => simp only [applySeq, hop] at h; cases h
      | ok t1 =>
        simp only [applySeq, hop] at h
        cases op with
        | set k1 k2 v =>
          have hset : dktSet t k1 k2 v = .ok t1 := by
            simp only [applyOp] at hop
            exact Option.some.inj hop
          obtain ⟨hwf1, hszE1, hszI1, hIS1, _⟩ :=
            dktSet_spec t t1 hwf hIS hpe hpi hh k1 k2 v hset
          obtain ⟨hwf2, hIS2, hsE, hsI⟩ := ih fuel t1 t2 hwf1 hIS1
            (by rw [hszE1]; exact hpe) (by rw [hszI1]; exact hpi)
            (by rw [hszI1]; exact hh) h
          exact ⟨hwf2, hIS2, hsE.trans hszE1, hsI.trans hszI1⟩
        | del k1 k2 =>
          have hdel : dktDel fuel t k1 k2 = some (.ok t1) := hop
          obtain ⟨hwf1, hszE1, hszI1, hIS1, _⟩ :=
            dktDel_spec fuel t t1 hwf hIS k1 k2 hdel
          obtain ⟨hwf2, hIS2, hsE, hsI⟩ := ih fuel t1 t2 hwf1 hIS1
            (by rw [hszE1]; exact hpe) (by rw [hszI1]; exact hpi)
            (by rw [hszI1]; exact hh) h
          exact ⟨hwf2, hIS2, hsE.trans hszE1, hsI.trans hszI1⟩

end DKT

namespace IHT

/-- The table holding the single pair [97, 98] with value 5. -/
def sW1 : List (Option Sl) :=
  match setF 4 0 emptySlots [97, 98] 5 with
  | some s => s
  | none => emptySlots

/-- The table after overwriting [97, 98] with 9. -/
def sW2 : List (Option Sl) :=
  match setF 4 0 sW1 [97, 98] 9 with
  | some s => s
  | none => sW1

/-- The table holding the colliding keys [97, 97] and [97, 98]. -/
def sC6 : List (Option Sl) :=
  match setF 5 0 emptySlots [97, 97] 1 with
  | some s =>
    (match setF 5 0 s [97, 98] 2 with
     | some s2 => s2
     | none => s)
  | none => emptySlots

/-- The nested table created by the collision in sC6. -/
def sC6sub : List (Option Sl) :=
  match sC6.getD 19 none with
  | some (.sub _ s) => s
  | _ => emptySlots

/-- The nested table of sC6 after deleting [97, 97] inside it. -/
def sC6subDel : List (Option Sl) :=
  match delF 4 1 sC6sub [97, 97] with
  | some (some s) => s
  | _ => emptySlots

end IHT

namespace DKT

/-- Checking the stored size class lists by evaluation. -/
theorem innerSizesOK_of_all (t : Table)
    (h : (entriesOf t.external_table_array).all
      (fun e => e.2.sizes == t.internal_table_sizes) = true) :
    InnerSizesOK t := by
  intro e he
  exact beq_iff_eq.mp (List.all_eq_true.mp h e he)

/-- A five slot composite table, empty. -/
def tW0 : Table := mkTable (some [5]) (some [5])

/-- tW0 after storing ([97], [98]) with value 42. -/
def tW1 : Table :=
  match dktSet tW0 [97] [98] 42 with
  | .ok t => t
  | .error _ => tW0

/-- The inner table of tW1 at slot 2. -/
def tW1it : LPT :=
  match tW1.external_table_array.getD 2 none with
  | some (_, it) => it
  | none => lptNew [5]

/-- tW1 after deleting its only pair. -/
def tW1d : Table :=
  match dktDel 10 tW1 [97] [98] with
  | some (.ok t) => t
  | _ => tW1

/-- tW1 after overwriting ([97], [98]) with 7. -/
def tW1o : Table :=
  match dktSet tW1 [97] [98] 7 with
  | .ok t => t
  | .error _ => tW1

/-- tW0 after two inserts and one delete. -/
def tC2 : Table :=
  match applySeq 10 [.set [97] [98] 1, .set [99] [100] 2,
      .del [97] [98]] tW0 with
  | some (.ok t) => t
  | _ => tW0

/-- A table with [99] at its hashed slot 4 and [104], which hashes to
the same slot, wrapped around to slot 0. -/
def tCH : Table :=
  match applySeq 10 [.set [99] [1] 1, .set [104] [1] 2] tW0 with
  | some (.ok t) => t
  | _ => tW0

/-- The inner table of tCH at slot 4. -/
def tCHit : LPT :=
  match tCH.external_table_array.getD 4 none with
  | some (_, it) => it
  | none => lptNew [5]

/-- A table over the single size class 3 whose second insert already
performed the at maximum rehash. -/
def tC5 : Table :=
  match applySeq 10 [.set [0] [0] 1, .set [1] [0] 1]
      (mkTable (some [3]) (some [3])) with
  | some (.ok t) => t
  | _ => mkTable (some [3]) (some [3])

/-- The wrap around scenario over the size classes [5, 11]. -/
def tC9 : Table :=
  match applySeq 10 [.set [99] [1] 1, .set [104] [1] 2]
      (mkTable (some [5, 11]) (some [5])) with
  | some (.ok t) => t
  | _ => mkTable (some [5, 11]) (some [5])

/-- tC9 after the outer rehash to capacity 11. -/
def tC9r : Table :=
  match dktRehash tC9 with
  | .ok t => t
  | .error _ => tC9

/-- An inner table over the size classes [5, 11] holding one pair. -/
def itC9 : LPT :=
  match lptSet (lptNew [5, 11]) [7] 3 with
  | .ok x => x
  | .error _ => lptNew [5, 11]

/-- itC9 after an inner rehash. -/
def itC9r : LPT :=
  match lptRehash itC9 with
  | .ok x => x
  | .error _ => itC9

/-- A table storing two pairs under the same first key. -/
def tC10 : Table :=
  match applySeq 10 [.set [97] [1] 1, .set [97] [2] 2] tW0 with
  | some (.ok t) => t
  | _ => tW0

end DKT

/-- C1: Round-trip for both tables: after setting a key to v, a
subsequent get on that key returns exactly v; after deleting that key, a
subsequent get on it raises the not-found error (KeyError). -/
theorem C1_round_trip :
    (∀ f lvl slots key value out,
      IHT.invB f lvl slots = true →
      IHT.setF f lvl slots key value = some out →
      IHT.getF f lvl out key = some (some value) ∧
      ∃ out2, IHT.delF f lvl out key = some (some out2) ∧
        IHT.getF f lvl out2 key = some none) ∧
    (∀ t t2 k1 k2 v fuel,
      DKT.dktWF t = true → DKT.InnerSizesOK t →
      (∀ x ∈ t.external_table_sizes, 0 < x) →
      (∀ x ∈ t.internal_table_sizes, 0 < x) →
      0 < t.internal_table_sizes.getD 0 0 →
      DKT.dktSet t k1 k2 v = .ok t2 →
      DKT.dktGet t2 k1 k2 = .ok v ∧
      (∀ t3, DKT.dktDel fuel t2 k1 k2 = some (.ok t3) →
        DKT.dktGet t3 k1 k2 = .error .key)) := by
  constructor
  · intro f lvl slots key value out hinv hset
    obtain ⟨hinv2, hget2, _, _⟩ :=
      IHT.set_spec f lvl slots key value out hinv hset
    refine ⟨hget2, ?_⟩
    obtain ⟨r, hr, hcase⟩ := IHT.del_spec f lvl out key hinv2
    rcases hcase with ⟨hrn, hgn⟩ | ⟨out2, hro, _, hget3, _, _, _⟩
    · exfalso
      rw [hget2] at hgn
      have hc := Option.some.inj hgn
      cases hc
    · exact ⟨out2, hro ▸ hr, hget3⟩
  · intro t t2 k1 k2 v fuel hwf hIS hpe hpi hh hset
    obtain ⟨hwf2, _, _, hIS2, hmem, _⟩ :=
      DKT.dktSet_spec t t2 hwf hIS hpe hpi hh k1 k2 v hset
    refine ⟨(DKT.dktGet_ok_iff t2 hwf2 k1 k2 v).mpr hmem, ?_⟩
    intro t3 hdel
    obtain ⟨hwf3, _, _, _, habs, _⟩ :=
      DKT.dktDel_spec fuel t2 t3 hwf2 hIS2 k1 k2 hdel
    exact DKT.dktGet_absent_of_no_triple t3 hwf3 k1 k2 habs

/-- Witness for C1 on concrete tables: a trie table holding [97, 98]
with value 5, and a composite table holding ([97], [98]) with 42. -/
theorem C1_round_trip_witness :
    (IHT.invB 4 0 IHT.emptySlots = true ∧
     (IHT.getF 4 0 IHT.sW1 [97, 98] = some (some 5) ∧
      ∃ out2, IHT.delF 4 0 IHT.sW1 [97, 98] = some (some out2) ∧
        IHT.getF 4 0 out2 [97, 98] = some none)) ∧
    (DKT.dktWF DKT.tW0 = true ∧
     (DKT.dktGet DKT.tW1 [97] [98] = .ok 42 ∧
      (∀ t3, DKT.dktDel 10 DKT.tW1 [97] [98] = some (.ok t3) →
        DKT.dktGet t3 [97] [98] = .error .key))) :=
  ⟨⟨by decide,
    C1_round_trip.1 4 0 IHT.emptySlots [97, 98] 5 IHT.sW1 (by decide) rfl⟩,
   ⟨by decide,
    C1_round_trip.2 DKT.tW0 DKT.tW1 [97] [98] 42 10 (by decide)
      (DKT.innerSizesOK_of_all DKT.tW0 (by decide)) (by decide)
      (by decide) (by decide) rfl⟩⟩

/-- C2: Cluster integrity of the composite table: after any finite
sequence of inserts and deletes, every stored key1 remains reachable by
forward probing with wrap around from hash1(key1), and lookup and
membership find every stored pair. -/
theorem C2_cluster_integrity (ops : List DKT.DOp) (fuel : Nat)
    (t t2 : DKT.Table)
    (hwf : DKT.dktWF t = true) (hIS : DKT.InnerSizesOK t)
    (hpe : ∀ x ∈ t.external_table_sizes, 0 < x)
    (hpi : ∀ x ∈ t.internal_table_sizes, 0 < x)
    (hh : 0 < t.internal_table_sizes.getD 0 0)
    (hrun : DKT.applySeq fuel ops t = some (.ok t2)) :
    ∀ j, j < t2.table_size → ∀ k1 it1,
      t2.external_table_array.getD j none = some (k1, it1) →
      DKT.scanKey t2.external_table_array k1 t2.table_size
        (DKT.hash1 t2 k1) = some (j, true) ∧
      ∀ k2 v, (k2, v) ∈ DKT.entriesOf it1.array →
        DKT.dktGet t2 k1 k2 = .ok v ∧
        DKT.dktContains t2 k1 k2 = true := by
  obtain ⟨hwf2, _, _, _⟩ :=
    DKT.applySeq_wf ops fuel t t2 hwf hIS hpe hpi hh hrun
  obtain ⟨_, _, hreach, _⟩ := (DKT.dktWF_parts t2).mp hwf2
  intro j hj k1 it1 hgj
  refine ⟨hreach j hj k1 it1 hgj, ?_⟩
  intro k2 v hmem
  have hget := DKT.dktGet_found t2 hwf2 j k1 it1 k2 v hj hgj hmem
  exact ⟨hget, (DKT.dktContains_iff t2 k1 k2).mpr ⟨v, hget⟩⟩

/-- Witness for C2: two inserts and one delete on a five slot table. -/
theorem C2_cluster_integrity_witness :
    DKT.dktWF DKT.tW0 = true ∧
    (∀ j, j < DKT.tC2.table_size → ∀ k1 it1,
      DKT.tC2.external_table_array.getD j none = some (k1, it1) →
      DKT.scanKey DKT.tC2.external_table_array k1 DKT.tC2.table_size
        (DKT.hash1 DKT.tC2 k1) = some (j, true) ∧
      ∀ k2 v, (k2, v) ∈ DKT.entriesOf it1.array →
        DKT.dktGet DKT.tC2 k1 k2 = .ok v ∧
        DKT.dktContains DKT.tC2 k1 k2 = true) :=
  ⟨by decide,
   C2_cluster_integrity
     [.set [97] [98] 1, .set [99] [100] 2, .del [97] [98]] 10
     DKT.tW0 DKT.tC2 (by decide)
     (DKT.innerSizesOK_of_all DKT.tW0 (by decide)) (by decide)
     (by decide) (by decide) rfl⟩

/-- C3 (corrected): over lowercase keys the trie insert terminates with
fuel beyond the key length, and the location list of a stored key of
length L has at most L + 1 indices.  Outside lowercase a-z the hash is
not injective on characters and insertion of certain distinct keys never
terminates, refuting the unconditional claim. -/
theorem C3_depth_bound_termination :
    (∀ f slots key v,
      IHT.invB f 0 slots = true → IHT.lowB f 0 slots = true →
      IHT.lowKey key = true → key.length + 2 ≤ f →
      ∃ out, IHT.setF f 0 slots key v = some out) ∧
    (∀ f slots key loc,
      IHT.invB f 0 slots = true → IHT.lowB f 0 slots = true →
      IHT.getLocF f 0 slots key = some (some loc) →
      loc.length ≤ key.length + 1) := by
  constructor
  · intro f slots key v hinv hlow hkey hfuel
    obtain ⟨out, hout, _⟩ := IHT.set_ok f 0 slots key v hinv hlow hkey
      (fun its hits p hp m hm => absurd hm (Nat.not_lt_zero m))
      (Nat.zero_le _) (by omega)
    exact ⟨out, hout⟩
  · intro f slots key loc hinv hlow hloc
    have := IHT.loc_bound f 0 slots key loc hinv hlow hloc
    omega

/-- Witness for C3 on the key [97, 98] in an empty table. -/
theorem C3_depth_bound_termination_witness :
    (IHT.invB 4 0 IHT.emptySlots = true ∧
     IHT.lowKey [97, 98] = true ∧
     (∃ out, IHT.setF 4 0 IHT.emptySlots [97, 98] 5 = some out)) ∧
    (IHT.getLocF 4 0 IHT.sW1 [97, 98] = some (some [19]) ∧
     ([19] : List Nat).length ≤ ([97, 98] : IKey).length + 1) :=
  ⟨⟨by decide, by decide,
    C3_depth_bound_termination.1 4 IHT.emptySlots [97, 98] 5 (by decide)
      (by decide) (by decide) (by decide)⟩,
   ⟨rfl,
    C3_depth_bound_termination.2 4 IHT.sW1 [97, 98] [19] (by decide)
      (by decide) rfl⟩⟩

/-- Counterexample for C3 as stated: the distinct keys [97] and [123]
collide at every level because ord(c) mod 26 identifies them, so
inserting [123] into a table holding [97] recurses forever: no amount of
fuel makes the insert succeed. -/
theorem C3_depth_bound_counterexample :
    ¬ (([97] : IKey) = [123]) ∧
    IHT.invB 2 0 (IHT.emptySlots.set 19 (some (.leaf [97] 7))) = true ∧
    IHT.setF 1000 0 (IHT.emptySlots.set 19 (some (.leaf [97] 7)))
      [123] 8 = none ∧
    (∀ n, IHT.setF n 0 (IHT.emptySlots.set 19 (some (.leaf [97] 7)))
      [123] 8 = none) :=
  ⟨by decide, by decide, IHT.diverge_top 1000, IHT.diverge_top⟩

/-- C4 (corrected): keys(key1)/values(key1) scan forward from
hash1(key1) WITHOUT wrap around, so they resolve key1 only when it
occupies a slot at or after its hash position; a key1 stored before its
hash position (placed by wrap around probing) is reported missing even
though it occupies an outer slot, refuting the as stated claim.  The
corrected behaviour: success with exactly the inner table's keys and
values when key1 sits at or after its hash position, and KeyError when
key1 occupies no outer slot at all. -/
theorem C4_scoped_enumeration :
    (∀ t key it1 j, DKT.dktWF t = true → j < t.table_size →
      t.external_table_array.getD j none = some (key, it1) →
      DKT.hash1 t key ≤ j →
      DKT.dktKeys1 t key = .ok (DKT.lptKeys it1) ∧
      DKT.dktValues1 t key = .ok (DKT.lptValues it1)) ∧
    (∀ t key, (∀ j, j < t.table_size → ∀ it1,
        t.external_table_array.getD j none ≠ some (key, it1)) →
      DKT.dktKeys1 t key = .error .key ∧
      DKT.dktValues1 t key = .error .key) :=
  ⟨fun t key it1 j hwf hj hg hge =>
    DKT.dktKeys1_found t hwf key it1 j hj hg hge,
   fun t key habs => DKT.dktKeys1_absent t key habs⟩

/-- Witness for C4: [99] sits at its own hash slot 4 of tCH, so scoped
enumeration resolves it; the empty table resolves nothing. -/
theorem C4_scoped_enumeration_witness :
    (DKT.dktWF DKT.tCH = true ∧
     DKT.hash1 DKT.tCH [99] ≤ 4 ∧
     (DKT.dktKeys1 DKT.tCH [99] = .ok (DKT.lptKeys DKT.tCHit) ∧
      DKT.dktValues1 DKT.tCH [99] = .ok (DKT.lptValues DKT.tCHit))) ∧
    (DKT.dktKeys1 DKT.tW0 [1] = .error .key ∧
     DKT.dktValues1 DKT.tW0 [1] = .error .key) :=
  ⟨⟨by decide, by decide,
    C4_scoped_enumeration.1 DKT.tCH [99] DKT.tCHit 4 (by decide)
      (by decide) rfl (by decide)⟩,
   C4_scoped_enumeration.2 DKT.tW0 [1] (by
     intro j hj it1 hc
     rw [show DKT.tW0.external_table_array.getD j none = none from
       DKT.replicateGetDNone 5 j] at hc
     cases hc)⟩

/-- Counterexample for C4 as stated: in tCH the key [104] occupies outer
slot 0 (reached by wrap around probing from its hash slot 4) and lookup
finds its pair, yet keys([104]) and values([104]) raise KeyError. -/
theorem C4_scoped_enumeration_counterexample :
    DKT.dktWF DKT.tCH = true ∧
    DKT.tCH.external_table_array.getD 0 none =
      some ([104], DKT.LPT.mk [5] 0
        [none, some ([1], 2), none, none, none] 1) ∧
    DKT.hash1 DKT.tCH [104] = 4 ∧
    DKT.dktGet DKT.tCH [104] [1] = .ok 2 ∧
    DKT.dktContains DKT.tCH [104] [1] = true ∧
    DKT.dktKeys1 DKT.tCH [104] = .error .key ∧
    DKT.dktValues1 DKT.tCH [104] = .error .key := by
  refine ⟨by decide, by decide, by decide, by decide, by decide,
    by decide, by decide⟩

/-- C5 (code bug): _rehash advances the size index before the at maximum
check, so the first at maximum rehash is a no-op that leaves the index
past the end, and the next insertion that trips the half full rule
indexes past the size class list: the insert raises IndexError, which is
neither of the two contractual error kinds. -/
theorem C5_rehash_at_max_bug :
    DKT.dktWF DKT.tC5 = true ∧
    DKT.tC5.size_index = 1 ∧
    DKT.tC5.external_table_sizes = [3] ∧
    DKT.dktSet DKT.tC5 [2] [0] 1 = .error .index ∧
    DKT.Err.index ≠ DKT.Err.key ∧ DKT.Err.index ≠ DKT.Err.full := by
  refine ⟨by decide, by decide, by decide, by decide, by decide,
    by decide⟩

/-- C6: Collapse correctness of the trie delete: a present key deletes
successfully, the surviving keys keep their values, the item count drops
by exactly one, and structurally a delegated delete that leaves exactly
one pair in the nested table elevates that pair into the parent slot as
a leaf, while an emptied nested table clears the slot. -/
theorem C6_collapse_correctness :
    (∀ f lvl slots key key2,
      IHT.invB f lvl slots = true →
      IHT.getF f lvl slots key ≠ some none →
      key2 ≠ key →
      ∃ out, IHT.delF f lvl slots key = some (some out) ∧
        IHT.invB f lvl out = true ∧
        IHT.getF f lvl out key = some none ∧
        IHT.getF f lvl out key2 = IHT.getF f lvl slots key2 ∧
        (∀ its itsOut, IHT.itemsF f slots = some its →
          IHT.itemsF f out = some itsOut →
          itsOut.length + 1 = its.length)) ∧
    (∀ f lvl slots key l2 s2 s2x kS vS,
      slots.getD (IHT.hashI lvl key) none = some (.sub l2 s2) →
      IHT.delF f l2 s2 key = some (some s2x) →
      IHT.itemsF f s2x = some [(kS, vS)] →
      IHT.delF (f + 1) lvl slots key =
        some (some (slots.set (IHT.hashI lvl key)
          (some (.leaf kS vS))))) ∧
    (∀ f lvl slots key l2 s2 s2x,
      slots.getD (IHT.hashI lvl key) none = some (.sub l2 s2) →
      IHT.delF f l2 s2 key = some (some s2x) →
      IHT.itemsF f s2x = some [] →
      IHT.delF (f + 1) lvl slots key =
        some (some (slots.set (IHT.hashI lvl key) none))) := by
  refine ⟨?_, ?_, ?_⟩
  · intro f lvl slots key key2 hinv hpresent hne
    obtain ⟨r, hr, hcase⟩ := IHT.del_spec f lvl slots key hinv
    rcases hcase with ⟨_, hgn⟩ | ⟨out, hro, hinv2, hgk, hframe, hlen, _⟩
    · exact absurd hgn hpresent
    · exact ⟨out, hro ▸ hr, hinv2, hgk, hframe key2 hne,
        fun its itsOut h1 h2 => (hlen its itsOut h1 h2).1⟩
  · intro f lvl slots key l2 s2 s2x kS vS hg hdel hitems
    have hlen := IHT.lenF_eq_items f s2x [(kS, vS)] hitems
    conv_lhs => rw [IHT.delF]
    simp only [hg, hdel, hlen, hitems, List.length_singleton,
      reduceIte]
  · intro f lvl slots key l2 s2 s2x hg hdel hitems
    have hlen := IHT.lenF_eq_items f s2x [] hitems
    conv_lhs => rw [IHT.delF]
    simp only [hg, hdel, hlen, hitems, List.length_nil, reduceIte]
    rw [if_neg Nat.zero_ne_one]

/-- Witness for C6: deleting [97, 97] from the table holding the
colliding keys [97, 97] and [97, 98] elevates the survivor. -/
theorem C6_collapse_correctness_witness :
    (IHT.invB 5 0 IHT.sC6 = true ∧
     (∃ out, IHT.delF 5 0 IHT.sC6 [97, 97] = some (some out) ∧
        IHT.invB 5 0 out = true ∧
        IHT.getF 5 0 out [97, 97] = some none ∧
        IHT.getF 5 0 out [97, 98] = IHT.getF 5 0 IHT.sC6 [97, 98] ∧
        (∀ its itsOut, IHT.itemsF 5 IHT.sC6 = some its →
          IHT.itemsF 5 out = some itsOut →
          itsOut.length + 1 = its.length))) ∧
    IHT.delF 5 0 IHT.sC6 [97, 97] =
      some (some (IHT.sC6.set (IHT.hashI 0 [97, 97])
        (some (.leaf [97, 98] 2)))) :=
  ⟨⟨by decide,
    C6_collapse_correctness.1 5 0 IHT.sC6 [97, 97] [97, 98] (by decide)
      (by decide) (by decide)⟩,
   C6_collapse_correctness.2.1 4 0 IHT.sC6 [97, 97] 1 IHT.sC6sub
     IHT.sC6subDel [97, 98] 2 rfl rfl rfl⟩

/-- C7: Occupied slot invariant: after every completed sequence of
public mutations, every occupied outer slot holds an inner table with at
least one pair; and a delete that removes the last pair of an inner
table clears that outer slot and decrements the occupancy count in the
same operation. -/
theorem C7_occupied_invariant :
    (∀ ops fuel t t2, DKT.dktWF t = true → DKT.InnerSizesOK t →
      (∀ x ∈ t.external_table_sizes, 0 < x) →
      (∀ x ∈ t.internal_table_sizes, 0 < x) →
      0 < t.internal_table_sizes.getD 0 0 →
      DKT.applySeq fuel ops t = some (.ok t2) →
      ∀ j, j < t2.table_size → ∀ k1 it1,
        t2.external_table_array.getD j none = some (k1, it1) →
        0 < it1.count) ∧
    (∀ fuel t t2 k1 k2 j it1, DKT.dktWF t = true →
      DKT.InnerSizesOK t →
      j < t.table_size →
      t.external_table_array.getD j none = some (k1, it1) →
      it1.count = 1 →
      DKT.dktDel fuel t k1 k2 = some (.ok t2) →
      ¬ k1 ∈ DKT.dktKeysAll t2 ∧
      t2.external_table_length + 1 = t.external_table_length) := by
  constructor
  · intro ops fuel t t2 hwf hIS hpe hpi hh hrun j hj k1 it1 hgj
    obtain ⟨hwf2, _, _, _⟩ :=
      DKT.applySeq_wf ops fuel t t2 hwf hIS hpe hpi hh hrun
    obtain ⟨_, _, _, hinner⟩ := (DKT.dktWF_parts t2).mp hwf2
    exact (hinner (k1, it1) ((DKT.entriesOf_mem _ _).mpr
      ⟨j, hj, hgj⟩)).2
  · intro fuel t t2 k1 k2 j it1 hwf hIS hj hgj hone hdel
    obtain ⟨hwf2, _, _, _, habs, hframe, hcont, _, hdisj⟩ :=
      DKT.dktDel_spec fuel t t2 hwf hIS k1 k2 hdel
    obtain ⟨_, _, hreach, hinner⟩ := (DKT.dktWF_parts t).mp hwf
    have huniq := DKT.keyUnique_of_reach _ hreach
    have hmemE : (k1, it1) ∈ DKT.entriesOf t.external_table_array :=
      (DKT.entriesOf_mem _ _).mpr ⟨j, hj, hgj⟩
    obtain ⟨hwfI1, _⟩ := hinner (k1, it1) hmemE
    have hlen1 : (DKT.entriesOf it1.array).length = 1 := by
      obtain ⟨_, hc1, _⟩ := (DKT.lptWF_iff it1).mp hwfI1
      rw [← hc1]
      exact hone
    obtain ⟨a1, ha1⟩ := List.length_eq_one.mp hlen1
    obtain ⟨v0, hv0⟩ := (DKT.dktContains_iff t k1 k2).mp hcont
    obtain ⟨it5, hit5, hmem5⟩ := (DKT.dktTriples_mem t k1 k2 v0).mp
      ((DKT.dktGet_ok_iff t hwf k1 k2 v0).mp hv0)
    obtain ⟨j5, hj5, hg5⟩ := (DKT.entriesOf_mem _ _).mp hit5
    have hj5j : j5 = j := huniq j5 j k1 it5 it1 hj5 hj hg5 hgj
    rw [hj5j, hgj] at hg5
    have hit5e : it5 = it1 := by
      have h5 := Option.some.inj hg5
      rw [Prod.mk.injEq] at h5
      exact h5.2.symm
    rw [hit5e] at hmem5
    have hk2a1 : (k2, v0) = a1 := by
      rw [ha1] at hmem5
      exact List.mem_singleton.mp hmem5
    have hnotin : ¬ k1 ∈ DKT.dktKeysAll t2 := by
      intro hmem
      obtain ⟨it3, hit3⟩ :=
        (DKT.keys_mem_iff (DKT.entriesOf t2.external_table_array)
          k1).mp hmem
      obtain ⟨_, _, _, hinner2⟩ := (DKT.dktWF_parts t2).mp hwf2
      obtain ⟨hwfI3, hpos3⟩ := hinner2 (k1, it3) hit3
      obtain ⟨_, hcnt3, _⟩ := (DKT.lptWF_iff it3).mp hwfI3
      have hne3 : DKT.entriesOf it3.array ≠ [] := by
        intro hc
        rw [hc] at hcnt3
        rw [hcnt3] at hpos3
        simp at hpos3
      obtain ⟨p3, hmemp3⟩ := List.exists_mem_of_ne_nil _ hne3
      obtain ⟨j2, x⟩ := p3
      have htrip2 : (k1, j2, x) ∈ DKT.dktTriples t2 :=
        (DKT.dktTriples_mem t2 k1 j2 x).mpr ⟨it3, hit3, hmemp3⟩
      have hj2 : j2 ≠ k2 := by
        intro hc
        subst hc
        exact habs x htrip2
      have htrip1 : (k1, j2, x) ∈ DKT.dktTriples t :=
        (hframe k1 j2 x (fun hp => hj2 hp.2)).mp htrip2
      obtain ⟨it4, hit4, hmem4⟩ :=
        (DKT.dktTriples_mem t k1 j2 x).mp htrip1
      obtain ⟨j4, hj4, hg4⟩ := (DKT.entriesOf_mem _ _).mp hit4
      have hj4j : j4 = j := huniq j4 j k1 it4 it1 hj4 hj hg4 hgj
      rw [hj4j, hgj] at hg4
      have hit4e : it4 = it1 := by
        have h5 := Option.some.inj hg4
        rw [Prod.mk.injEq] at h5
        exact h5.2.symm
      rw [hit4e] at hmem4
      have hj2a1 : (j2, x) = a1 := by
        rw [ha1] at hmem4
        exact List.mem_singleton.mp hmem4
      rw [← hk2a1] at hj2a1
      exact hj2 (congrArg Prod.fst hj2a1)
    rcases hdisj with ⟨_, hin⟩ | ⟨hdec, _⟩
    · exact absurd hin hnotin
    · exact ⟨hnotin, hdec⟩

/-- Witness for C7: an insert/insert/delete run keeps every occupied
slot non empty, and deleting the only pair of tW1 clears its slot and
decrements the occupancy. -/
theorem C7_occupied_invariant_witness :
    (DKT.dktWF DKT.tW0 = true ∧
     (∀ j, j < DKT.tC2.table_size → ∀ k1 it1,
        DKT.tC2.external_table_array.getD j none = some (k1, it1) →
        0 < it1.count)) ∧
    (DKT.tW1it.count = 1 ∧
     (¬ [97] ∈ DKT.dktKeysAll DKT.tW1d ∧
      DKT.tW1d.external_table_length + 1 =
        DKT.tW1.external_table_length)) :=
  ⟨⟨by decide,
    C7_occupied_invariant.1
      [.set [97] [98] 1, .set [99] [100] 2, .del [97] [98]] 10
      DKT.tW0 DKT.tC2 (by decide)
      (DKT.innerSizesOK_of_all DKT.tW0 (by decide)) (by decide)
      (by decide) (by decide) rfl⟩,
   ⟨by decide,
    C7_occupied_invariant.2 10 DKT.tW1 DKT.tW1d [97] [98] 2 DKT.tW1it
      (by decide) (DKT.innerSizesOK_of_all DKT.tW1 (by decide))
      (by decide) rfl (by decide) rfl⟩⟩

/-- C8: Idempotent overwrite for both tables: setting an already present
key again with a different value leaves only the new value retrievable
by get, and the element count is unchanged by the overwrite. -/
theorem C8_idempotent_overwrite :
    (∀ f lvl slots key v0 v out,
      IHT.invB f lvl slots = true →
      IHT.getF f lvl slots key = some (some v0) →
      IHT.setF f lvl slots key v = some out →
      IHT.invB f lvl out = true ∧
      IHT.getF f lvl out key = some (some v) ∧
      (∀ its itsOut, IHT.itemsF f slots = some its →
        IHT.itemsF f out = some itsOut →
        itsOut.length = its.length)) ∧
    (∀ t t2 k1 k2 v0 v,
      DKT.dktWF t = true → DKT.InnerSizesOK t →
      (∀ x ∈ t.external_table_sizes, 0 < x) →
      (∀ x ∈ t.internal_table_sizes, 0 < x) →
      0 < t.internal_table_sizes.getD 0 0 →
      DKT.dktGet t k1 k2 = .ok v0 →
      DKT.dktSet t k1 k2 v = .ok t2 →
      DKT.dktGet t2 k1 k2 = .ok v ∧
      DKT.dktLen t2 = DKT.dktLen t) := by
  constructor
  · intro f lvl slots key v0 v out hinv hget0 hset
    obtain ⟨hinv2, hget2, _, hlen⟩ :=
      IHT.set_spec f lvl slots key v out hinv hset
    refine ⟨hinv2, hget2, fun its itsOut h1 h2 => ?_⟩
    have h3 := (hlen its itsOut h1 h2).1
    rw [hget0] at h3
    simpa using h3
  · intro t t2 k1 k2 v0 v hwf hIS hpe hpi hh hget0 hset
    obtain ⟨hwf2, _, _, _, hmem, _, hcontEq, _⟩ :=
      DKT.dktSet_spec t t2 hwf hIS hpe hpi hh k1 k2 v hset
    have hcont : DKT.dktContains t k1 k2 = true :=
      (DKT.dktContains_iff t k1 k2).mpr ⟨v0, hget0⟩
    exact ⟨(DKT.dktGet_ok_iff t2 hwf2 k1 k2 v).mpr hmem, hcontEq hcont⟩

/-- Witness for C8: overwriting [97, 98] (5 to 9) in the trie table and
([97], [98]) (42 to 7) in the composite table. -/
theorem C8_idempotent_overwrite_witness :
    (IHT.invB 4 0 IHT.sW1 = true ∧
     IHT.getF 4 0 IHT.sW2 [97, 98] = some (some 9)) ∧
    (DKT.dktGet DKT.tW1o [97] [98] = .ok 7 ∧
     DKT.dktLen DKT.tW1o = DKT.dktLen DKT.tW1) :=
  ⟨⟨by decide,
    (C8_idempotent_overwrite.1 4 0 IHT.sW1 [97, 98] 5 9 IHT.sW2
      (by decide) (by decide) rfl).2.1⟩,
   ⟨(C8_idempotent_overwrite.2 DKT.tW1 DKT.tW1o [97] [98] 42 7
      (by decide) (DKT.innerSizesOK_of_all DKT.tW1 (by decide))
      (by decide) (by decide) (by decide) (by decide) rfl).1,
    (C8_idempotent_overwrite.2 DKT.tW1 DKT.tW1o [97] [98] 42 7
      (by decide) (DKT.innerSizesOK_of_all DKT.tW1 (by decide))
      (by decide) (by decide) (by decide) (by decide) rfl).2⟩⟩

/-- C9 (corrected): a successful outer rehash preserves every
observation through get, membership, the stored triples, the full key
list and len, and a successful inner rehash preserves lookups, the
count and the stored pairs; however the scoped enumerations keys(key1)
and values(key1) are not preserved, because their non wrapping forward
scan can start finding a wrapped key after the rehash (see the
counterexample). -/
theorem C9_resize_transparency :
    (∀ t t2, DKT.dktWF t = true →
      (∀ x ∈ t.external_table_sizes, 0 < x) →
      DKT.dktRehash t = .ok t2 →
      (∀ k1 k2, DKT.dktGet t2 k1 k2 = DKT.dktGet t k1 k2) ∧
      (∀ k1 k2, DKT.dktContains t2 k1 k2 = DKT.dktContains t k1 k2) ∧
      (∀ k1 k2 v, (k1, k2, v) ∈ DKT.dktTriples t2 ↔
        (k1, k2, v) ∈ DKT.dktTriples t) ∧
      (∀ k1, k1 ∈ DKT.dktKeysAll t2 ↔ k1 ∈ DKT.dktKeysAll t) ∧
      DKT.dktLen t2 = DKT.dktLen t) ∧
    (∀ it it2, DKT.lptWF it = true →
      (∀ x ∈ it.sizes, 0 < x) →
      DKT.lptRehash it = .ok it2 →
      (∀ k, DKT.lptGet it2 k = DKT.lptGet it k) ∧
      it2.count = it.count ∧
      (∀ p, p ∈ DKT.entriesOf it2.array ↔
        p ∈ DKT.entriesOf it.array)) := by
  constructor
  · intro t t2 hwf hpos hreh
    obtain ⟨hwf2, _, _, _, hperm⟩ :=
      DKT.dktRehash_spec t t2 hwf hpos hreh
    have hiff := DKT.dktTriples_perm_iff t t2 hperm
    have hget : ∀ k1 k2, DKT.dktGet t2 k1 k2 = DKT.dktGet t k1 k2 :=
      fun k1 k2 => DKT.dktGet_congr t t2 hwf hwf2 hiff k1 k2
    refine ⟨hget, fun k1 k2 => ?_, hiff, fun k1 => ?_,
      DKT.dktLen_perm_eq t t2 hperm⟩
    · unfold DKT.dktContains
      rw [hget k1 k2]
    · unfold DKT.dktKeysAll
      exact (hperm.map Prod.fst).mem_iff
  · intro it it2 hwf hpos hreh
    obtain ⟨hwf2, _, hcnt, hperm⟩ :=
      DKT.lptRehash_spec it it2 hwf hpos hreh
    exact ⟨fun k => DKT.lptGet_frame it it2 hwf hwf2 k
        (fun x => hperm.mem_iff),
      hcnt, fun p => hperm.mem_iff⟩

/-- Witness for C9: the rehash of tC9 from capacity 5 to 11 and the
inner rehash of itC9 preserve lookups and counts. -/
theorem C9_resize_transparency_witness :
    (DKT.dktWF DKT.tC9 = true ∧
     DKT.dktGet DKT.tC9r [104] [1] = DKT.dktGet DKT.tC9 [104] [1] ∧
     DKT.dktLen DKT.tC9r = DKT.dktLen DKT.tC9) ∧
    (DKT.lptWF DKT.itC9 = true ∧
     DKT.lptGet DKT.itC9r [7] = DKT.lptGet DKT.itC9 [7] ∧
     DKT.itC9r.count = DKT.itC9.count) :=
  ⟨⟨by decide,
    (C9_resize_transparency.1 DKT.tC9 DKT.tC9r (by decide) (by decide)
      rfl).1 [104] [1],
    (C9_resize_transparency.1 DKT.tC9 DKT.tC9r (by decide) (by decide)
      rfl).2.2.2.2⟩,
   ⟨by decide,
    (C9_resize_transparency.2 DKT.itC9 DKT.itC9r (by decide)
      (by decide) rfl).1 [7],
    (C9_resize_transparency.2 DKT.itC9 DKT.itC9r (by decide)
      (by decide) rfl).2.1⟩⟩

/-- Counterexample for C9: across the outer rehash of tC9 the wrapped
key [104] keeps its get observation but flips keys(key1) and
values(key1) from KeyError to a successful answer, so the externally
observed behaviour of the enumeration views is not rehash invariant. -/
theorem C9_resize_counterexample :
    DKT.dktWF DKT.tC9 = true ∧
    DKT.dktRehash DKT.tC9 = .ok DKT.tC9r ∧
    DKT.dktGet DKT.tC9 [104] [1] = .ok 2 ∧
    DKT.dktGet DKT.tC9r [104] [1] = .ok 2 ∧
    DKT.dktKeys1 DKT.tC9 [104] = .error .key ∧
    DKT.dktKeys1 DKT.tC9r [104] = .ok [[1]] ∧
    DKT.dktValues1 DKT.tC9 [104] = .error .key ∧
    DKT.dktValues1 DKT.tC9r [104] = .ok [2] := by
  refine ⟨by decide, by decide, by decide, by decide, by decide,
    by decide, by decide, by decide⟩

/-- C10 (implicit): len of the composite table counts stored key pairs,
the sum of the inner table counts over occupied outer slots, equal to
the number of stored triples; it can strictly exceed the outer occupancy
count external_table_length. -/
theorem C10_len_counts_pairs :
    (∀ t, DKT.dktWF t = true →
      DKT.dktLen t =
        ((DKT.entriesOf t.external_table_array).map
          (fun e => e.2.count)).sum ∧
      DKT.dktLen t = (DKT.dktTriples t).length) ∧
    (DKT.dktWF DKT.tC10 = true ∧
     DKT.tC10.external_table_length = 1 ∧
     DKT.dktLen DKT.tC10 = 2 ∧
     DKT.tC10.external_table_length < DKT.dktLen DKT.tC10) := by
  constructor
  · intro t hwf
    exact ⟨rfl, DKT.dktLen_eq_triples t hwf⟩
  · exact ⟨by decide, by decide, by decide, by decide⟩

/-- Witness for C10: the pair count identity evaluated on the two pair,
one slot table tC10. -/
theorem C10_len_counts_pairs_witness :
    DKT.dktLen DKT.tC10 = (DKT.dktTriples DKT.tC10).length :=
  (C10_len_counts_pairs.1 DKT.tC10 (by decide)).2
